import Mathlib

/-!
# A verification development for the SVCS command handlers

Shallow embedding of `task/main.go` (a small file-level version control
system) and proofs about its command handlers.

* A Go `string` or `[]byte` is a list of bytes (`Bytes`); a string literal
  of the source is written `str "..."` (its UTF-8 bytes).
* The filesystem is a map from locations (lists of names, from the root)
  to nodes (a regular file with its content, or a directory), together
  with the working directory of the process.  Path strings are resolved
  component by component; every step is taken inside a directory.
  Symbolic links and permission bits are outside the model: a call of the
  `os` package fails only where the node it needs is missing or of the
  wrong kind.  The error of a failed `os.Stat` is modelled (`StatErr`):
  `os.IsNotExist(err)` holds for `ENOENT` only, not for a path that runs
  through a regular file (`ENOTDIR`), holds a name longer than `NAME_MAX`
  or is longer than `PATH_MAX` (`ENAMETOOLONG`), or holds a zero byte
  (`EINVAL`), so that `os.IsNotExist(err)` and `err != nil` differ.
* A handler returns the filesystem it leaves, the bytes written to
  standard output, and whether the process was ended by `log.Fatal`.
* `main` calls the handlers with `filepath.Join(currentDir, "vcs")` after
  `os.MkdirAll` of `vcs/commits`: `vcsDirOf` is that path and `Repo` the
  state `main` has then established.
* `crypto/sha256`, `encoding/hex`, `strings.Split`, `strings.TrimSpace`,
  `path/filepath.{Join,Clean,Base}` are transcribed from the Go standard
  library (Unix conventions).
-/

namespace VCS

/-! ## Bytes and string literals -/

abbrev Bytes := List UInt8

/-- The bytes of a string literal (UTF-8). -/
def str (s : String) : Bytes := s.data.flatMap String.utf8EncodeChar

/-- The byte of the line feed character. -/
def NL : UInt8 := 10

/-- The byte of the path separator `/`. -/
def SEP : UInt8 := 47

/-! ## strings.Split -/

/-- Worker of `strings.Split` for a non-empty separator: `skip` counts the
bytes of an already matched separator that are still to be passed over.
The pieces are cut at the leftmost, non-overlapping occurrences. -/
def splitGo (sep : Bytes) : Nat → Bytes → List Bytes
  | _, [] => [[]]
  | k + 1, _ :: cs => splitGo sep k cs
  | 0, c :: cs =>
    if sep <+: c :: cs then [] :: splitGo sep (sep.length - 1) cs
    else
      match splitGo sep 0 cs with
      | [] => [[c]]
      | p :: ps => (c :: p) :: ps

/-- Go `strings.Split(s, sep)` for a non-empty separator. -/
def Split (s sep : Bytes) : List Bytes := splitGo sep 0 s

/-! ## strings.TrimSpace -/

/-- First rune of a byte string and its width, as `utf8.DecodeRune`
(the error rune U+FFFD of width 1 on malformed input). -/
def decodeRune (s : Bytes) : Nat × Nat :=
  let cont (b : UInt8) : Bool := 0x80 ≤ b.toNat ∧ b.toNat ≤ 0xBF
  match s with
  | [] => (0xFFFD, 0)
  | b0 :: rest =>
    let x0 := b0.toNat
    if x0 < 0x80 then (x0, 1)
    else if x0 < 0xC2 then (0xFFFD, 1)
    else if x0 < 0xE0 then
      match rest with
      | b1 :: _ => if cont b1 then ((x0 % 32) * 64 + b1.toNat % 64, 2) else (0xFFFD, 1)
      | _ => (0xFFFD, 1)
    else if x0 < 0xF0 then
      match rest with
      | b1 :: b2 :: _ =>
        let lo := if x0 = 0xE0 then 0xA0 else 0x80
        let hi := if x0 = 0xED then 0x9F else 0xBF
        if lo ≤ b1.toNat ∧ b1.toNat ≤ hi ∧ cont b2 then
          ((x0 % 16) * 4096 + (b1.toNat % 64) * 64 + b2.toNat % 64, 3)
        else (0xFFFD, 1)
      | _ => (0xFFFD, 1)
    else if x0 < 0xF5 then
      match rest with
      | b1 :: b2 :: b3 :: _ =>
        let lo := if x0 = 0xF0 then 0x90 else 0x80
        let hi := if x0 = 0xF4 then 0x8F else 0xBF
        if lo ≤ b1.toNat ∧ b1.toNat ≤ hi ∧ cont b2 ∧ cont b3 then
          ((x0 % 8) * 262144 + (b1.toNat % 64) * 4096 + (b2.toNat % 64) * 64 + b3.toNat % 64, 4)
        else (0xFFFD, 1)
      | _ => (0xFFFD, 1)
    else (0xFFFD, 1)

/-- Go `unicode.IsSpace`: the code points with the White_Space property. -/
def isSpace (r : Nat) : Bool :=
  (0x09 ≤ r ∧ r ≤ 0x0D) ∨ r = 0x20 ∨ r = 0x85 ∨ r = 0xA0 ∨ r = 0x1680 ∨
  (0x2000 ≤ r ∧ r ≤ 0x200A) ∨ r = 0x2028 ∨ r = 0x2029 ∨ r = 0x202F ∨
  r = 0x205F ∨ r = 0x3000

/-- Drop leading white space, rune by rune (`fuel` bounds the number of runes). -/
def trimLeft : Nat → Bytes → Bytes
  | 0, s => s
  | fuel + 1, s =>
    match s with
    | [] => []
    | _ :: _ =>
      let (r, w) := decodeRune s
      if isSpace r then trimLeft fuel (s.drop w) else s

/-- Last rune of a byte string and its width, as `utf8.DecodeLastRune`. -/
def decodeLastRune (s : Bytes) : Nat × Nat :=
  match s.getLast? with
  | none => (0xFFFD, 0)
  | some b =>
    if b.toNat < 0x80 then (b.toNat, 1)
    else
      let fits (k : Nat) : Bool := k ≤ s.length ∧ (decodeRune (s.drop (s.length - k))).2 = k
      if fits 2 then decodeRune (s.drop (s.length - 2))
      else if fits 3 then decodeRune (s.drop (s.length - 3))
      else if fits 4 then decodeRune (s.drop (s.length - 4))
      else (0xFFFD, 1)

/-- Drop trailing white space, rune by rune (`fuel` bounds the number of runes). -/
def trimRight : Nat → Bytes → Bytes
  | 0, s => s
  | fuel + 1, s =>
    match s with
    | [] => []
    | _ :: _ =>
      let (r, w) := decodeLastRune s
      if isSpace r then trimRight fuel (s.take (s.length - w)) else s

/-- Go `strings.TrimSpace`: the string without leading and trailing white space. -/
def TrimSpace (s : Bytes) : Bytes :=
  let t := trimLeft s.length s
  trimRight t.length t

/-! ## path/filepath (Unix) -/

/-- One element of a path under `filepath.Clean`; `out` holds the elements
kept so far, the last one first.  An empty element or `.` is dropped, `..`
removes the element before it, is dropped at the root, and is kept at the
start of a relative path. -/
def cleanStep (rooted : Bool) (out : List Bytes) (c : Bytes) : List Bytes :=
  if c = [] ∨ c = str "." then out
  else if c = str ".." then
    match out with
    | [] => if rooted then [] else [c]
    | top :: rest => if top = str ".." then c :: out else rest
  else c :: out

/-- Go `filepath.Clean`: the shortest path name equivalent to `path` by
purely lexical processing. -/
def Clean (path : Bytes) : Bytes :=
  if path = [] then str "."
  else
    let rooted : Bool := path.head? = some SEP
    let out := ((Split path [SEP]).foldl (cleanStep rooted) []).reverse
    if rooted then SEP :: [SEP].intercalate out
    else if out = [] then str "." else [SEP].intercalate out

/-- Go `filepath.Join`: the elements from the first non-empty one on are
joined with the separator and the result is cleaned; no non-empty element
gives the empty string. -/
def Join (elem : List Bytes) : Bytes :=
  match elem.dropWhile (fun e => decide (e = [])) with
  | [] => []
  | e :: es => Clean ([SEP].intercalate (e :: es))

/-- Go `filepath.Base`: the last element of `path`, after removing trailing
separators; `.` for the empty path and `/` for a path of separators only. -/
def Base (path : Bytes) : Bytes :=
  if path = [] then str "."
  else
    let p := (path.reverse.dropWhile (fun b => decide (b = SEP))).reverse
    let b := (p.reverse.takeWhile (fun b => decide (b ≠ SEP))).reverse
    if b = [] then [SEP] else b

/-! ## crypto/sha256 and encoding/hex -/

namespace SHA256

/-- The round constants. -/
def K : List Nat := [
  0x428a2f98, 0x71374491, 0xb5c0fbcf, 0xe9b5dba5, 0x3956c25b, 0x59f111f1, 0x923f82a4, 0xab1c5ed5,
  0xd807aa98, 0x12835b01, 0x243185be, 0x550c7dc3, 0x72be5d74, 0x80deb1fe, 0x9bdc06a7, 0xc19bf174,
  0xe49b69c1, 0xefbe4786, 0x0fc19dc6, 0x240ca1cc, 0x2de92c6f, 0x4a7484aa, 0x5cb0a9dc, 0x76f988da,
  0x983e5152, 0xa831c66d, 0xb00327c8, 0xbf597fc7, 0xc6e00bf3, 0xd5a79147, 0x06ca6351, 0x14292967,
  0x27b70a85, 0x2e1b2138, 0x4d2c6dfc, 0x53380d13, 0x650a7354, 0x766a0abb, 0x81c2c92e, 0x92722c85,
  0xa2bfe8a1, 0xa81a664b, 0xc24b8b70, 0xc76c51a3, 0xd192e819, 0xd6990624, 0xf40e3585, 0x106aa070,
  0x19a4c116, 0x1e376c08, 0x2748774c, 0x34b0bcb5, 0x391c0cb3, 0x4ed8aa4a, 0x5b9cca4f, 0x682e6ff3,
  0x748f82ee, 0x78a5636f, 0x84c87814, 0x8cc70208, 0x90befffa, 0xa4506ceb, 0xbef9a3f7, 0xc67178f2]

/-- The initial hash value. -/
def H0 : List Nat := [
  0x6a09e667, 0xbb67ae85, 0x3c6ef372, 0xa54ff53a, 0x510e527f, 0x9b05688c, 0x1f83d9ab, 0x5be0cd19]

/-- Addition of 32-bit words. -/
def add32 (a b : Nat) : Nat := (a + b) % 2 ^ 32

/-- Rotation of a 32-bit word to the right. -/
def rotr (x n : Nat) : Nat := ((x >>> n) ||| (x <<< (32 - n))) % 2 ^ 32

/-- Complement of a 32-bit word. -/
def not32 (x : Nat) : Nat := x ^^^ 0xffffffff

/-- The padded message: a byte 0x80, zero bytes up to 56 modulo 64, and the
length in bits as eight bytes, most significant first. -/
def pad (msg : List Nat) : List Nat :=
  let len := msg.length
  let zeros := (119 - len % 64) % 64
  let bits := len * 8
  msg ++ [0x80] ++ List.replicate zeros 0 ++
    (List.range 8).map (fun i => (bits >>> (8 * (7 - i))) % 256)

/-- Four bytes as a big-endian word. -/
def word (b0 b1 b2 b3 : Nat) : Nat := b0 * 2 ^ 24 + b1 * 2 ^ 16 + b2 * 2 ^ 8 + b3

/-- The bytes of a message as big-endian words. -/
def words : List Nat → List Nat
  | b0 :: b1 :: b2 :: b3 :: rest => word b0 b1 b2 b3 :: words rest
  | _ => []

/-- The first `n` blocks of sixteen words. -/
def chunks16 : Nat → List Nat → List (List Nat)
  | 0, _ => []
  | n + 1, ws => ws.take 16 :: chunks16 n (ws.drop 16)

def s0 (x : Nat) : Nat := rotr x 7 ^^^ rotr x 18 ^^^ (x >>> 3)
def s1 (x : Nat) : Nat := rotr x 17 ^^^ rotr x 19 ^^^ (x >>> 10)
def S0 (x : Nat) : Nat := rotr x 2 ^^^ rotr x 13 ^^^ rotr x 22
def S1 (x : Nat) : Nat := rotr x 6 ^^^ rotr x 11 ^^^ rotr x 25

/-- The message schedule, newest word first: `w` holds W[t-1], W[t-2], ... -/
def extend : Nat → List Nat → List Nat
  | 0, w => w
  | n + 1, w =>
    let x := add32 (add32 (s1 (w.getD 1 0)) (w.getD 6 0)) (add32 (s0 (w.getD 14 0)) (w.getD 15 0))
    extend n (x :: w)

/-- The sixty-four words of the message schedule of a block. -/
def schedule (block : List Nat) : List Nat := (extend 48 block.reverse).reverse

/-- One round of the compression function on the working variables a..h. -/
def round (st : List Nat) (kw : Nat × Nat) : List Nat :=
  match st with
  | [a, b, c, d, e, f, g, h] =>
    let ch := (e &&& f) ^^^ (not32 e &&& g)
    let t1 := add32 (add32 (add32 h (S1 e)) (add32 ch kw.1)) kw.2
    let maj := (a &&& b) ^^^ (a &&& c) ^^^ (b &&& c)
    let t2 := add32 (S0 a) maj
    [add32 t1 t2, a, b, c, add32 d t1, e, f, g]
  | _ => st

/-- The compression function: the hash value after one more block. -/
def compress (h : List Nat) (block : List Nat) : List Nat :=
  List.zipWith add32 h ((K.zip (schedule block)).foldl round h)

/-- The four bytes of a word, most significant first. -/
def wordBytes (w : Nat) : List Nat := [(w >>> 24) % 256, (w >>> 16) % 256, (w >>> 8) % 256, w % 256]

/-- The 32-byte digest of a message given as a list of byte values. -/
def digest (msg : List Nat) : List Nat :=
  let p := pad msg
  ((chunks16 (p.length / 64) (words p)).foldl compress H0).flatMap wordBytes

end SHA256

/-- SHA-256 of a byte string. -/
def sha256 (data : Bytes) : Bytes := (SHA256.digest (data.map UInt8.toNat)).map UInt8.ofNat

/-- A streaming hash as Go `hash.Hash`: what matters of its state is the
sequence of bytes written so far. -/
structure Hasher where
  written : Bytes

/-- Go `sha256.New()`. -/
def Hasher.new : Hasher := ⟨[]⟩

/-- Go `hasher.Write(data)`: more data for the running hash. -/
def Hasher.Write (h : Hasher) (data : Bytes) : Hasher := ⟨h.written ++ data⟩

/-- Go `hasher.Sum(nil)`: the digest of everything written so far. -/
def Hasher.Sum (h : Hasher) : Bytes := sha256 h.written

/-- A lower-case hexadecimal digit. -/
def hexDigit (n : Nat) : UInt8 := UInt8.ofNat (if n < 10 then 48 + n else 87 + n)

/-- Go `hex.EncodeToString`: two lower-case hexadecimal digits for each byte. -/
def hexEncode (b : Bytes) : Bytes := b.flatMap fun x => [hexDigit (x.toNat / 16), hexDigit (x.toNat % 16)]

/-! ## The filesystem and the `os` package -/

/-- A node of the filesystem: a regular file with its content, or a directory. -/
inductive Node where
  | file (data : Bytes)
  | dir
  deriving DecidableEq, Repr

/-- A location: the names from the root down to a node. -/
abbrev Loc := List Bytes

/-- The filesystem as the process sees it: what is at every location, and
the working directory of the process. -/
structure FS where
  node : Loc → Option Node
  cwd : Loc

/-- What is at a location; the root is a directory. -/
def FS.nodeAt (fs : FS) (l : Loc) : Option Node :=
  if l = [] then some Node.dir else fs.node l

/-- The location holds a directory. -/
def FS.isDir (fs : FS) (l : Loc) : Bool := decide (fs.nodeAt l = some Node.dir)

/-- The location holds a regular file. -/
def FS.isFile (fs : FS) (l : Loc) : Bool :=
  match fs.nodeAt l with
  | some (Node.file _) => true
  | _ => false

/-- The filesystem with node `n` at location `l`. -/
def FS.set (fs : FS) (l : Loc) (n : Node) : FS :=
  { fs with node := fun k => if k = l then some n else fs.node k }

/-- Follow the components of a path from location `cur`.  A step is taken
only from a directory: an empty component or `.` stays, `..` goes to the
parent directory, a name goes to the entry of that name (which may not exist). -/
def walk (fs : FS) : Loc → List Bytes → Option Loc
  | cur, [] => some cur
  | cur, c :: cs =>
    if fs.isDir cur then
      if c = [] ∨ c = str "." then walk fs cur cs
      else if c = str ".." then
        if fs.isDir cur.dropLast then walk fs cur.dropLast cs else none
      else walk fs (cur ++ [c]) cs
    else none

/-- The location a path string names: an absolute path is followed from the
root, a relative one from the working directory; the empty path names nothing. -/
def resolve (fs : FS) (path : Bytes) : Option Loc :=
  if path = [] then none
  else walk fs (if path.head? = some SEP then [] else fs.cwd) (Split path [SEP])

/-- The node a path string names, if there is one. -/
def lookup (fs : FS) (path : Bytes) : Option Node :=
  match resolve fs path with
  | some l => fs.nodeAt l
  | none => none

/-- Go `os.Getwd`: the absolute path of the working directory. -/
def Getwd (fs : FS) : Bytes :=
  if fs.cwd = [] then [SEP] else fs.cwd.flatMap (fun c => SEP :: c)

/-- Go `os.Stat(path)` succeeds: something exists at the path. -/
def Stat (fs : FS) (path : Bytes) : Bool := (lookup fs path).isSome

/-- The error numbers `os.Stat` can fail with in the model. -/
inductive Errno where
  | ENOENT
  | ENOTDIR
  | ENAMETOOLONG
  | EINVAL
  deriving DecidableEq, Repr

/-- The longest name of a directory entry, in bytes (Linux). -/
def NAME_MAX : Nat := 255

/-- The size of the buffer a path string must fit in with its final zero
byte (Linux). -/
def PATH_MAX : Nat := 4096

/-- The error number of a path resolution that finds nothing, followed from
location `cur`: a step from a regular file is `ENOTDIR`, a step from
nothing is `ENOENT`, a name longer than `NAME_MAX` looked up in a directory
is `ENAMETOOLONG`, and nothing at the end of the path is `ENOENT`. -/
def walkErrno (fs : FS) : Loc → List Bytes → Errno
  | _, [] => Errno.ENOENT
  | cur, c :: cs =>
    if fs.isDir cur then
      if c = [] ∨ c = str "." then walkErrno fs cur cs
      else if c = str ".." then walkErrno fs cur.dropLast cs
      else if NAME_MAX < c.length then Errno.ENAMETOOLONG
      else walkErrno fs (cur ++ [c]) cs
    else if (fs.nodeAt cur).isSome then Errno.ENOTDIR
    else Errno.ENOENT

/-- The error of Go `os.Stat(path)`: `none` when it succeeds, otherwise the
error number.  A path with a zero byte is refused by the `syscall` package
(`EINVAL`), a path of `PATH_MAX` bytes or more by the kernel
(`ENAMETOOLONG`), the empty path names nothing (`ENOENT`). -/
def StatErr (fs : FS) (path : Bytes) : Option Errno :=
  if Stat fs path then none
  else if path = [] then some Errno.ENOENT
  else if (0 : UInt8) ∈ path then some Errno.EINVAL
  else if PATH_MAX ≤ path.length then some Errno.ENAMETOOLONG
  else some (walkErrno fs (if path.head? = some SEP then [] else fs.cwd) (Split path [SEP]))

/-- Go `os.IsNotExist(err)` on the error of `os.Stat`. -/
def IsNotExist (err : Option Errno) : Bool := decide (err = some Errno.ENOENT)

/-- Go `os.ReadFile(path)`: the content of a regular file, `none` for an error. -/
def ReadFile (fs : FS) (path : Bytes) : Option Bytes :=
  match lookup fs path with
  | some (Node.file data) => some data
  | _ => none

/-- Go `os.Open(path)`: a handle (the location) on an existing file or
directory, `none` for an error. -/
def Open (fs : FS) (path : Bytes) : Option Loc :=
  match resolve fs path with
  | some l => if (fs.nodeAt l).isSome then some l else none
  | none => none

/-- Go `os.Create(path)`: the file is created or truncated; the handle is
its location.  An error when the path names a directory or cannot be resolved. -/
def Create (fs : FS) (path : Bytes) : Option (FS × Loc) :=
  match resolve fs path with
  | some l => if fs.isDir l then none else some (fs.set l (Node.file []), l)
  | none => none

/-- Go `os.Mkdir(path)`: a new directory; an error when something exists at
the path or the path cannot be resolved. -/
def Mkdir (fs : FS) (path : Bytes) : Option FS :=
  match resolve fs path with
  | some l => if (fs.nodeAt l).isSome then none else some (fs.set l Node.dir)
  | none => none

/-- Go `io.Copy(dst, src)` on two open handles: everything that can be read
from `src` is appended to `dst`; reading a directory is an error. -/
def Copy (fs : FS) (dst src : Loc) : Option FS :=
  match fs.nodeAt src, fs.nodeAt dst with
  | some (Node.file data), some (Node.file old) => some (fs.set dst (Node.file (old ++ data)))
  | _, _ => none

/-- Go `os.OpenFile(path, O_APPEND|O_CREATE|O_WRONLY, 0644)` followed by
`WriteString(text)`: the text is appended to the file, which is created when
missing; `none` when the file cannot be opened. -/
def appendFile (fs : FS) (path text : Bytes) : Option FS :=
  match resolve fs path with
  | some l =>
    match fs.nodeAt l with
    | some (Node.file old) => some (fs.set l (Node.file (old ++ text)))
    | some Node.dir => none
    | none => some (fs.set l (Node.file text))
  | none => none

/-! ## The command handlers of `main.go` -/

/-- What a handler leaves: the filesystem, the bytes written to standard
output, and whether the process was ended by `log.Fatal`. -/
structure Result where
  fs : FS
  out : Bytes
  fatal : Bool

/-- The outcome of a step that may end the process by `log.Fatal`. -/
inductive Step where
  | ok (fs : FS)
  | fatal (fs : FS)

/-- Go `fmt.Println(s)`. -/
def println (s : Bytes) : Bytes := s ++ [NL]

/-- The directory `vcs` of the repository, as `main` computes it:
`filepath.Join(currentDir, "vcs")`. -/
def vcsDirOf (fs : FS) : Bytes := Join [Getwd fs, str "vcs"]

/-- Source `handleAdd`. -/
def handleAdd (fs : FS) (vcsDir : Bytes) (args : List Bytes) : Result :=
  let indexFile := Join [vcsDir, str "index.txt"]
  match args with
  | [] =>
    match ReadFile fs indexFile with
    | none => ⟨fs, println (str "Add a file to the index."), false⟩
    | some data =>
      if data.length = 0 then ⟨fs, println (str "Add a file to the index."), false⟩
      else ⟨fs, println (str "Tracked files:") ++ println data, false⟩
  | filename :: _ =>
    if IsNotExist (StatErr fs filename) then
      ⟨fs, str "Can't find '" ++ filename ++ str "'.\n", false⟩
    else
      match appendFile fs indexFile (filename ++ str "\n") with
      | none => ⟨fs, [], true⟩
      | some fs1 => ⟨fs1, str "The file '" ++ filename ++ str "' is tracked.\n", false⟩

/-- Source `generateCommitID`: the hexadecimal digest and whether a file was read. -/
def generateCommitID (fs : FS) (files : List Bytes) : Bytes × Bool :=
  let step (acc : Hasher × Bool) (file : Bytes) : Hasher × Bool :=
    if file = [] then acc
    else
      match ReadFile fs file with
      | none => acc
      | some data => (acc.1.Write data, true)
  let (hasher, hasChanges) := files.foldl step (Hasher.new, false)
  (hexEncode hasher.Sum, hasChanges)

/-- The body shared by `copyFileToCommit` and `restoreFileFromCommit`: open
the source, create the destination, copy. -/
def copyFile (fs : FS) (src dest : Bytes) : Step :=
  match Open fs src with
  | none => Step.fatal fs
  | some s =>
    match Create fs dest with
    | none => Step.fatal fs
    | some (fs1, d) =>
      match Copy fs1 d s with
      | none => Step.fatal fs1
      | some fs2 => Step.ok fs2

/-- Source `copyFileToCommit`. -/
def copyFileToCommit (fs : FS) (src commitDir : Bytes) : Step :=
  copyFile fs src (Join [commitDir, Base src])

/-- Source `restoreFileFromCommit`. -/
def restoreFileFromCommit (fs : FS) (filename commitDir : Bytes) : Step :=
  copyFile fs (Join [commitDir, Base filename]) (Join [str ".", Base filename])

/-- A loop `for _, file := range files { if file == "" { continue }; body(file) }`
whose body may end the process. -/
def forFiles (body : FS → Bytes → Step) : FS → List Bytes → Step
  | fs, [] => Step.ok fs
  | fs, file :: rest =>
    if file = [] then forFiles body fs rest
    else
      match body fs file with
      | Step.ok fs1 => forFiles body fs1 rest
      | Step.fatal fs1 => Step.fatal fs1

/-- The record `commitChanges` formats for the log:
`fmt.Sprintf("commit %s\nAuthor: %s\n%s\n\n", commitID, author, message)`. -/
def logEntry (commitID author message : Bytes) : Bytes :=
  str "commit " ++ commitID ++ str "\nAuthor: " ++ author ++ str "\n" ++ message ++ str "\n\n"

/-- Source `commitChanges`. -/
def commitChanges (fs : FS) (vcsDir message : Bytes) : Result :=
  match ReadFile fs (Join [vcsDir, str "config.txt"]) with
  | none => ⟨fs, println (str "Please, set a username first with the 'config' command."), false⟩
  | some author =>
    match ReadFile fs (Join [vcsDir, str "index.txt"]) with
    | none => ⟨fs, println (str "No files are tracked."), false⟩
    | some trackedFiles =>
      if trackedFiles.length = 0 then ⟨fs, println (str "No files are tracked."), false⟩
      else
        let files := Split trackedFiles (str "\n")
        let (commitID, hasChanges) := generateCommitID fs files
        if hasChanges = false then ⟨fs, println (str "Nothing to commit."), false⟩
        else
          let commitDir := Join [vcsDir, str "commits", commitID]
          if Stat fs commitDir then ⟨fs, println (str "Nothing to commit."), false⟩
          else
            match Mkdir fs commitDir with
            | none => ⟨fs, [], true⟩
            | some fs1 =>
              match forFiles (fun f file => copyFileToCommit f file commitDir) fs1 files with
              | Step.fatal fs2 => ⟨fs2, [], true⟩
              | Step.ok fs2 =>
                match appendFile fs2 (Join [vcsDir, str "log.txt"])
                    (logEntry commitID (TrimSpace author) message) with
                | none => ⟨fs2, [], true⟩
                | some fs3 => ⟨fs3, println (str "Changes are committed."), false⟩

/-- The loop of `showLog`: `logEntries[i]`, ..., `logEntries[0]` are
printed, a blank line after each but the last. -/
def showLogLoop (logEntries : List Bytes) : Nat → Bytes
  | 0 => println (logEntries.getD 0 [])
  | i + 1 => println (logEntries.getD (i + 1) []) ++ println [] ++ showLogLoop logEntries i

/-- Source `showLog`. -/
def showLog (fs : FS) (vcsDir : Bytes) : Result :=
  match ReadFile fs (Join [vcsDir, str "log.txt"]) with
  | none => ⟨fs, println (str "No commits yet."), false⟩
  | some logData =>
    if logData.length = 0 then ⟨fs, println (str "No commits yet."), false⟩
    else
      let logEntries := Split logData (str "\n\n")
      if logEntries.length < 2 then ⟨fs, [], false⟩
      else ⟨fs, showLogLoop logEntries (logEntries.length - 2), false⟩

/-- Source `checkoutCommit`. -/
def checkoutCommit (fs : FS) (vcsDir commitID : Bytes) : Result :=
  let commitDir := Join [vcsDir, str "commits", commitID]
  if IsNotExist (StatErr fs commitDir) then ⟨fs, println (str "Commit does not exist."), false⟩
  else
    match ReadFile fs (Join [vcsDir, str "index.txt"]) with
    | none => ⟨fs, println (str "No files are tracked."), false⟩
    | some trackedFiles =>
      if trackedFiles.length = 0 then ⟨fs, println (str "No files are tracked."), false⟩
      else
        match forFiles (fun f file => restoreFileFromCommit f file commitDir) fs
            (Split trackedFiles (str "\n")) with
        | Step.fatal fs1 => ⟨fs1, [], true⟩
        | Step.ok fs1 => ⟨fs1, str "Switched to commit " ++ commitID ++ str ".\n", false⟩

/-! ## Notions used to state the properties -/

/-- The byte string the commit identifier is the digest of: the contents of
the non-empty listed paths that can be read, concatenated in list order. -/
def hashInput (fs : FS) (files : List Bytes) : Bytes :=
  (files.filterMap fun f => if f = [] then none else ReadFile fs f).flatten

/-- A SHA-256 collision: two different byte strings with the same digest. -/
def Collide (a b : Bytes) : Prop := a ≠ b ∧ sha256 a = sha256 b

instance (a b : Bytes) : Decidable (Collide a b) := by
  unfold Collide
  infer_instance

/-- The tracked paths of an index content: the non-empty entries between newlines. -/
def trackedList (index : Bytes) : List Bytes :=
  (Split index (str "\n")).filter fun f => decide (f ≠ [])

/-! ## The history log: records and how they are shown -/

/-- A history record: commit identifier, author name, message. -/
abbrev Record := Bytes × Bytes × Bytes

/-- The text of a record in the log, without the blank line that ends it:
`commit <id>`, `Author: <name>`, `<message>`. -/
def recordText (r : Record) : Bytes :=
  str "commit " ++ r.1 ++ str "\nAuthor: " ++ r.2.1 ++ str "\n" ++ r.2.2

/-- The content of a log to which the records were appended in list order. -/
def logOf (rs : List Record) : Bytes :=
  rs.flatMap fun r => logEntry r.1 r.2.1 r.2.2

/-- The three lines shown for a record. -/
def recordLines (r : Record) : Bytes :=
  println (str "commit " ++ r.1) ++ println (str "Author: " ++ r.2.1) ++ println r.2.2

/-- The records newest first, one blank line between consecutive records
and none after the last. -/
def expectedLog (rs : List Record) : Bytes :=
  [NL].intercalate (rs.reverse.map recordLines)

/-- The text of the record has no empty line inside and does not end in a
newline (so its message is not empty): the blank line that ends the record
in the log is the first one. -/
def PlainRecord (r : Record) : Prop :=
  ¬ str "\n\n" <:+: recordText r ∧ (recordText r).getLast? ≠ some NL

instance (r : Record) : Decidable (PlainRecord r) := by
  unfold PlainRecord
  infer_instance

/-! ## Names, locations and their paths -/

/-- A name of a directory entry: not empty, without a separator, neither
`.` nor `..`. -/
def ValidName (n : Bytes) : Prop := n ≠ [] ∧ SEP ∉ n ∧ n ≠ str "." ∧ n ≠ str ".."

instance (n : Bytes) : Decidable (ValidName n) := by
  unfold ValidName
  infer_instance

/-- The absolute path string of a location below the root: `/name/.../name`. -/
def render (l : Loc) : Bytes := l.flatMap fun c => SEP :: c

/-! ## Well-formed states and the snapshot of a commit -/

/-- Every entry lives in a directory. -/
def FS.Closed (fs : FS) : Prop :=
  ∀ (l : Loc) (c : Bytes), fs.nodeAt (l ++ [c]) ≠ none → fs.isDir l = true

/-- The state in which `main` calls a handler: the working directory and
the directories above it exist under proper names, and `vcs` and
`vcs/commits` are directories (`os.MkdirAll` succeeded). -/
def Repo (fs : FS) : Prop :=
  (∀ n ∈ fs.cwd, ValidName n) ∧
  (∀ k, k ≤ fs.cwd.length → fs.isDir (fs.cwd.take k) = true) ∧
  fs.isDir (fs.cwd ++ [str "vcs"]) = true ∧
  fs.isDir (fs.cwd ++ [str "vcs", str "commits"]) = true

instance (fs : FS) : Decidable (Repo fs) := by
  unfold Repo
  infer_instance

/-- The location of the file `vcs/<name>` of the repository. -/
def vcsLoc (fs : FS) (name : Bytes) : Loc := fs.cwd ++ [str "vcs", name]

/-- The location of the snapshot directory `vcs/commits/<id>`. -/
def commitLoc (fs : FS) (id : Bytes) : Loc := fs.cwd ++ [str "vcs", str "commits", id]

/-- The state `cur` after the contents that the listed paths have in `fs`
were stored in the directory at `c` under their base names, in list order. -/
def snapshot (fs : FS) (c : Loc) (files : List Bytes) (cur : FS) : FS :=
  files.foldl (fun acc f =>
    if f = [] then acc else acc.set (c ++ [Base f]) (Node.file ((ReadFile fs f).getD []))) cur

/-- What a snapshot of the listed paths holds under a name: the content of
the last listed path with that base name, nothing when there is none. -/
def snapshotEntry (fs : FS) (files : List Bytes) (n : Bytes) : Option Node :=
  (files.reverse.find? fun f => decide (f ≠ [] ∧ Base f = n)).map
    fun f => Node.file ((ReadFile fs f).getD [])

/-- The state `cur` of a commit under way from state `fs`: the new snapshot
directory `c` exists, it holds regular files only, and nothing else differs
from `fs`. -/
structure Snap (fs cur : FS) (c : Loc) : Prop where
  cwd : cur.cwd = fs.cwd
  absent : fs.nodeAt c = none
  empty : ∀ n, fs.nodeAt (c ++ [n]) = none
  dirC : cur.nodeAt c = some Node.dir
  same : ∀ k, k ≠ c → (∀ n, k ≠ c ++ [n]) → cur.nodeAt k = fs.nodeAt k
  entries : ∀ n, cur.isDir (c ++ [n]) = false

/-- What `commitChanges` leaves when it creates the snapshot of the tracked
paths of the index content `idx`, all of them readable: the result `r` of
the commit from state `fs`, with the snapshot directory at `c` and the log
at `l`. -/
structure Committed (fs : FS) (r : Result) (idx : Bytes) (c l : Loc) : Prop where
  cwd : r.fs.cwd = fs.cwd
  mono : ∀ k, fs.isDir k = true → r.fs.isDir k = true
  dirC : r.fs.nodeAt c = some Node.dir
  entries : ∀ n, r.fs.nodeAt (c ++ [n]) = snapshotEntry fs (trackedList idx) n
  same : ∀ k, k ≠ c → (∀ n, k ≠ c ++ [n]) → k ≠ l → r.fs.nodeAt k = fs.nodeAt k
  closed : r.fs.Closed

/-! ## What happens between a commit and a checkout -/

/-- Go `os.WriteFile(path, data, perm)`: the file is created or truncated
and the data written; nothing changes when it cannot be opened. -/
def WriteFile (fs : FS) (path data : Bytes) : FS :=
  match Create fs path with
  | some (fs1, l) => fs1.set l (Node.file data)
  | none => fs

/-- What the user does after a commit: a file gets a new content, or
`commit` is run once more. -/
inductive Action where
  | overwrite (path data : Bytes)
  | commit (message : Bytes)

/-- The state after an action. -/
def Action.run (vcsDir : Bytes) (fs : FS) : Action → FS
  | Action.overwrite path data => WriteFile fs path data
  | Action.commit message => (commitChanges fs vcsDir message).fs

/-- The action is a commit or overwrites one of the tracked files. -/
def Action.Allowed (tracked : List Bytes) : Action → Prop
  | Action.overwrite path _ => path ∈ tracked
  | Action.commit _ => True

instance (tracked : List Bytes) (a : Action) : Decidable (a.Allowed tracked) := by
  cases a <;> unfold Action.Allowed <;> infer_instance

/-- The state after a sequence of actions. -/
def runActions (vcsDir : Bytes) (fs : FS) (acts : List Action) : FS :=
  acts.foldl (Action.run vcsDir) fs

/-- The states `w` from which a checkout of the commit made in state `fs`
restores the tracked files (all bare names): the index still holds `idx`,
the snapshot directory `c` still holds the contents the tracked files had in
`fs`, and the tracked files are regular files. -/
structure Restorable (fs : FS) (idx : Bytes) (c : Loc) (w : FS) : Prop where
  cwd : w.cwd = fs.cwd
  repo : Repo w
  closed : w.Closed
  index : w.nodeAt (vcsLoc fs (str "index.txt")) = some (Node.file idx)
  dirC : w.nodeAt c = some Node.dir
  files : ∀ f ∈ trackedList idx, ∃ d, w.nodeAt (fs.cwd ++ [f]) = some (Node.file d)
  stored : ∀ f ∈ trackedList idx,
    w.nodeAt (c ++ [f]) = some (Node.file ((ReadFile fs f).getD []))

/-- The state `cur` of a checkout under way from state `fs`, after the paths
`done` were restored from the snapshot directory `c`: the working files of
their base names hold what the snapshot holds, nothing else differs from
`fs`, and no directory has appeared or disappeared. -/
structure Restoring (fs : FS) (done : List Bytes) (c : Loc) (cur : FS) : Prop where
  cwd : cur.cwd = fs.cwd
  dirs : ∀ k, cur.isDir k = fs.isDir k
  restored : ∀ g ∈ done, cur.nodeAt (fs.cwd ++ [Base g]) = fs.nodeAt (c ++ [Base g])
  same : ∀ k, (∀ g ∈ done, k ≠ fs.cwd ++ [Base g]) → cur.nodeAt k = fs.nodeAt k

/-! ## Example states -/

/-- A filesystem given by a finite table of nodes. -/
def FS.ofList (cwd : Loc) (table : List (Loc × Node)) : FS :=
  ⟨fun l => (table.find? fun e => decide (e.1 = l)).map Prod.snd, cwd⟩

/-- The working directory `/home/u` of the examples. -/
def exCwd : Loc := [str "home", str "u"]

/-- The repository directory `/home/u/vcs` of the examples. -/
def exVcs : Loc := exCwd ++ [str "vcs"]

/-- An example filesystem: the working directory `/home/u`, the directories
`vcs` and `vcs/commits` that `main` creates, and the given further nodes. -/
def exFS (extra : List (Loc × Node)) : FS :=
  FS.ofList exCwd
    ([([str "home"], Node.dir), (exCwd, Node.dir), (exVcs, Node.dir),
      (exVcs ++ [str "commits"], Node.dir)] ++ extra)

/-- Two files, `a.txt` holding "a" and `b.txt` holding "aa". -/
def exOrderFS : FS :=
  exFS [(exCwd ++ [str "a.txt"], Node.file (str "a")),
        (exCwd ++ [str "b.txt"], Node.file (str "aa"))]

/-- Two files, `a.txt` holding "a" and `b.txt` holding "b". -/
def exPairFS : FS :=
  exFS [(exCwd ++ [str "a.txt"], Node.file (str "a")),
        (exCwd ++ [str "b.txt"], Node.file (str "b"))]

/-- One of the two files of `exPairFS`: `b.txt` for `true`, `a.txt` for `false`. -/
def exPick (c : Bool) : Bytes := if c then str "b.txt" else str "a.txt"

/-- The content of the file `exPick c` in `exPairFS`, a single byte. -/
def exPickByte (c : Bool) : UInt8 := if c then 98 else 97

/-- A state with author Alice and one tracked file `a.txt` holding "A". -/
def exCommitFS : FS :=
  exFS [(exVcs ++ [str "config.txt"], Node.file (str "Alice")),
        (exVcs ++ [str "index.txt"], Node.file (str "a.txt\n")),
        (exCwd ++ [str "a.txt"], Node.file (str "A"))]

/-- The identifier of the commit of `exCommitFS`. -/
def exCommitID : Bytes := (generateCommitID exCommitFS [str "a.txt"]).1

/-- A message with an empty line inside. -/
def exBlankLineMessage : Bytes := str "fix\n\ndetails"

/-- The state after the commit "first" of `exCommitFS`, the overwriting of
`a.txt` with "B" and the commit "second". -/
def exTwoCommitsFS : FS :=
  (commitChanges
    ((commitChanges exCommitFS (vcsDirOf exCommitFS) (str "first")).fs.set
      (exCwd ++ [str "a.txt"]) (Node.file (str "B")))
    (vcsDirOf exCommitFS) (str "second")).fs

/-- The identifier of the second commit of `exTwoCommitsFS`. -/
def exSecondID : Bytes :=
  (generateCommitID (exCommitFS.set (exCwd ++ [str "a.txt"]) (Node.file (str "B")))
    [str "a.txt"]).1

/-- A state with a file whose name contains a newline, and no index yet. -/
def exNewlineFS : FS :=
  exFS [(exCwd ++ [str "a\nb"], Node.file (str "A"))]

/-- A state with author Alice and the tracked files `a.txt`, which holds "A",
and `b.txt`, which has been deleted since it was tracked. -/
def exDeletedFS : FS :=
  exFS [(exVcs ++ [str "config.txt"], Node.file (str "Alice")),
        (exVcs ++ [str "index.txt"], Node.file (str "a.txt\nb.txt\n")),
        (exCwd ++ [str "a.txt"], Node.file (str "A"))]

/-- The state after the commit "first" of `exCommitFS`, the overwriting of
`a.txt` with "A2", the creation of `b.txt` holding "B", and `add b.txt`. -/
def exLaterAddFS : FS :=
  (handleAdd
    (((commitChanges exCommitFS (vcsDirOf exCommitFS) (str "first")).fs.set
      (exCwd ++ [str "a.txt"]) (Node.file (str "A2"))).set
      (exCwd ++ [str "b.txt"]) (Node.file (str "B")))
    (vcsDirOf exCommitFS) [str "b.txt"]).fs

/-- The state `exLaterAddFS` with the tracked list in the other order:
`b.txt` is listed before `a.txt`. -/
def exAddedFirstFS : FS :=
  exLaterAddFS.set (exVcs ++ [str "index.txt"]) (Node.file (str "b.txt\na.txt\n"))

/-- The state `exLaterAddFS` with a directory in the place of `a.txt`. -/
def exWorkDirFS : FS :=
  exLaterAddFS.set (exCwd ++ [str "a.txt"]) Node.dir

/-- A state whose index holds the entry `a.txt` without a final newline;
`a.txt` and `b.txt` exist. -/
def exUnterminatedFS : FS :=
  exFS [(exVcs ++ [str "index.txt"], Node.file (str "a.txt")),
        (exCwd ++ [str "a.txt"], Node.file (str "A")),
        (exCwd ++ [str "b.txt"], Node.file (str "B"))]

/-- A state in which `vcs/index.txt` is a directory; `a.txt` exists. -/
def exIndexDirFS : FS :=
  exFS [(exVcs ++ [str "index.txt"], Node.dir),
        (exCwd ++ [str "a.txt"], Node.file (str "A"))]

/-- A state with author Alice in which the history log `vcs/log.txt` itself
is the tracked file. -/
def exLogTrackedFS : FS :=
  exFS [(exVcs ++ [str "config.txt"], Node.file (str "Alice")),
        (exVcs ++ [str "index.txt"], Node.file (str "vcs/log.txt\n")),
        (exVcs ++ [str "log.txt"], Node.file (str "commit 0\nAuthor: Alice\nzero\n\n"))]

/-- What the user does in the example: `a.txt` is overwritten, committed,
and overwritten again. -/
def exActions : List Action :=
  [Action.overwrite (str "a.txt") (str "B"), Action.commit (str "second"),
   Action.overwrite (str "a.txt") (str "C")]

/-! ## Theorems -/

/-! ### generateCommitID -/

theorem generateCommitID_fold (fs : FS) (files : List Bytes) (h : Hasher) (b : Bool) :
    files.foldl (fun (acc : Hasher × Bool) (file : Bytes) =>
        if file = [] then acc
        else
          match ReadFile fs file with
          | none => acc
          | some data => (acc.1.Write data, true)) (h, b)
      = (⟨h.written ++ hashInput fs files⟩,
          b || files.any fun f => decide (f ≠ []) && (ReadFile fs f).isSome) := by
  induction files generalizing h b with
  | nil => simp [hashInput]
  | cons f rest ih =>
    rw [List.foldl_cons]
    by_cases hf : f = []
    · subst hf
      simp only [if_true]
      rw [ih]
      simp [hashInput]
    · simp only [hf, if_false]
      cases hr : ReadFile fs f with
      | none =>
        simp only []
        rw [ih]
        simp [hashInput, hf, hr]
      | some data =>
        simp only []
        rw [ih]
        simp [hashInput, hf, hr, Hasher.Write, List.append_assoc]

theorem generateCommitID_fst (fs : FS) (files : List Bytes) :
    (generateCommitID fs files).1 = hexEncode (sha256 (hashInput fs files)) := by
  unfold generateCommitID
  simp only []
  rw [generateCommitID_fold]
  simp [Hasher.Sum, Hasher.new]

theorem generateCommitID_snd (fs : FS) (files : List Bytes) :
    (generateCommitID fs files).2 =
      files.any fun f => decide (f ≠ []) && (ReadFile fs f).isSome := by
  unfold generateCommitID
  simp only []
  rw [generateCommitID_fold]
  simp

/-- C1: for every list of paths and every filesystem state, the identifier
returned by `generateCommitID` is the hexadecimal rendering of the SHA-256
digest of the concatenation, in list order and without separators, of the
contents of exactly the non-empty listed paths that can be read. -/
theorem C1_commit_id_is_digest_of_contents (fs : FS) (files : List Bytes) :
    (generateCommitID fs files).1 =
      hexEncode (sha256
        ((files.filterMap fun f => if f = [] then none else ReadFile fs f).flatten)) :=
  generateCommitID_fst fs files

/-! ### commitChanges: the paths that create nothing -/

/-- C7: `commitChanges` aborts without side effects whenever it cannot
create a commit.  With no author configured it prints the request to set a
username; with an author but a missing or empty index it prints "No files
are tracked."; with an author and a non-empty index of which no entry can be
read it prints "Nothing to commit.".  In each case the filesystem is left
exactly as it was.  Hence whenever the filesystem is changed, the process is
ended, or "Changes are committed." is printed, some tracked path was read. -/
theorem C7_commit_aborts_without_side_effects (fs : FS) (vcsDir message : Bytes) :
    (ReadFile fs (Join [vcsDir, str "config.txt"]) = none →
      commitChanges fs vcsDir message =
        ⟨fs, println (str "Please, set a username first with the 'config' command."), false⟩) ∧
    (∀ author, ReadFile fs (Join [vcsDir, str "config.txt"]) = some author →
      (ReadFile fs (Join [vcsDir, str "index.txt"]) = none ∨
        ReadFile fs (Join [vcsDir, str "index.txt"]) = some []) →
      commitChanges fs vcsDir message = ⟨fs, println (str "No files are tracked."), false⟩) ∧
    (∀ author trackedFiles, ReadFile fs (Join [vcsDir, str "config.txt"]) = some author →
      ReadFile fs (Join [vcsDir, str "index.txt"]) = some trackedFiles →
      trackedFiles ≠ [] →
      (∀ f ∈ Split trackedFiles (str "\n"), f ≠ [] → ReadFile fs f = none) →
      commitChanges fs vcsDir message = ⟨fs, println (str "Nothing to commit."), false⟩) ∧
    (((commitChanges fs vcsDir message).out = println (str "Changes are committed.") ∨
        (commitChanges fs vcsDir message).fatal = true ∨
        (commitChanges fs vcsDir message).fs ≠ fs) →
      ∃ trackedFiles f, ReadFile fs (Join [vcsDir, str "index.txt"]) = some trackedFiles ∧
        f ∈ Split trackedFiles (str "\n") ∧ f ≠ [] ∧ (ReadFile fs f).isSome = true) := by
  refine ⟨?_, ?_, ?_, ?_⟩
  · intro h
    simp [commitChanges, h]
  · intro author ha hi
    rcases hi with hi | hi <;> simp [commitChanges, ha, hi]
  · intro author trackedFiles ha hi hne hall
    have hfalse : (generateCommitID fs (Split trackedFiles (str "\n"))).2 = false := by
      rw [generateCommitID_snd]
      rw [Bool.eq_false_iff]
      intro hany
      rw [List.any_eq_true] at hany
      obtain ⟨f, hf, hp⟩ := hany
      simp only [Bool.and_eq_true, decide_eq_true_eq] at hp
      rw [hall f hf hp.1] at hp
      simp at hp
    simp [commitChanges, ha, hi, hne, hfalse]
  · intro hres
    cases ha : ReadFile fs (Join [vcsDir, str "config.txt"]) with
    | none =>
      exfalso
      simp [commitChanges, ha, println] at hres
      exact absurd hres (by decide)
    | some author =>
      cases hi : ReadFile fs (Join [vcsDir, str "index.txt"]) with
      | none =>
        exfalso
        simp [commitChanges, ha, hi, println] at hres
        exact absurd hres (by decide)
      | some trackedFiles =>
        by_cases hne : trackedFiles = []
        · exfalso
          subst hne
          simp [commitChanges, ha, hi, println] at hres
          exact absurd hres (by decide)
        · cases hc : (generateCommitID fs (Split trackedFiles (str "\n"))).2 with
          | false =>
            exfalso
            simp [commitChanges, ha, hi, hne, hc, println] at hres
            exact absurd hres (by decide)
          | true =>
            rw [generateCommitID_snd, List.any_eq_true] at hc
            obtain ⟨f, hf, hp⟩ := hc
            simp only [Bool.and_eq_true, decide_eq_true_eq] at hp
            exact ⟨trackedFiles, f, rfl, hf, hp.1, hp.2⟩

/-- C7 (witness): in the example state without a configured author,
`commitChanges` prints the request to set a username and changes nothing. -/
theorem C7_commit_aborts_without_side_effects_witness :
    commitChanges (exFS []) (vcsDirOf (exFS [])) (str "first") =
      ⟨exFS [], println (str "Please, set a username first with the 'config' command."),
        false⟩ :=
  (C7_commit_aborts_without_side_effects (exFS []) (vcsDirOf (exFS [])) (str "first")).1
    (by decide)

/-! ### The filesystem: frame lemmas -/

theorem nodeAt_set (fs : FS) (l : Loc) (n : Node) (k : Loc) (hl : l ≠ []) :
    (fs.set l n).nodeAt k = if k = l then some n else fs.nodeAt k := by
  unfold FS.nodeAt FS.set
  by_cases hk : k = []
  · subst hk
    have : ¬ ([] : Loc) = l := fun h => hl h.symm
    simp [this]
  · simp [hk]

theorem walk_congr (fs fs' : FS) (h : ∀ k, fs'.isDir k = fs.isDir k) (cs : List Bytes) :
    ∀ cur, walk fs' cur cs = walk fs cur cs := by
  induction cs with
  | nil => intro cur; rfl
  | cons c cs ih =>
    intro cur
    simp only [walk, h, ih]

theorem resolve_congr (fs fs' : FS) (h : ∀ k, fs'.isDir k = fs.isDir k) (hc : fs'.cwd = fs.cwd)
    (path : Bytes) : resolve fs' path = resolve fs path := by
  unfold resolve
  rw [hc]
  split
  · rfl
  · exact walk_congr fs fs' h _ _

theorem isDir_set_file (fs : FS) (l : Loc) (d d' : Bytes) (hl : fs.nodeAt l = some (Node.file d))
    (k : Loc) : (fs.set l (Node.file d')).isDir k = fs.isDir k := by
  have hne : l ≠ [] := by
    intro h
    subst h
    simp [FS.nodeAt] at hl
  unfold FS.isDir
  rw [nodeAt_set fs l _ k hne]
  by_cases hk : k = l
  · subst hk
    simp [hl]
  · simp [hk]

/-! ### Order and content sensitivity of the identifier -/

theorem hexDigit_inj : ∀ a b : Fin 16, hexDigit a.val = hexDigit b.val → a = b := by
  decide

theorem hexPair_inj (x y : UInt8)
    (h1 : hexDigit (x.toNat / 16) = hexDigit (y.toNat / 16))
    (h2 : hexDigit (x.toNat % 16) = hexDigit (y.toNat % 16)) : x = y := by
  have hx : x.toNat < 256 := x.val.isLt
  have hy : y.toNat < 256 := y.val.isLt
  have e1 := hexDigit_inj ⟨x.toNat / 16, by omega⟩ ⟨y.toNat / 16, by omega⟩ h1
  have e2 := hexDigit_inj ⟨x.toNat % 16, by omega⟩ ⟨y.toNat % 16, by omega⟩ h2
  have e1' : x.toNat / 16 = y.toNat / 16 := by simpa using congrArg Fin.val e1
  have e2' : x.toNat % 16 = y.toNat % 16 := by simpa using congrArg Fin.val e2
  have : x.toNat = y.toNat := by omega
  exact UInt8.ext this

theorem hexEncode_inj : ∀ a b : Bytes, hexEncode a = hexEncode b → a = b := by
  intro a
  induction a with
  | nil =>
    intro b h
    cases b with
    | nil => rfl
    | cons y ys => simp [hexEncode] at h
  | cons x xs ih =>
    intro b h
    cases b with
    | nil => simp [hexEncode] at h
    | cons y ys =>
      simp only [hexEncode, List.flatMap_cons, List.cons_append, List.nil_append,
        List.cons.injEq] at h
      obtain ⟨h1, h2, h3⟩ := h
      rw [hexPair_inj x y h1 h2, ih ys h3]

theorem generateCommitID_eq_iff (fs fs' : FS) (files files' : List Bytes) :
    (generateCommitID fs files).1 = (generateCommitID fs' files').1 ↔
      sha256 (hashInput fs files) = sha256 (hashInput fs' files') := by
  rw [generateCommitID_fst, generateCommitID_fst]
  constructor
  · exact hexEncode_inj _ _
  · intro h; rw [h]

theorem hashInput_nil (fs : FS) : hashInput fs [] = [] := rfl

theorem hashInput_cons (fs : FS) (f : Bytes) (rest : List Bytes) :
    hashInput fs (f :: rest) =
      (if f = [] then [] else (ReadFile fs f).getD []) ++ hashInput fs rest := by
  unfold hashInput
  by_cases hf : f = []
  · simp [hf]
  · cases hr : ReadFile fs f <;> simp [hf, hr]

theorem ReadFile_set_file (fs : FS) (l : Loc) (d d' : Bytes)
    (hl : fs.nodeAt l = some (Node.file d)) (f : Bytes) :
    ReadFile (fs.set l (Node.file d')) f =
      if resolve fs f = some l then some d' else ReadFile fs f := by
  have hne : l ≠ [] := by
    intro h
    subst h
    simp [FS.nodeAt] at hl
  unfold ReadFile lookup
  rw [resolve_congr fs (fs.set l (Node.file d')) (isDir_set_file fs l d d' hl) rfl]
  cases hr : resolve fs f with
  | none => simp
  | some k =>
    simp only [nodeAt_set fs l _ k hne]
    by_cases hk : k = l
    · subst hk; simp
    · simp [hk]

theorem ReadFile_of_resolve (fs : FS) (l : Loc) (d : Bytes)
    (hl : fs.nodeAt l = some (Node.file d)) (f : Bytes) (hr : resolve fs f = some l) :
    ReadFile fs f = some d := by
  unfold ReadFile lookup
  rw [hr]
  simp [hl]

theorem hashInput_set_length (fs : FS) (l : Loc) (d d' : Bytes)
    (hl : fs.nodeAt l = some (Node.file d)) (files : List Bytes) :
    (hashInput (fs.set l (Node.file d')) files).length +
        (files.filter fun f => decide (f ≠ [] ∧ resolve fs f = some l)).length * d.length =
      (hashInput fs files).length +
        (files.filter fun f => decide (f ≠ [] ∧ resolve fs f = some l)).length * d'.length := by
  induction files with
  | nil => simp [hashInput_nil]
  | cons f rest ih =>
    rw [hashInput_cons, hashInput_cons, ReadFile_set_file fs l d d' hl]
    by_cases hf : f = []
    · simp only [hf, if_true, List.nil_append]
      simpa [List.filter_cons] using ih
    · by_cases hr : resolve fs f = some l
      · have hread := ReadFile_of_resolve fs l d hl f hr
        simp only [hf, hr, hread, if_true, if_false, Option.getD_some, List.length_append]
        rw [List.filter_cons]
        simp only [hf, hr, ne_eq, not_false_eq_true, and_self, decide_True, if_true,
          List.length_cons]
        have := ih
        nlinarith [ih]
      · simp only [hf, hr, if_false, List.length_append]
        rw [List.filter_cons_of_neg (by simp [hr])]
        omega

theorem hashInput_set_inj (fs : FS) (l : Loc) (d d' : Bytes)
    (hl : fs.nodeAt l = some (Node.file d)) (hlen : d'.length = d.length) (files : List Bytes)
    (hmem : ∃ f ∈ files, f ≠ [] ∧ resolve fs f = some l)
    (heq : hashInput (fs.set l (Node.file d')) files = hashInput fs files) : d' = d := by
  induction files with
  | nil =>
    obtain ⟨f, hf, _⟩ := hmem
    cases hf
  | cons f rest ih =>
    rw [hashInput_cons, hashInput_cons, ReadFile_set_file fs l d d' hl] at heq
    by_cases hr : f ≠ [] ∧ resolve fs f = some l
    · have hread := ReadFile_of_resolve fs l d hl f hr.2
      simp only [hr.1, hr.2, hread, if_true, if_false, Option.getD_some] at heq
      exact (List.append_inj heq hlen).1
    · have hrest : ∃ g ∈ rest, g ≠ [] ∧ resolve fs g = some l := by
        obtain ⟨g, hg, hg2⟩ := hmem
        rcases List.mem_cons.mp hg with h | h
        · subst h; exact absurd hg2 hr
        · exact ⟨g, h, hg2⟩
      apply ih hrest
      by_cases hf : f = []
      · simpa [hf] using heq
      · have hr' : ¬ resolve fs f = some l := fun h => hr ⟨hf, h⟩
        simp only [hf, hr', if_false] at heq
        exact List.append_cancel_left heq

theorem hashInput_set_ne (fs : FS) (files : List Bytes) (l : Loc) (d d' : Bytes)
    (hfile : fs.nodeAt l = some (Node.file d)) (hne : d' ≠ d)
    (hmem : ∃ f ∈ files, f ≠ [] ∧ resolve fs f = some l) :
    hashInput (fs.set l (Node.file d')) files ≠ hashInput fs files := by
  intro heq
  have hlen := hashInput_set_length fs l d d' hfile files
  rw [heq] at hlen
  have hpos : 0 < (files.filter fun f => decide (f ≠ [] ∧ resolve fs f = some l)).length := by
    obtain ⟨f, hf, hf2⟩ := hmem
    apply List.length_pos_of_mem (a := f)
    rw [List.mem_filter]
    exact ⟨hf, by simpa using hf2⟩
  have hlen' : d'.length = d.length := by
    have h2 : (files.filter fun f => decide (f ≠ [] ∧ resolve fs f = some l)).length * d.length =
        (files.filter fun f => decide (f ≠ [] ∧ resolve fs f = some l)).length * d'.length := by
      omega
    exact (Nat.eq_of_mul_eq_mul_left hpos h2).symm
  exact hne (hashInput_set_inj fs l d d' hfile hlen' files hmem heq)

theorem id_ne_of_input_ne (fs fs' : FS) (files files' : List Bytes)
    (hne : hashInput fs' files' ≠ hashInput fs files)
    (hnc : ¬ Collide (hashInput fs' files') (hashInput fs files)) :
    (generateCommitID fs' files').1 ≠ (generateCommitID fs files).1 := by
  intro h
  exact hnc ⟨hne, (generateCommitID_eq_iff _ _ _ _).mp h⟩

/-- C9 (amended): for every tracked-file state, changing the content of a
file that a non-empty entry of the tracked list names changes the identifier
returned by `generateCommitID`, and replacing the tracked list by another
one, in particular by a reordering, for which the concatenation of the
contents read differs changes the identifier as well; in both cases provided
the old and the new byte string hashed are not a SHA-256 collision, that is
two different byte strings with the same digest. -/
theorem C9_id_changes_unless_sha256_collides (fs : FS) (files files' : List Bytes) (l : Loc)
    (d d' : Bytes) (hfile : fs.nodeAt l = some (Node.file d)) (hne : d' ≠ d)
    (hmem : ∃ f ∈ files, f ≠ [] ∧ resolve fs f = some l)
    (hnc : ¬ Collide (hashInput (fs.set l (Node.file d')) files) (hashInput fs files))
    (hord : hashInput fs files' ≠ hashInput fs files)
    (hnc' : ¬ Collide (hashInput fs files') (hashInput fs files)) :
    (generateCommitID (fs.set l (Node.file d')) files).1 ≠ (generateCommitID fs files).1 ∧
    (generateCommitID fs files').1 ≠ (generateCommitID fs files).1 :=
  ⟨id_ne_of_input_ne fs _ files files (hashInput_set_ne fs files l d d' hfile hne hmem) hnc,
   id_ne_of_input_ne fs fs files files' hord hnc'⟩

set_option maxRecDepth 100000 in
/-- C9 (witness): with `a.txt` holding "a" and `b.txt` holding "b", tracked
in this order, the identifier changes when `a.txt` is overwritten with "c",
and it changes when the tracked list is reordered to `b.txt, a.txt`. -/
theorem C9_id_changes_unless_sha256_collides_witness :
    [str "b.txt", str "a.txt"].Perm [str "a.txt", str "b.txt"] ∧
    (generateCommitID (exPairFS.set (exCwd ++ [str "a.txt"]) (Node.file (str "c")))
        [str "a.txt", str "b.txt"]).1 ≠
      (generateCommitID exPairFS [str "a.txt", str "b.txt"]).1 ∧
    (generateCommitID exPairFS [str "b.txt", str "a.txt"]).1 ≠
      (generateCommitID exPairFS [str "a.txt", str "b.txt"]).1 :=
  ⟨List.Perm.swap _ _ _,
   C9_id_changes_unless_sha256_collides exPairFS [str "a.txt", str "b.txt"]
      [str "b.txt", str "a.txt"] (exCwd ++ [str "a.txt"]) (str "a") (str "c")
      (by decide) (by decide) ⟨str "a.txt", by decide, by decide, by decide⟩
      (by decide) (by decide) (by decide)⟩

/-! ### showLog -/

theorem str_sep2 : str "\n\n" = [NL, NL] := by decide

theorem str_nl : str "\n" = [NL] := by decide

theorem splitGo_record (rest : Bytes) : ∀ b : Bytes, ¬ [NL, NL] <:+: b → b.getLast? ≠ some NL →
    splitGo [NL, NL] 0 (b ++ NL :: NL :: rest) = b :: splitGo [NL, NL] 0 rest := by
  intro b
  induction b with
  | nil =>
    intro _ _
    simp [splitGo]
  | cons c b ih =>
    intro hin hlast
    have hin' : ¬ [NL, NL] <:+: b := fun h => hin (h.trans (List.suffix_cons c b).isInfix)
    have hlast' : b.getLast? ≠ some NL := by
      cases b with
      | nil => simp
      | cons c2 b2 => simpa [List.getLast?_cons_cons] using hlast
    have hnp : ¬ [NL, NL] <+: c :: (b ++ NL :: NL :: rest) := by
      intro hp
      cases b with
      | nil =>
        simp only [List.nil_append, List.cons_prefix_cons] at hp
        apply hlast
        simp [hp.1]
      | cons c2 b2 =>
        simp only [List.cons_append, List.cons_prefix_cons] at hp
        apply hin
        refine List.IsPrefix.isInfix ?_
        rw [← hp.1, ← hp.2.1]
        simp [List.cons_prefix_cons]
    rw [List.cons_append, splitGo]
    simp only [hnp, if_false]
    rw [ih hin' hlast']

theorem Split_logOf (rs : List Record) (h : ∀ r ∈ rs, PlainRecord r) :
    Split (logOf rs) (str "\n\n") = rs.map recordText ++ [[]] := by
  unfold Split
  rw [str_sep2]
  induction rs with
  | nil => simp [logOf, splitGo]
  | cons r rs ih =>
    have hr := h r (List.mem_cons_self r rs)
    unfold PlainRecord at hr
    rw [str_sep2] at hr
    have hcons : logOf (r :: rs) = recordText r ++ NL :: NL :: logOf rs := by
      simp [logOf, logEntry, recordText, str_sep2, List.append_assoc]
    rw [hcons, splitGo_record _ _ hr.1 hr.2, ih (fun x hx => h x (List.mem_cons_of_mem r hx))]
    simp

theorem showLogLoop_eq (es : List Bytes) : ∀ i, i < es.length →
    showLogLoop es i = [NL].intercalate (((es.take (i + 1)).reverse).map println) := by
  intro i
  induction i with
  | zero =>
    intro hi
    cases es with
    | nil => simp at hi
    | cons e es => simp [showLogLoop, List.intercalate]
  | succ i ih =>
    intro hi
    rw [showLogLoop, ih (by omega)]
    have htake : es.take (i + 1 + 1) = es.take (i + 1) ++ [es.getD (i + 1) []] := by
      rw [List.take_succ]
      congr 1
      rw [List.getD_eq_getElem?_getD]
      cases hget : es[i + 1]? with
      | none =>
        rw [List.getElem?_eq_none_iff] at hget
        omega
      | some x => simp
    rw [htake]
    have hne : ((es.take (i + 1)).reverse).map println ≠ [] := by
      intro h0
      have := congrArg List.length h0
      rw [List.length_map, List.length_reverse, List.length_take, List.length_nil] at this
      omega
    obtain ⟨x, xs, hx⟩ := List.exists_cons_of_ne_nil hne
    simp only [List.reverse_append, List.reverse_singleton, List.singleton_append, List.map_cons]
    rw [hx]
    simp [List.intercalate, println, List.intersperse, List.append_assoc]

theorem recordLines_eq (r : Record) : recordLines r = println (recordText r) := by
  have h : str "\nAuthor: " = NL :: str "Author: " := by decide
  simp [recordLines, recordText, println, h, str_nl, List.append_assoc]

set_option maxRecDepth 100000 in
/-- C8 (counterexample): in a state with author Alice and the tracked file
`a.txt`, the commit with the message "fix", empty line, "details" succeeds
and appends its record to the empty log; `showLog` then does not print the
record as the three lines `commit <id>`, `Author: Alice`, `<message>`. -/
theorem C8_blank_line_in_message_breaks_log :
    (commitChanges exCommitFS (vcsDirOf exCommitFS) exBlankLineMessage).out =
      println (str "Changes are committed.") ∧
    ReadFile (commitChanges exCommitFS (vcsDirOf exCommitFS) exBlankLineMessage).fs
        (Join [vcsDirOf exCommitFS, str "log.txt"]) =
      some (logOf [(exCommitID, str "Alice", exBlankLineMessage)]) ∧
    (showLog (commitChanges exCommitFS (vcsDirOf exCommitFS) exBlankLineMessage).fs
        (vcsDirOf exCommitFS)).out ≠
      expectedLog [(exCommitID, str "Alice", exBlankLineMessage)] := by
  decide

/-- C8 (amended): when the log holds N >= 1 records appended in order, and
the text of no record contains an empty line or ends in a newline, `showLog`
prints exactly those records newest first, each as the three lines
`commit <id>`, `Author: <name>`, `<message>`, with one blank line between
consecutive records and none after the last; and with a missing or empty
log it prints "No commits yet.". -/
theorem C8_log_shows_records_newest_first (fs : FS) (vcsDir : Bytes) (rs : List Record)
    (hne : rs ≠ []) (hplain : ∀ r ∈ rs, PlainRecord r)
    (hlog : ReadFile fs (Join [vcsDir, str "log.txt"]) = some (logOf rs)) :
    (showLog fs vcsDir).out = expectedLog rs ∧
    ∀ fs0 : FS, (ReadFile fs0 (Join [vcsDir, str "log.txt"]) = none ∨
        ReadFile fs0 (Join [vcsDir, str "log.txt"]) = some []) →
      (showLog fs0 vcsDir).out = println (str "No commits yet.") := by
  constructor
  · obtain ⟨r, rs', rfl⟩ := List.exists_cons_of_ne_nil hne
    have hlen : (logOf (r :: rs')).length ≠ 0 := by
      simp [logOf, logEntry, str_sep2]
    unfold showLog
    simp only [hlog, hlen, if_false]
    rw [Split_logOf _ hplain]
    have h2 : ¬ ((r :: rs').map recordText ++ [[]]).length < 2 := by simp
    simp only [h2, if_false]
    rw [showLogLoop_eq _ _ (by simp only [List.length_append, List.length_map,
      List.length_cons, List.length_nil]; omega)]
    have htake : (((r :: rs').map recordText ++ [[]]).take
        (((r :: rs').map recordText ++ [[]]).length - 2 + 1)) = (r :: rs').map recordText := by
      have : ((r :: rs').map recordText ++ [[]]).length - 2 + 1 =
          ((r :: rs').map recordText).length := by simp
      rw [this, List.take_left]
    rw [htake]
    unfold expectedLog
    rw [← List.map_reverse, List.map_map]
    congr 1
    apply List.map_congr_left
    intro x _
    simp [recordLines_eq]
  · intro fs0 h
    rcases h with h | h <;> simp [showLog, h]

set_option maxRecDepth 100000 in
/-- C8 (witness): after the commits "first" and "second" of the example,
`showLog` prints the two records, the second one first. -/
theorem C8_log_shows_records_newest_first_witness :
    (showLog exTwoCommitsFS (vcsDirOf exCommitFS)).out =
      expectedLog [(exCommitID, str "Alice", str "first"),
        (exSecondID, str "Alice", str "second")] :=
  (C8_log_shows_records_newest_first exTwoCommitsFS (vcsDirOf exCommitFS)
    [(exCommitID, str "Alice", str "first"), (exSecondID, str "Alice", str "second")]
    (by decide) (by decide) (by decide)).1

/-! ### handleAdd -/

theorem splitGo_ne_nil (sep : Bytes) : ∀ (s : Bytes) (k : Nat), splitGo sep k s ≠ [] := by
  intro s
  induction s with
  | nil => intro k; cases k <;> simp [splitGo]
  | cons c cs ih =>
    intro k
    cases k with
    | succ k => simpa [splitGo] using ih k
    | zero =>
      rw [splitGo]
      split
      · simp
      · split <;> simp

theorem splitGo_one_cons (b c : UInt8) (cs : Bytes) :
    splitGo [b] 0 (c :: cs) =
      if c = b then [] :: splitGo [b] 0 cs
      else ((splitGo [b] 0 cs).headD [] |>.cons c) :: (splitGo [b] 0 cs).tail := by
  rw [splitGo]
  by_cases h : c = b
  · subst h
    simp
  · have hp : ¬ [b] <+: c :: cs := by
      simp only [List.cons_prefix_cons, List.nil_prefix, and_true]
      exact fun e => h e.symm
    simp only [hp, h, if_false]
    cases hs : splitGo [b] 0 cs with
    | nil => exact absurd hs (splitGo_ne_nil _ _ _)
    | cons p ps => simp

theorem splitGo_one_append (b : UInt8) (t : Bytes) : ∀ s : Bytes,
    splitGo [b] 0 (s ++ b :: t) = splitGo [b] 0 s ++ splitGo [b] 0 t := by
  intro s
  induction s with
  | nil => simp [splitGo]
  | cons c s ih =>
    rw [List.cons_append, splitGo_one_cons, splitGo_one_cons, ih]
    by_cases h : c = b
    · simp [h]
    · simp only [h, if_false]
      cases hs : splitGo [b] 0 s with
      | nil => exact absurd hs (splitGo_ne_nil _ _ _)
      | cons p ps => simp

theorem splitGo_one_plain (b : UInt8) : ∀ s : Bytes, b ∉ s → splitGo [b] 0 s = [s] := by
  intro s
  induction s with
  | nil => intro _; simp [splitGo]
  | cons c s ih =>
    intro h
    have hc : ¬ c = b := fun e => h (by simp [e])
    have hs : b ∉ s := fun e => h (List.mem_cons_of_mem c e)
    rw [splitGo_one_cons, ih hs]
    simp [hc]

theorem trackedList_append (c path : Bytes) (hpath : path ≠ []) (hnl : NL ∉ path)
    (hc : c = [] ∨ c.getLast? = some NL) :
    trackedList (c ++ path ++ str "\n") = trackedList c ++ [path] := by
  unfold trackedList Split
  rw [str_nl]
  rcases hc with hc | hc
  · subst hc
    rw [List.nil_append, splitGo_one_append, splitGo_one_plain NL path hnl]
    simp [splitGo, hpath]
  · obtain ⟨c', rfl⟩ : ∃ c', c = c' ++ [NL] := by
      rw [List.getLast?_eq_some_iff] at hc
      exact hc
    have e : c' ++ [NL] ++ path ++ [NL] = c' ++ NL :: (path ++ NL :: []) := by simp
    have e' : c' ++ [NL] = c' ++ NL :: [] := rfl
    rw [e, e', splitGo_one_append, splitGo_one_append, splitGo_one_append,
      splitGo_one_plain NL path hnl]
    simp [splitGo, hpath]

theorem isDir_set_nondir (fs : FS) (l : Loc) (d : Bytes) (hl : fs.isDir l = false) (k : Loc) :
    (fs.set l (Node.file d)).isDir k = fs.isDir k := by
  have hne : l ≠ [] := by
    intro h
    subst h
    simp [FS.isDir, FS.nodeAt] at hl
  unfold FS.isDir at hl ⊢
  rw [nodeAt_set fs l _ k hne]
  by_cases hk : k = l
  · subst hk
    simp only [if_true]
    rw [hl]
    simp
  · simp [hk]

theorem resolve_set_nondir (fs : FS) (l : Loc) (d : Bytes) (hl : fs.isDir l = false)
    (path : Bytes) : resolve (fs.set l (Node.file d)) path = resolve fs path :=
  resolve_congr fs _ (isDir_set_nondir fs l d hl) rfl path

theorem ne_nil_of_isDir_false (fs : FS) (l : Loc) (hl : fs.isDir l = false) : l ≠ [] := by
  intro h
  subst h
  simp [FS.isDir, FS.nodeAt] at hl

theorem ReadFile_set_nondir (fs : FS) (l : Loc) (d : Bytes) (hl : fs.isDir l = false)
    (path : Bytes) :
    ReadFile (fs.set l (Node.file d)) path =
      if resolve fs path = some l then some d else ReadFile fs path := by
  unfold ReadFile lookup
  rw [resolve_set_nondir fs l d hl]
  cases hr : resolve fs path with
  | none => simp
  | some k =>
    simp only [nodeAt_set fs l _ k (ne_nil_of_isDir_false fs l hl)]
    by_cases hk : k = l
    · subst hk; simp
    · simp [hk]

theorem appendFile_spec (fs : FS) (path text : Bytes) (l : Loc)
    (hres : resolve fs path = some l) (hl : fs.isDir l = false) :
    appendFile fs path text =
      some (fs.set l (Node.file ((ReadFile fs path).getD [] ++ text))) := by
  unfold appendFile ReadFile lookup
  rw [hres]
  cases hn : fs.nodeAt l with
  | none => simp [hn]
  | some n =>
    cases n with
    | file old => simp [hn]
    | dir => simp [FS.isDir, hn] at hl

theorem isNotExist_of_stat (fs : FS) (path : Bytes) (h : Stat fs path = true) :
    IsNotExist (StatErr fs path) = false := by
  simp [StatErr, IsNotExist, h]

set_option maxRecDepth 100000 in
/-- C10 (counterexample): four inputs at which `add` does not do what is
claimed.  First, a file whose name is "a", newline, "b" exists and nothing is
tracked: `add` of that path succeeds, and afterwards the tracked list holds
the two entries "a" and "b", not the path as one entry.  Second, `a.txt` is
a tracked regular file, so that nothing exists at the path `a.txt/x`:
`os.Stat` fails with `ENOTDIR`, for which `os.IsNotExist` is false, and
`add a.txt/x` does not print "Can't find 'a.txt/x'." but "The file 'a.txt/x'
is tracked.", and the tracked list afterwards holds `a.txt/x` as a new entry.
Third, the index holds `a.txt` without a final newline: after `add b.txt`
the tracked list is the single entry `a.txtb.txt`.  Fourth, `vcs/index.txt`
is a directory: `add a.txt` is ended by `log.Fatal` and prints nothing. -/
theorem C10_add_does_not_append_one_entry :
    (Stat exNewlineFS (str "a\nb") = true ∧
      ReadFile exNewlineFS (Join [vcsDirOf exNewlineFS, str "index.txt"]) = none ∧
      (handleAdd exNewlineFS (vcsDirOf exNewlineFS) [str "a\nb"]).out =
        str "The file 'a\nb' is tracked.\n" ∧
      (ReadFile (handleAdd exNewlineFS (vcsDirOf exNewlineFS) [str "a\nb"]).fs
          (Join [vcsDirOf exNewlineFS, str "index.txt"])).map trackedList =
        some [str "a", str "b"] ∧
      [str "a", str "b"] ≠ [] ++ [str "a\nb"]) ∧
    (Stat exCommitFS (str "a.txt/x") = false ∧
      StatErr exCommitFS (str "a.txt/x") = some Errno.ENOTDIR ∧
      (ReadFile exCommitFS (Join [vcsDirOf exCommitFS, str "index.txt"])).map trackedList =
        some [str "a.txt"] ∧
      (handleAdd exCommitFS (vcsDirOf exCommitFS) [str "a.txt/x"]).out =
        str "The file 'a.txt/x' is tracked.\n" ∧
      (handleAdd exCommitFS (vcsDirOf exCommitFS) [str "a.txt/x"]).out ≠
        str "Can't find 'a.txt/x'.\n" ∧
      (ReadFile (handleAdd exCommitFS (vcsDirOf exCommitFS) [str "a.txt/x"]).fs
          (Join [vcsDirOf exCommitFS, str "index.txt"])).map trackedList =
        some [str "a.txt", str "a.txt/x"]) ∧
    (Stat exUnterminatedFS (str "b.txt") = true ∧
      (ReadFile exUnterminatedFS (Join [vcsDirOf exUnterminatedFS, str "index.txt"])).map
        trackedList = some [str "a.txt"] ∧
      (handleAdd exUnterminatedFS (vcsDirOf exUnterminatedFS) [str "b.txt"]).out =
        str "The file 'b.txt' is tracked.\n" ∧
      (ReadFile (handleAdd exUnterminatedFS (vcsDirOf exUnterminatedFS) [str "b.txt"]).fs
          (Join [vcsDirOf exUnterminatedFS, str "index.txt"])).map trackedList =
        some [str "a.txtb.txt"] ∧
      [str "a.txtb.txt"] ≠ [str "a.txt"] ++ [str "b.txt"]) ∧
    (Stat exIndexDirFS (str "a.txt") = true ∧
      (handleAdd exIndexDirFS (vcsDirOf exIndexDirFS) [str "a.txt"]).fatal = true ∧
      (handleAdd exIndexDirFS (vcsDirOf exIndexDirFS) [str "a.txt"]).out = []) := by
  decide

/-- C10 (amended): for a path without a newline, in a state whose index is
missing, empty or ends in a newline and can be opened for appending: if
`os.Stat` fails with the error that the path does not exist (`ENOENT`), `add`
prints "Can't find '<path>'." and leaves the filesystem, hence the tracked
list, unchanged; otherwise, that is when something exists at the path or
`os.Stat` fails with another error, it prints "The file '<path>' is
tracked.", the index afterwards is the previous content followed by the path
and a newline, and the tracked list afterwards is the previous list with the
path appended as one new last entry. -/
theorem C10_add_appends_one_entry (fs : FS) (vcsDir path : Bytes) (l : Loc)
    (hnl : NL ∉ path)
    (hidx : (ReadFile fs (Join [vcsDir, str "index.txt"])).getD [] = [] ∨
      ((ReadFile fs (Join [vcsDir, str "index.txt"])).getD []).getLast? = some NL)
    (hres : resolve fs (Join [vcsDir, str "index.txt"]) = some l)
    (hl : fs.isDir l = false) :
    (StatErr fs path = some Errno.ENOENT →
      handleAdd fs vcsDir [path] = ⟨fs, str "Can't find '" ++ path ++ str "'.\n", false⟩) ∧
    (StatErr fs path ≠ some Errno.ENOENT →
      (handleAdd fs vcsDir [path]).fatal = false ∧
      (handleAdd fs vcsDir [path]).out = str "The file '" ++ path ++ str "' is tracked.\n" ∧
      ReadFile (handleAdd fs vcsDir [path]).fs (Join [vcsDir, str "index.txt"]) =
        some ((ReadFile fs (Join [vcsDir, str "index.txt"])).getD [] ++ path ++ str "\n") ∧
      trackedList ((ReadFile (handleAdd fs vcsDir [path]).fs
          (Join [vcsDir, str "index.txt"])).getD []) =
        trackedList ((ReadFile fs (Join [vcsDir, str "index.txt"])).getD []) ++ [path]) := by
  constructor
  · intro h
    simp [handleAdd, IsNotExist, h]
  · intro h
    have hpath : path ≠ [] := by
      intro e
      subst e
      apply h
      simp [StatErr, Stat, lookup, resolve]
    have hnot : IsNotExist (StatErr fs path) = false := by
      simp [IsNotExist, h]
    have happ := appendFile_spec fs (Join [vcsDir, str "index.txt"]) (path ++ str "\n") l hres hl
    have hread : ReadFile (handleAdd fs vcsDir [path]).fs (Join [vcsDir, str "index.txt"]) =
        some ((ReadFile fs (Join [vcsDir, str "index.txt"])).getD [] ++ path ++ str "\n") := by
      simp only [handleAdd, hnot, happ]
      simp only [Bool.false_eq_true, if_false]
      rw [ReadFile_set_nondir fs l _ hl, hres]
      simp [List.append_assoc]
    refine ⟨?_, ?_, hread, ?_⟩
    · simp [handleAdd, hnot, happ]
    · simp [handleAdd, hnot, happ]
    · rw [hread]
      simp only [Option.getD_some]
      exact trackedList_append _ path hpath hnl hidx

set_option maxRecDepth 100000 in
/-- C10 (witness): in the example state, where `a.txt` is tracked and exists
and nothing is named `missing.txt`, `add missing.txt` prints "Can't find
'missing.txt'." and changes nothing, and `add a.txt` appends `a.txt` once
more as the new last entry. -/
theorem C10_add_appends_one_entry_witness :
    StatErr exCommitFS (str "missing.txt") = some Errno.ENOENT ∧
    handleAdd exCommitFS (vcsDirOf exCommitFS) [str "missing.txt"] =
      ⟨exCommitFS, str "Can't find '" ++ str "missing.txt" ++ str "'.\n", false⟩ ∧
    StatErr exCommitFS (str "a.txt") = none ∧
    trackedList ((ReadFile (handleAdd exCommitFS (vcsDirOf exCommitFS) [str "a.txt"]).fs
        (Join [vcsDirOf exCommitFS, str "index.txt"])).getD []) =
      trackedList ((ReadFile exCommitFS
        (Join [vcsDirOf exCommitFS, str "index.txt"])).getD []) ++ [str "a.txt"] :=
  ⟨by decide,
   (C10_add_appends_one_entry exCommitFS (vcsDirOf exCommitFS) (str "missing.txt")
      (exVcs ++ [str "index.txt"]) (by decide) (by decide) (by decide) (by decide)).1
      (by decide),
   by decide,
   ((C10_add_appends_one_entry exCommitFS (vcsDirOf exCommitFS) (str "a.txt")
      (exVcs ++ [str "index.txt"]) (by decide) (by decide) (by decide) (by decide)).2
      (by decide)).2.2.2⟩

/-! ### Tracked files that cannot be copied -/

set_option maxRecDepth 100000 in
/-- C3 (the code at the failing input): an author is configured, `a.txt` is
readable, `b.txt` is tracked but deleted, and nothing exists for the computed
identifier.  `generateCommitID` skips `b.txt` and reports that a file was
read; `commitChanges` then creates the snapshot directory, copies `a.txt`,
and is ended by `log.Fatal` in `copyFileToCommit` at `b.txt`: it prints
nothing and appends no record to the log. -/
theorem C3_commit_with_deleted_tracked_file_is_fatal :
    ReadFile exDeletedFS (str "a.txt") = some (str "A") ∧
    ReadFile exDeletedFS (str "b.txt") = none ∧
    generateCommitID exDeletedFS [str "a.txt", str "b.txt", []] = (exCommitID, true) ∧
    Stat exDeletedFS (Join [vcsDirOf exDeletedFS, str "commits", exCommitID]) = false ∧
    (commitChanges exDeletedFS (vcsDirOf exDeletedFS) (str "msg")).fatal = true ∧
    (commitChanges exDeletedFS (vcsDirOf exDeletedFS) (str "msg")).out = [] ∧
    ReadFile (commitChanges exDeletedFS (vcsDirOf exDeletedFS) (str "msg")).fs
      (Join [vcsDirOf exDeletedFS, str "log.txt"]) = none ∧
    ReadFile (commitChanges exDeletedFS (vcsDirOf exDeletedFS) (str "msg")).fs
      (Join [vcsDirOf exDeletedFS, str "commits", exCommitID, str "a.txt"]) =
        some (str "A") := by
  decide

set_option maxRecDepth 100000 in
/-- The test `os.IsNotExist` in `checkoutCommit`: for the identifier
`../index.txt/x` the path of the snapshot directory runs through the regular
file `vcs/index.txt`, `os.Stat` fails with `ENOTDIR`, and the checkout does
not print "Commit does not exist." but goes on and is ended by `log.Fatal`
at the first tracked file; for an identifier that names nothing it prints
"Commit does not exist.". -/
theorem checkout_of_a_path_through_a_file :
    StatErr exCommitFS (Join [vcsDirOf exCommitFS, str "commits", str "../index.txt/x"]) =
      some Errno.ENOTDIR ∧
    (checkoutCommit exCommitFS (vcsDirOf exCommitFS) (str "../index.txt/x")).fatal = true ∧
    (checkoutCommit exCommitFS (vcsDirOf exCommitFS) (str "../index.txt/x")).out = [] ∧
    StatErr exCommitFS (Join [vcsDirOf exCommitFS, str "commits", str "0a"]) =
      some Errno.ENOENT ∧
    (checkoutCommit exCommitFS (vcsDirOf exCommitFS) (str "0a")).fatal = false ∧
    (checkoutCommit exCommitFS (vcsDirOf exCommitFS) (str "0a")).out =
      println (str "Commit does not exist.") := by
  decide

set_option maxRecDepth 100000 in
/-- C6 (counterexample): the commit `exCommitID` exists and holds `a.txt`
only; `b.txt` was added to the tracked list afterwards.  With the tracked
list `a.txt, b.txt`, `checkoutCommit` of that commit restores `a.txt` and is
then ended by `log.Fatal` in `restoreFileFromCommit` at `b.txt`: it never
prints "Switched to commit ...".  With the tracked list `b.txt, a.txt` it is
ended at `b.txt` before it comes to `a.txt`, which has an entry in the
snapshot and is not restored: it still holds "A2".  With the tracked list
`a.txt, b.txt` and a directory in the place of `a.txt`, it is ended at
`a.txt`, where `os.Create` fails, and restores nothing. -/
theorem C6_checkout_with_later_tracked_file_is_fatal :
    (Stat exLaterAddFS (Join [vcsDirOf exLaterAddFS, str "commits", exCommitID]) = true ∧
      ReadFile exLaterAddFS (Join [vcsDirOf exLaterAddFS, str "index.txt"]) =
        some (str "a.txt\nb.txt\n") ∧
      Stat exLaterAddFS
        (Join [vcsDirOf exLaterAddFS, str "commits", exCommitID, str "b.txt"]) = false ∧
      ReadFile exLaterAddFS (str "a.txt") = some (str "A2") ∧
      (checkoutCommit exLaterAddFS (vcsDirOf exLaterAddFS) exCommitID).fatal = true ∧
      (checkoutCommit exLaterAddFS (vcsDirOf exLaterAddFS) exCommitID).out = [] ∧
      ReadFile (checkoutCommit exLaterAddFS (vcsDirOf exLaterAddFS) exCommitID).fs
        (str "a.txt") = some (str "A") ∧
      ReadFile (checkoutCommit exLaterAddFS (vcsDirOf exLaterAddFS) exCommitID).fs
        (str "b.txt") = some (str "B")) ∧
    (Stat exAddedFirstFS (Join [vcsDirOf exAddedFirstFS, str "commits", exCommitID]) = true ∧
      ReadFile exAddedFirstFS (Join [vcsDirOf exAddedFirstFS, str "index.txt"]) =
        some (str "b.txt\na.txt\n") ∧
      ReadFile exAddedFirstFS
        (Join [vcsDirOf exAddedFirstFS, str "commits", exCommitID, str "a.txt"]) =
          some (str "A") ∧
      ReadFile exAddedFirstFS (str "a.txt") = some (str "A2") ∧
      (checkoutCommit exAddedFirstFS (vcsDirOf exAddedFirstFS) exCommitID).fatal = true ∧
      (checkoutCommit exAddedFirstFS (vcsDirOf exAddedFirstFS) exCommitID).out = [] ∧
      ReadFile (checkoutCommit exAddedFirstFS (vcsDirOf exAddedFirstFS) exCommitID).fs
        (str "a.txt") = some (str "A2")) ∧
    (ReadFile exWorkDirFS (Join [vcsDirOf exWorkDirFS, str "index.txt"]) =
        some (str "a.txt\nb.txt\n") ∧
      ReadFile exWorkDirFS
        (Join [vcsDirOf exWorkDirFS, str "commits", exCommitID, str "a.txt"]) =
          some (str "A") ∧
      exWorkDirFS.isDir (exCwd ++ [str "a.txt"]) = true ∧
      (checkoutCommit exWorkDirFS (vcsDirOf exWorkDirFS) exCommitID).fatal = true ∧
      (checkoutCommit exWorkDirFS (vcsDirOf exWorkDirFS) exCommitID).out = [] ∧
      (checkoutCommit exWorkDirFS (vcsDirOf exWorkDirFS) exCommitID).fs.isDir
        (exCwd ++ [str "a.txt"]) = true) := by
  decide

/-! ### Paths of locations -/

theorem splitGo_one_names (b : UInt8) : ∀ (l : List Bytes) (c : Bytes), b ∉ c →
    (∀ n ∈ l, b ∉ n) →
    splitGo [b] 0 (c ++ l.flatMap fun n => b :: n) = c :: l := by
  intro l
  induction l with
  | nil =>
    intro c hc _
    simpa using splitGo_one_plain b c hc
  | cons c2 l ih =>
    intro c hc hl
    rw [List.flatMap_cons, List.cons_append, splitGo_one_append, splitGo_one_plain b c hc,
      ih c2 (hl c2 (List.mem_cons_self _ _)) (fun n hn => hl n (List.mem_cons_of_mem _ hn))]
    rfl

theorem Split_render (l : Loc) (h : ∀ n ∈ l, SEP ∉ n) : Split (render l) [SEP] = [] :: l := by
  unfold Split render
  cases l with
  | nil => simp [splitGo]
  | cons c l =>
    rw [List.flatMap_cons, List.cons_append, splitGo_one_cons]
    simp only [if_true]
    rw [splitGo_one_names SEP l c (h c (List.mem_cons_self _ _))
      (fun n hn => h n (List.mem_cons_of_mem _ hn))]

theorem cleanStep_valid (r : Bool) (out : List Bytes) (c : Bytes) (h : ValidName c) :
    cleanStep r out c = c :: out := by
  unfold cleanStep
  simp [h.1, h.2.2.1, h.2.2.2]

theorem foldl_cleanStep_valid (r : Bool) : ∀ (names out : List Bytes),
    (∀ n ∈ names, ValidName n) → names.foldl (cleanStep r) out = names.reverse ++ out := by
  intro names
  induction names with
  | nil => intro out _; rfl
  | cons c names ih =>
    intro out h
    rw [List.foldl_cons, cleanStep_valid r out c (h c (List.mem_cons_self _ _)),
      ih _ (fun n hn => h n (List.mem_cons_of_mem _ hn))]
    simp

theorem intercalate_cons_render : ∀ (l : List Bytes) (c : Bytes),
    [SEP].intercalate (c :: l) = c ++ render l := by
  intro l
  induction l with
  | nil => intro c; simp [List.intercalate, render]
  | cons c2 l ih =>
    intro c
    have h := ih c2
    simp only [List.intercalate, List.intersperse_cons_cons, List.flatten_cons] at h ⊢
    rw [h]
    simp [render]

theorem Clean_render (l : Loc) (hne : l ≠ []) (h : ∀ n ∈ l, ValidName n) :
    Clean (render l) = render l := by
  obtain ⟨c, l', rfl⟩ := List.exists_cons_of_ne_nil hne
  have hr : render (c :: l') = SEP :: (c ++ render l') := by simp [render]
  unfold Clean
  have hne' : render (c :: l') ≠ [] := by rw [hr]; simp
  simp only [hne', if_false]
  rw [Split_render _ (fun n hn => (h n hn).2.1)]
  have hhead : (render (c :: l')).head? = some SEP := by rw [hr]; rfl
  simp only [hhead, decide_True, if_true]
  rw [List.foldl_cons]
  have h0 : cleanStep true [] [] = [] := by simp [cleanStep]
  rw [h0, foldl_cleanStep_valid true _ _ h]
  simp only [List.append_nil, List.reverse_reverse]
  rw [intercalate_cons_render, hr]

theorem render_append (a b : Loc) : render (a ++ b) = render a ++ render b := by
  simp [render]

theorem Join_render (a : Loc) (ns : List Bytes) (hne : a ≠ [])
    (h : ∀ n ∈ a ++ ns, ValidName n) : Join (render a :: ns) = render (a ++ ns) := by
  obtain ⟨c, l', rfl⟩ := List.exists_cons_of_ne_nil hne
  have hr : render (c :: l') = SEP :: (c ++ render l') := by simp [render]
  unfold Join
  have hd : (render (c :: l') :: ns).dropWhile (fun e => decide (e = [])) =
      render (c :: l') :: ns := by
    rw [List.dropWhile_cons]
    simp [hr]
  rw [hd]
  simp only []
  rw [intercalate_cons_render, ← render_append]
  exact Clean_render _ (by simp) h

theorem vcsDirOf_eq (fs : FS) (h : ∀ n ∈ fs.cwd, ValidName n) :
    vcsDirOf fs = render (fs.cwd ++ [str "vcs"]) := by
  unfold vcsDirOf Getwd
  by_cases hc : fs.cwd = []
  · rw [hc]
    decide
  · simp only [hc, if_false]
    have := Join_render fs.cwd [str "vcs"] hc (by
      intro n hn
      rcases List.mem_append.mp hn with hn | hn
      · exact h n hn
      · rw [List.mem_singleton] at hn
        subst hn
        decide)
    exact this

theorem walk_names (fs : FS) : ∀ (names : List Bytes) (cur : Loc),
    (∀ n ∈ names, ValidName n) →
    (∀ k, k < names.length → fs.isDir (cur ++ names.take k) = true) →
    walk fs cur names = some (cur ++ names) := by
  intro names
  induction names with
  | nil => intro cur _ _; simp [walk]
  | cons c names ih =>
    intro cur hv hd
    have h0 : fs.isDir cur = true := by simpa using hd 0 (by simp)
    have hc := hv c (List.mem_cons_self _ _)
    rw [walk]
    simp only [h0, if_true, hc.1, hc.2.2.1, hc.2.2.2, false_or, if_false]
    rw [ih (cur ++ [c]) (fun n hn => hv n (List.mem_cons_of_mem _ hn))]
    · simp
    · intro k hk
      have := hd (k + 1) (by simpa using hk)
      simpa using this

theorem resolve_render (fs : FS) (l : Loc) (hne : l ≠ []) (hv : ∀ n ∈ l, ValidName n)
    (hd : ∀ k, k < l.length → fs.isDir (l.take k) = true) : resolve fs (render l) = some l := by
  obtain ⟨c, l', rfl⟩ := List.exists_cons_of_ne_nil hne
  have hr : render (c :: l') = SEP :: (c ++ render l') := by simp [render]
  unfold resolve
  have hne' : render (c :: l') ≠ [] := by rw [hr]; simp
  have hhead : (render (c :: l')).head? = some SEP := by rw [hr]; rfl
  simp only [hne', if_false, hhead, if_true]
  rw [Split_render _ (fun n hn => (hv n hn).2.1), walk]
  have hroot : fs.isDir [] = true := by simp [FS.isDir, FS.nodeAt]
  simp only [hroot, if_true, true_or]
  have := walk_names fs (c :: l') [] hv (by simpa using hd)
  simpa using this

/-! ### Bare names and base names -/

theorem Split_plain (n : Bytes) (h : SEP ∉ n) : Split n [SEP] = [n] :=
  splitGo_one_plain SEP n h

theorem takeWhile_append_stop {α : Type} (p : α → Bool) : ∀ (xs : List α) (y : α) (ys : List α),
    (∀ x ∈ xs, p x = true) → p y = false → (xs ++ y :: ys).takeWhile p = xs := by
  intro xs
  induction xs with
  | nil => intro y ys _ hy; simp [List.takeWhile_cons, hy]
  | cons x xs ih =>
    intro y ys hx hy
    rw [List.cons_append, List.takeWhile_cons, hx x (List.mem_cons_self _ _)]
    simp only [if_true]
    rw [ih y ys (fun z hz => hx z (List.mem_cons_of_mem _ hz)) hy]

theorem takeWhile_all {α : Type} (p : α → Bool) : ∀ (xs : List α),
    (∀ x ∈ xs, p x = true) → xs.takeWhile p = xs := by
  intro xs
  induction xs with
  | nil => intro _; rfl
  | cons x xs ih =>
    intro hx
    rw [List.takeWhile_cons, hx x (List.mem_cons_self _ _)]
    simp only [if_true]
    rw [ih (fun z hz => hx z (List.mem_cons_of_mem _ hz))]

theorem Base_of_last_segment (s t : Bytes) (ht : t ≠ []) (hsep : SEP ∉ t) :
    Base (s ++ t) = t ∨ (s ≠ [] ∧ s.getLast? ≠ some SEP) := by
  by_cases hs : s = [] ∨ s.getLast? = some SEP
  · left
    obtain ⟨x, xs, hx⟩ := List.exists_cons_of_ne_nil (List.reverse_ne_nil_iff.mpr ht)
    have hxs : x ≠ SEP := by
      intro e
      apply hsep
      have : x ∈ t.reverse := by rw [hx]; exact List.mem_cons_self _ _
      rw [e] at this
      exact List.mem_reverse.mp this
    have hrev : (s ++ t).reverse = x :: (xs ++ s.reverse) := by
      rw [List.reverse_append, hx]; rfl
    have hall : ∀ z ∈ t.reverse, (decide (z ≠ SEP)) = true := by
      intro z hz
      have : z ≠ SEP := fun e => hsep (by rw [← e]; exact List.mem_reverse.mp hz)
      simpa using this
    unfold Base
    have hne : s ++ t ≠ [] := by simp [ht]
    simp only [hne, if_false]
    have hdrop : ((s ++ t).reverse.dropWhile fun b => decide (b = SEP)) = (s ++ t).reverse := by
      rw [hrev, List.dropWhile_cons]
      simp [hxs]
    rw [hdrop, List.reverse_reverse]
    have htake : ((s ++ t).reverse.takeWhile fun b => decide (b ≠ SEP)) = t.reverse := by
      rw [List.reverse_append]
      rcases hs with hs | hs
      · subst hs
        simpa using takeWhile_all _ t.reverse hall
      · obtain ⟨s', rfl⟩ : ∃ s', s = s' ++ [SEP] := by
          rw [List.getLast?_eq_some_iff] at hs
          exact hs
        rw [List.reverse_append]
        exact takeWhile_append_stop _ t.reverse SEP _ hall (by simp)
    rw [htake, List.reverse_reverse]
    simp [ht]
  · right
    push_neg at hs
    exact hs

theorem Base_bare (n : Bytes) (hne : n ≠ []) (hsep : SEP ∉ n) : Base n = n := by
  rcases Base_of_last_segment [] n hne hsep with h | h
  · simpa using h
  · exact absurd rfl h.1

theorem exists_last_sep : ∀ (path : Bytes), SEP ∈ path →
    ∃ s t, path = s ++ SEP :: t ∧ SEP ∉ t := by
  intro path
  induction path with
  | nil => intro h; cases h
  | cons x xs ih =>
    intro h
    by_cases hxs : SEP ∈ xs
    · obtain ⟨s, t, rfl, ht⟩ := ih hxs
      exact ⟨x :: s, t, rfl, ht⟩
    · have hx : x = SEP := by
        rcases List.mem_cons.mp h with e | e
        · exact e.symm
        · exact absurd e hxs
      subst hx
      exact ⟨[], xs, rfl, hxs⟩

theorem getLast?_append_singleton {α : Type} (l : List α) (a : α) :
    (l ++ [a]).getLast? = some a := by
  simp

theorem Base_eq_last (path c : Bytes) (hlast : (Split path [SEP]).getLast? = some c)
    (hc : c ≠ []) : Base path = c ∧ SEP ∉ c := by
  by_cases hsep : SEP ∈ path
  · obtain ⟨s, t, rfl, ht⟩ := exists_last_sep path hsep
    have hsplit : Split (s ++ SEP :: t) [SEP] = Split s [SEP] ++ [t] := by
      unfold Split
      rw [splitGo_one_append, splitGo_one_plain SEP t ht]
    rw [hsplit, getLast?_append_singleton] at hlast
    have e : t = c := Option.some.inj hlast
    subst e
    refine ⟨?_, ht⟩
    have e2 : s ++ SEP :: t = (s ++ [SEP]) ++ t := by simp
    rw [e2]
    rcases Base_of_last_segment (s ++ [SEP]) t hc ht with h | h
    · exact h
    · exact absurd (getLast?_append_singleton s SEP) h.2
  · rw [Split_plain path hsep] at hlast
    have e : path = c := by simpa using hlast
    subst e
    exact ⟨Base_bare path hc hsep, hsep⟩

theorem resolve_bare (fs : FS) (n : Bytes) (h : ValidName n) (hd : fs.isDir fs.cwd = true) :
    resolve fs n = some (fs.cwd ++ [n]) := by
  unfold resolve
  have hhead : ¬ n.head? = some SEP := by
    intro e
    cases n with
    | nil => simp at e
    | cons x xs =>
      simp only [List.head?_cons, Option.some.injEq] at e
      exact h.2.1 (by simp [e])
  simp only [h.1, if_false, hhead]
  rw [Split_plain n h.2.1]
  have := walk_names fs [n] fs.cwd (by simpa using h) (by simpa using hd)
  simpa using this

theorem Join_dot (n : Bytes) (h : ValidName n) : Join [str ".", n] = n := by
  unfold Join
  have hd : ([str ".", n]).dropWhile (fun e => decide (e = [])) = [str ".", n] := by
    rw [List.dropWhile_cons]
    have : str "." ≠ [] := by decide
    simp [this]
  rw [hd]
  simp only []
  have hi : [SEP].intercalate [str ".", n] = str "." ++ SEP :: n := by
    simp [List.intercalate]
  rw [hi]
  unfold Clean
  have hdot : str "." = [46] := by decide
  have hsplit : Split (str "." ++ SEP :: n) [SEP] = [str ".", n] := by
    unfold Split
    rw [splitGo_one_append, splitGo_one_plain SEP n h.2.1, splitGo_one_plain SEP (str ".") (by decide)]
    rfl
  rw [hsplit]
  have hne : str "." ++ SEP :: n ≠ [] := by simp
  have hhead : ¬ (str "." ++ SEP :: n).head? = some SEP := by
    rw [hdot]
    simp only [List.cons_append, List.head?_cons, Option.some.injEq]
    decide
  simp only [hne, if_false, hhead, decide_False, List.foldl_cons, List.foldl_nil]
  have h1 : cleanStep false [] (str ".") = [] := by simp [cleanStep]
  rw [h1, cleanStep_valid false [] n h]
  simp [List.intercalate]

/-! ### Readable paths end in a name -/

theorem walk_file (fs : FS) : ∀ (cs : List Bytes) (cur s : Loc), cs ≠ [] →
    walk fs cur cs = some s → fs.isDir s = false →
    ∃ p c, s = p ++ [c] ∧ cs.getLast? = some c ∧ c ≠ [] ∧ c ≠ str "." ∧ c ≠ str ".." ∧
      fs.isDir p = true := by
  intro cs
  induction cs with
  | nil => intro cur s h; exact absurd rfl h
  | cons c rest ih =>
    intro cur s _ hw hs
    rw [walk] at hw
    by_cases hd : fs.isDir cur = true
    · simp only [hd, if_true] at hw
      cases rest with
      | nil =>
        by_cases h1 : c = [] ∨ c = str "."
        · simp only [h1, if_true, walk, Option.some.injEq] at hw
          subst hw
          rw [hd] at hs
          cases hs
        · simp only [h1, if_false] at hw
          by_cases h2 : c = str ".."
          · simp only [h2, if_true] at hw
            by_cases h3 : fs.isDir cur.dropLast = true
            · simp only [h3, if_true, walk, Option.some.injEq] at hw
              subst hw
              rw [h3] at hs
              cases hs
            · simp [h3] at hw
          · simp only [h2, if_false, walk, Option.some.injEq] at hw
            subst hw
            push_neg at h1
            exact ⟨cur, c, rfl, rfl, h1.1, h1.2, h2, hd⟩
      | cons c2 rest2 =>
        have hlast : (c :: c2 :: rest2).getLast? = (c2 :: rest2).getLast? := by
          simp [List.getLast?_cons_cons]
        rw [hlast]
        by_cases h1 : c = [] ∨ c = str "."
        · simp only [h1, if_true] at hw
          exact ih cur s (by simp) hw hs
        · simp only [h1, if_false] at hw
          by_cases h2 : c = str ".."
          · simp only [h2, if_true] at hw
            by_cases h3 : fs.isDir cur.dropLast = true
            · simp only [h3, if_true] at hw
              exact ih _ s (by simp) hw hs
            · simp [h3] at hw
          · simp only [h2, if_false] at hw
            exact ih _ s (by simp) hw hs
    · simp [hd] at hw

theorem resolve_file (fs : FS) (f : Bytes) (s : Loc) (hr : resolve fs f = some s)
    (hs : fs.isDir s = false) :
    ∃ p, s = p ++ [Base f] ∧ ValidName (Base f) ∧ fs.isDir p = true := by
  unfold resolve at hr
  by_cases hf : f = []
  · simp [hf] at hr
  · simp only [hf, if_false] at hr
    obtain ⟨p, c, hsp, hlast, hc1, hc2, hc3, hp⟩ :=
      walk_file fs _ _ s (splitGo_ne_nil _ _ _) hr hs
    obtain ⟨hb, hsep⟩ := Base_eq_last f c hlast hc1
    rw [hb]
    exact ⟨p, hsp, ⟨hc1, hsep, hc2, hc3⟩, hp⟩

/-! ### The commit identifier is a name -/

theorem SHA256.round_length (st : List Nat) (kw : Nat × Nat) (h : st.length = 8) :
    (SHA256.round st kw).length = 8 := by
  rcases st with _ | ⟨a, _ | ⟨b, _ | ⟨c, _ | ⟨d, _ | ⟨e, _ | ⟨f, _ | ⟨g, _ | ⟨h', _ | ⟨i, t⟩⟩⟩⟩⟩⟩⟩⟩⟩ <;>
    simp at h
  simp [SHA256.round]

theorem SHA256.foldl_round_length (kws : List (Nat × Nat)) : ∀ st : List Nat, st.length = 8 →
    (kws.foldl SHA256.round st).length = 8 := by
  induction kws with
  | nil => intro st h; exact h
  | cons kw kws ih =>
    intro st h
    exact ih _ (SHA256.round_length st kw h)

theorem SHA256.compress_length (h : List Nat) (block : List Nat) (hh : h.length = 8) :
    (SHA256.compress h block).length = 8 := by
  unfold SHA256.compress
  rw [List.length_zipWith, SHA256.foldl_round_length _ _ hh, hh]
  rfl

theorem SHA256.foldl_compress_length (blocks : List (List Nat)) : ∀ h : List Nat,
    h.length = 8 → (blocks.foldl SHA256.compress h).length = 8 := by
  induction blocks with
  | nil => intro h hh; exact hh
  | cons b blocks ih =>
    intro h hh
    exact ih _ (SHA256.compress_length h b hh)

theorem SHA256.flatMap_wordBytes_length : ∀ ws : List Nat,
    (ws.flatMap SHA256.wordBytes).length = 4 * ws.length := by
  intro ws
  induction ws with
  | nil => rfl
  | cons w ws ih =>
    rw [List.flatMap_cons, List.length_append, ih]
    simp [SHA256.wordBytes]
    omega

theorem sha256_length (data : Bytes) : (sha256 data).length = 32 := by
  unfold sha256 SHA256.digest
  simp only [List.length_map]
  rw [SHA256.flatMap_wordBytes_length, SHA256.foldl_compress_length _ SHA256.H0 rfl]

theorem hexEncode_length : ∀ b : Bytes, (hexEncode b).length = 2 * b.length := by
  intro b
  induction b with
  | nil => rfl
  | cons x xs ih =>
    have : hexEncode (x :: xs) =
        hexDigit (x.toNat / 16) :: hexDigit (x.toNat % 16) :: hexEncode xs := by
      simp [hexEncode]
    rw [this]
    simp only [List.length_cons, ih]
    omega

theorem hexDigit_ne : ∀ a : Fin 16, hexDigit a.val ≠ 47 ∧ hexDigit a.val ≠ 46 := by
  decide

theorem hexEncode_mem : ∀ (b : Bytes) (x : UInt8), x ∈ hexEncode b → x ≠ 47 ∧ x ≠ 46 := by
  intro b
  induction b with
  | nil => intro x hx; simp [hexEncode] at hx
  | cons y ys ih =>
    intro x hx
    have hy : y.toNat < 256 := y.val.isLt
    have : hexEncode (y :: ys) =
        hexDigit (y.toNat / 16) :: hexDigit (y.toNat % 16) :: hexEncode ys := by
      simp [hexEncode]
    rw [this] at hx
    rcases List.mem_cons.mp hx with e | hx
    · rw [e]; exact hexDigit_ne ⟨y.toNat / 16, by omega⟩
    · rcases List.mem_cons.mp hx with e | hx
      · rw [e]; exact hexDigit_ne ⟨y.toNat % 16, by omega⟩
      · exact ih x hx

theorem validName_commitID (fs : FS) (files : List Bytes) :
    ValidName (generateCommitID fs files).1 := by
  rw [generateCommitID_fst]
  have hlen : (hexEncode (sha256 (hashInput fs files))).length = 64 := by
    rw [hexEncode_length, sha256_length]
  have hmem := hexEncode_mem (sha256 (hashInput fs files))
  refine ⟨?_, ?_, ?_, ?_⟩
  · intro e
    rw [e] at hlen
    cases hlen
  · intro h
    exact (hmem _ h).1 rfl
  · intro e
    have : (46 : UInt8) ∈ hexEncode (sha256 (hashInput fs files)) := by
      rw [e]; decide
    exact (hmem _ this).2 rfl
  · intro e
    have : (46 : UInt8) ∈ hexEncode (sha256 (hashInput fs files)) := by
      rw [e]; decide
    exact (hmem _ this).2 rfl

/-! ### The filesystem: more frame lemmas -/

theorem FS.ext_node (a b : FS) (hn : a.node = b.node) (hc : a.cwd = b.cwd) : a = b := by
  cases a; cases b
  simp only [FS.mk.injEq]
  exact ⟨hn, hc⟩

theorem set_set (fs : FS) (l : Loc) (a b : Node) : (fs.set l a).set l b = fs.set l b := by
  apply FS.ext_node
  · funext k
    simp only [FS.set]
    by_cases hk : k = l <;> simp [hk]
  · rfl

theorem walk_mono (fs fs' : FS) (h : ∀ k, fs.isDir k = true → fs'.isDir k = true) :
    ∀ (cs : List Bytes) (cur s : Loc), walk fs cur cs = some s → walk fs' cur cs = some s := by
  intro cs
  induction cs with
  | nil => intro cur s hw; exact hw
  | cons c cs ih =>
    intro cur s hw
    rw [walk] at hw ⊢
    by_cases hd : fs.isDir cur = true
    · simp only [hd, h cur hd, if_true] at hw ⊢
      by_cases h1 : c = [] ∨ c = str "."
      · simp only [h1, if_true] at hw ⊢
        exact ih _ _ hw
      · simp only [h1, if_false] at hw ⊢
        by_cases h2 : c = str ".."
        · simp only [h2, if_true] at hw ⊢
          by_cases h3 : fs.isDir cur.dropLast = true
          · simp only [h3, h _ h3, if_true] at hw ⊢
            exact ih _ _ hw
          · simp [h3] at hw
        · simp only [h2, if_false] at hw ⊢
          exact ih _ _ hw
    · simp [hd] at hw

theorem resolve_mono (fs fs' : FS) (h : ∀ k, fs.isDir k = true → fs'.isDir k = true)
    (hc : fs'.cwd = fs.cwd) (path : Bytes) (s : Loc) (hr : resolve fs path = some s) :
    resolve fs' path = some s := by
  unfold resolve at hr ⊢
  rw [hc]
  by_cases hp : path = []
  · simp [hp] at hr
  · simp only [hp, if_false] at hr ⊢
    exact walk_mono fs fs' h _ _ _ hr

theorem isDir_of_nodeAt_eq (a b : FS) (k : Loc) (h : a.nodeAt k = b.nodeAt k) :
    a.isDir k = b.isDir k := by
  unfold FS.isDir
  rw [h]

theorem ReadFile_eq_some (fs : FS) (f d : Bytes) (h : ReadFile fs f = some d) :
    ∃ s, resolve fs f = some s ∧ fs.nodeAt s = some (Node.file d) := by
  unfold ReadFile lookup at h
  cases hr : resolve fs f with
  | none => simp [hr] at h
  | some s =>
    simp only [hr] at h
    cases hn : fs.nodeAt s with
    | none => simp [hn] at h
    | some n =>
      cases n with
      | dir => simp [hn] at h
      | file d' =>
        simp only [hn, Option.some.injEq] at h
        subst h
        exact ⟨s, rfl, hn⟩

theorem isDir_false_of_file (fs : FS) (s : Loc) (d : Bytes)
    (h : fs.nodeAt s = some (Node.file d)) : fs.isDir s = false := by
  simp [FS.isDir, h]

theorem isDir_false_of_none (fs : FS) (s : Loc) (h : fs.nodeAt s = none) :
    fs.isDir s = false := by
  simp [FS.isDir, h]

theorem closed_set (fs : FS) (l : Loc) (n : Node) (hc : fs.Closed) (hl : l ≠ [])
    (hp : fs.isDir l.dropLast = true) (hn : n = Node.dir ∨ fs.isDir l = false) :
    (fs.set l n).Closed := by
  intro k c hk
  rw [nodeAt_set fs l n _ hl] at hk
  have hset : ∀ j, (fs.set l n).isDir j = if j = l then decide (n = Node.dir) else fs.isDir j := by
    intro j
    unfold FS.isDir
    rw [nodeAt_set fs l n j hl]
    by_cases hj : j = l <;> simp [hj]
  rw [hset]
  by_cases hkl : k ++ [c] = l
  · have hk' : k = l.dropLast := by rw [← hkl]; simp
    have hne : k ≠ l := by
      intro e
      rw [e] at hkl
      have := congrArg List.length hkl
      simp at this
    simp only [hne, if_false]
    rw [hk']
    exact hp
  · simp only [hkl, if_false] at hk
    have hk2 := hc k c hk
    by_cases hj : k = l
    · simp only [hj, if_true]
      rcases hn with hn | hn
      · simp [hn]
      · rw [hj] at hk2
        rw [hk2] at hn
        cases hn
    · simp only [hj, if_false]
      exact hk2

/-! ### The copy loop of a commit -/

theorem Snap.mono {fs cur : FS} {c : Loc} (h : Snap fs cur c) (k : Loc)
    (hk : fs.isDir k = true) : cur.isDir k = true := by
  by_cases h1 : k = c
  · rw [h1, isDir_false_of_none fs c h.absent] at hk
    cases hk
  · by_cases h2 : ∃ n, k = c ++ [n]
    · obtain ⟨n, rfl⟩ := h2
      rw [isDir_false_of_none fs _ (h.empty n)] at hk
      cases hk
    · push_neg at h2
      rw [isDir_of_nodeAt_eq cur fs k (h.same k h1 h2)]
      exact hk

theorem Snap.start (fs : FS) (c : Loc) (hc : c ≠ []) (habs : fs.nodeAt c = none)
    (hclosed : fs.Closed) : Snap fs (fs.set c Node.dir) c := by
  have hempty : ∀ n, fs.nodeAt (c ++ [n]) = none := by
    intro n
    by_contra hne
    have := hclosed c n hne
    rw [isDir_false_of_none fs c habs] at this
    cases this
  have hne : ∀ n, c ++ [n] ≠ c := by
    intro n e
    have := congrArg List.length e
    simp at this
  refine ⟨rfl, habs, hempty, ?_, ?_, ?_⟩
  · rw [nodeAt_set fs c _ c hc]
    simp
  · intro k hk _
    rw [nodeAt_set fs c _ k hc]
    simp [hk]
  · intro n
    unfold FS.isDir
    rw [nodeAt_set fs c _ _ hc]
    simp [hne n, hempty n]

theorem copy_step (fs cur : FS) (c : Loc) (f : Bytes) (s : Loc) (d : Bytes)
    (hsnap : Snap fs cur c) (hc : c ≠ []) (hv : ∀ n ∈ c, ValidName n)
    (hd : ∀ k, k < c.length → fs.isDir (c.take k) = true)
    (hr : resolve fs f = some s) (hn : fs.nodeAt s = some (Node.file d)) :
    copyFileToCommit cur f (render c) = Step.ok (cur.set (c ++ [Base f]) (Node.file d)) ∧
      Snap fs (cur.set (c ++ [Base f]) (Node.file d)) c := by
  have hres := resolve_mono fs cur hsnap.mono hsnap.cwd f s hr
  obtain ⟨p, hsp, hvb, hp⟩ := resolve_file fs f s hr (isDir_false_of_file fs s d hn)
  have hsC : s ≠ c := by
    intro e
    rw [e, hsnap.absent] at hn
    cases hn
  have hsCn : ∀ n, s ≠ c ++ [n] := by
    intro n e
    rw [e, hsnap.empty n] at hn
    cases hn
  have hcur_s : cur.nodeAt s = some (Node.file d) := by
    rw [hsnap.same s hsC hsCn, hn]
  have hopen : Open cur f = some s := by
    unfold Open
    rw [hres]
    simp [hcur_s]
  have hdest : Join [render c, Base f] = render (c ++ [Base f]) :=
    Join_render c [Base f] hc (by
      intro n hn'
      rcases List.mem_append.mp hn' with h | h
      · exact hv n h
      · rw [List.mem_singleton] at h
        rw [h]
        exact hvb)
  have hne : c ++ [Base f] ≠ [] := by simp
  have hresd : resolve cur (render (c ++ [Base f])) = some (c ++ [Base f]) := by
    apply resolve_render cur _ hne
    · intro n hn'
      rcases List.mem_append.mp hn' with h | h
      · exact hv n h
      · rw [List.mem_singleton] at h
        rw [h]
        exact hvb
    · intro k hk
      simp only [List.length_append, List.length_singleton] at hk
      by_cases hk2 : k < c.length
      · rw [List.take_append_of_le_length (by omega)]
        exact hsnap.mono _ (hd k hk2)
      · have hk3 : k = c.length := by omega
        rw [hk3, List.take_left]
        simp [FS.isDir, hsnap.dirC]
  have hcreate : Create cur (render (c ++ [Base f])) =
      some (cur.set (c ++ [Base f]) (Node.file []), c ++ [Base f]) := by
    unfold Create
    rw [hresd]
    simp [hsnap.entries (Base f)]
  have hcopy : Copy (cur.set (c ++ [Base f]) (Node.file [])) (c ++ [Base f]) s =
      some (cur.set (c ++ [Base f]) (Node.file d)) := by
    unfold Copy
    rw [nodeAt_set cur _ _ s hne, nodeAt_set cur _ _ (c ++ [Base f]) hne]
    simp only [hsCn (Base f), if_false, if_true, hcur_s]
    rw [set_set]
    simp
  constructor
  · unfold copyFileToCommit copyFile
    rw [hdest, hopen]
    simp only [hcreate, hcopy]
  · have hneC : c ≠ c ++ [Base f] := by
      intro e
      have := congrArg List.length e
      simp at this
    refine ⟨hsnap.cwd, hsnap.absent, hsnap.empty, ?_, ?_, ?_⟩
    · rw [nodeAt_set cur _ _ c hne]
      simp only [hneC, if_false]
      exact hsnap.dirC
    · intro k hk1 hk2
      rw [nodeAt_set cur _ _ k hne]
      simp only [hk2 (Base f), if_false]
      exact hsnap.same k hk1 hk2
    · intro n
      unfold FS.isDir
      rw [nodeAt_set cur _ _ _ hne]
      by_cases e : c ++ [n] = c ++ [Base f]
      · simp [e]
      · simp only [e, if_false]
        have := hsnap.entries n
        unfold FS.isDir at this
        exact this

theorem copy_loop (fs : FS) (c : Loc) (hc : c ≠ []) (hv : ∀ n ∈ c, ValidName n)
    (hd : ∀ k, k < c.length → fs.isDir (c.take k) = true) :
    ∀ (files : List Bytes) (cur : FS), Snap fs cur c →
      (∀ f ∈ files, f ≠ [] → (ReadFile fs f).isSome = true) →
      forFiles (fun a file => copyFileToCommit a file (render c)) cur files =
          Step.ok (snapshot fs c files cur) ∧
        Snap fs (snapshot fs c files cur) c := by
  intro files
  induction files with
  | nil => intro cur hs _; exact ⟨rfl, hs⟩
  | cons f rest ih =>
    intro cur hs hread
    have hrest : ∀ g ∈ rest, g ≠ [] → (ReadFile fs g).isSome = true :=
      fun g hg => hread g (List.mem_cons_of_mem _ hg)
    by_cases hf : f = []
    · have := ih cur hs hrest
      simpa [forFiles, snapshot, hf] using this
    · have hsome := hread f (List.mem_cons_self _ _) hf
      obtain ⟨d, hd'⟩ := Option.isSome_iff_exists.mp hsome
      obtain ⟨s, hr, hn⟩ := ReadFile_eq_some fs f d hd'
      obtain ⟨hstep, hsnap'⟩ := copy_step fs cur c f s d hs hc hv hd hr hn
      have := ih _ hsnap' hrest
      rw [forFiles]
      simp only [hf, if_false, hstep]
      simpa [snapshot, hf, hd'] using this

theorem snapshot_nodeAt (fs : FS) (c : Loc) : ∀ (files : List Bytes) (cur : FS) (k : Loc),
    (snapshot fs c files cur).nodeAt k =
      match files.reverse.find? (fun f => decide (f ≠ [] ∧ c ++ [Base f] = k)) with
      | some f => some (Node.file ((ReadFile fs f).getD []))
      | none => cur.nodeAt k := by
  intro files
  induction files with
  | nil => intro cur k; rfl
  | cons f rest ih =>
    intro cur k
    have hunf : snapshot fs c (f :: rest) cur =
        snapshot fs c rest
          (if f = [] then cur
            else cur.set (c ++ [Base f]) (Node.file ((ReadFile fs f).getD []))) := rfl
    rw [hunf, ih, List.reverse_cons, List.find?_append]
    cases hfind : rest.reverse.find? (fun f => decide (f ≠ [] ∧ c ++ [Base f] = k)) with
    | some g => simp
    | none =>
      simp only [Option.none_or, List.find?_cons, List.find?_nil]
      by_cases hf : f = []
      · simp [hf]
      · by_cases hk : c ++ [Base f] = k
        · subst hk
          simp [hf, nodeAt_set]
        · have hk' : ¬ k = c ++ [Base f] := fun e => hk e.symm
          simp [hf, hk, nodeAt_set, hk']

/-! ### The paths of the repository -/

theorem take_append_add {α : Type} (a b : List α) (j : Nat) :
    (a ++ b).take (a.length + j) = a ++ b.take j := by
  rw [List.take_append_eq_append_take]
  simp

theorem repo_dirs (fs : FS) (names : List Bytes) (hrepo : Repo fs)
    (hn : ∀ j, 1 ≤ j → j < names.length → fs.isDir (fs.cwd ++ names.take j) = true) :
    ∀ k, k < (fs.cwd ++ names).length → fs.isDir ((fs.cwd ++ names).take k) = true := by
  intro k hk
  by_cases h1 : k ≤ fs.cwd.length
  · rw [List.take_append_of_le_length h1]
    exact hrepo.2.1 k h1
  · obtain ⟨j, rfl⟩ : ∃ j, k = fs.cwd.length + j := ⟨k - fs.cwd.length, by omega⟩
    rw [take_append_add]
    apply hn j (by omega)
    simp only [List.length_append] at hk
    omega

theorem vcsLoc_dirs (fs : FS) (name : Bytes) (hrepo : Repo fs) :
    ∀ k, k < (vcsLoc fs name).length → fs.isDir ((vcsLoc fs name).take k) = true := by
  apply repo_dirs fs _ hrepo
  intro j h1 h2
  have hj : j = 1 := by simp at h2; omega
  subst hj
  exact hrepo.2.2.1

theorem commitLoc_dirs (fs : FS) (id : Bytes) (hrepo : Repo fs) :
    ∀ k, k < (commitLoc fs id).length → fs.isDir ((commitLoc fs id).take k) = true := by
  apply repo_dirs fs _ hrepo
  intro j h1 h2
  have hj : j = 1 ∨ j = 2 := by simp at h2; omega
  rcases hj with hj | hj
  · subst hj
    exact hrepo.2.2.1
  · subst hj
    exact hrepo.2.2.2

theorem vcsLoc_valid (fs : FS) (name : Bytes) (hrepo : Repo fs) (hname : ValidName name) :
    ∀ n ∈ vcsLoc fs name, ValidName n := by
  intro n hn
  unfold vcsLoc at hn
  rcases List.mem_append.mp hn with h | h
  · exact hrepo.1 n h
  · simp only [List.mem_cons, List.mem_singleton, List.not_mem_nil, or_false] at h
    rcases h with h | h
    · rw [h]; decide
    · rw [h]; exact hname

theorem commitLoc_valid (fs : FS) (id : Bytes) (hrepo : Repo fs) (hid : ValidName id) :
    ∀ n ∈ commitLoc fs id, ValidName n := by
  intro n hn
  unfold commitLoc at hn
  rcases List.mem_append.mp hn with h | h
  · exact hrepo.1 n h
  · simp only [List.mem_cons, List.mem_singleton, List.not_mem_nil, or_false] at h
    rcases h with h | h | h
    · rw [h]; decide
    · rw [h]; decide
    · rw [h]; exact hid

theorem vcsLoc_ne_nil (fs : FS) (name : Bytes) : vcsLoc fs name ≠ [] := by
  simp [vcsLoc]

theorem commitLoc_ne_nil (fs : FS) (id : Bytes) : commitLoc fs id ≠ [] := by
  simp [commitLoc]

theorem vcsDir_ne_nil (fs : FS) : fs.cwd ++ [str "vcs"] ≠ [] := by simp

theorem vcs_path (fs : FS) (name : Bytes) (hrepo : Repo fs) (hname : ValidName name) :
    Join [vcsDirOf fs, name] = render (vcsLoc fs name) := by
  rw [vcsDirOf_eq fs hrepo.1]
  have := Join_render (fs.cwd ++ [str "vcs"]) [name] (vcsDir_ne_nil fs) (by
    have hv := vcsLoc_valid fs name hrepo hname
    intro n hn
    apply hv
    simpa [vcsLoc] using hn)
  simpa [vcsLoc] using this

theorem commit_path (fs : FS) (id : Bytes) (hrepo : Repo fs) (hid : ValidName id) :
    Join [vcsDirOf fs, str "commits", id] = render (commitLoc fs id) := by
  rw [vcsDirOf_eq fs hrepo.1]
  have := Join_render (fs.cwd ++ [str "vcs"]) [str "commits", id] (vcsDir_ne_nil fs) (by
    have hv := commitLoc_valid fs id hrepo hid
    intro n hn
    apply hv
    simpa [commitLoc] using hn)
  simpa [commitLoc] using this

theorem resolve_vcsLoc (fs cur : FS) (name : Bytes) (hrepo : Repo fs) (hname : ValidName name)
    (hmono : ∀ k, fs.isDir k = true → cur.isDir k = true) :
    resolve cur (render (vcsLoc fs name)) = some (vcsLoc fs name) :=
  resolve_render cur _ (vcsLoc_ne_nil fs name) (vcsLoc_valid fs name hrepo hname)
    (fun k hk => hmono _ (vcsLoc_dirs fs name hrepo k hk))

theorem resolve_commitLoc (fs cur : FS) (id : Bytes) (hrepo : Repo fs) (hid : ValidName id)
    (hmono : ∀ k, fs.isDir k = true → cur.isDir k = true) :
    resolve cur (render (commitLoc fs id)) = some (commitLoc fs id) :=
  resolve_render cur _ (commitLoc_ne_nil fs id) (commitLoc_valid fs id hrepo hid)
    (fun k hk => hmono _ (commitLoc_dirs fs id hrepo k hk))

/-! ### commitChanges when every tracked path is readable -/

theorem hasChanges_of_readable (fs : FS) (files : List Bytes)
    (hread : ∀ f ∈ files, f ≠ [] → (ReadFile fs f).isSome = true)
    (hsome : ∃ f ∈ files, f ≠ []) : (generateCommitID fs files).2 = true := by
  rw [generateCommitID_snd, List.any_eq_true]
  obtain ⟨f, hf, hne⟩ := hsome
  exact ⟨f, hf, by simp [hne, hread f hf hne]⟩

theorem index_ne_nil (idx : Bytes) (hsome : ∃ f ∈ Split idx (str "\n"), f ≠ []) : idx ≠ [] := by
  intro e
  subst e
  obtain ⟨f, hf, hne⟩ := hsome
  simp [Split, splitGo] at hf
  exact hne hf

theorem commit_creates (fs : FS) (message author idx : Bytes)
    (hrepo : Repo fs) (hclosed : fs.Closed)
    (hauthor : ReadFile fs (Join [vcsDirOf fs, str "config.txt"]) = some author)
    (hindex : ReadFile fs (Join [vcsDirOf fs, str "index.txt"]) = some idx)
    (hread : ∀ f ∈ Split idx (str "\n"), f ≠ [] → (ReadFile fs f).isSome = true)
    (hsome : ∃ f ∈ Split idx (str "\n"), f ≠ [])
    (hnew : fs.nodeAt (commitLoc fs (generateCommitID fs (Split idx (str "\n"))).1) = none) :
    commitChanges fs (vcsDirOf fs) message =
      match appendFile
          (snapshot fs (commitLoc fs (generateCommitID fs (Split idx (str "\n"))).1)
            (Split idx (str "\n"))
            (fs.set (commitLoc fs (generateCommitID fs (Split idx (str "\n"))).1) Node.dir))
          (Join [vcsDirOf fs, str "log.txt"])
          (logEntry (generateCommitID fs (Split idx (str "\n"))).1 (TrimSpace author) message) with
      | none =>
        ⟨snapshot fs (commitLoc fs (generateCommitID fs (Split idx (str "\n"))).1)
            (Split idx (str "\n"))
            (fs.set (commitLoc fs (generateCommitID fs (Split idx (str "\n"))).1) Node.dir),
          [], true⟩
      | some fs3 => ⟨fs3, println (str "Changes are committed."), false⟩ := by
  have hvalid := validName_commitID fs (Split idx (str "\n"))
  have hsnd := hasChanges_of_readable fs _ hread hsome
  generalize hID : (generateCommitID fs (Split idx (str "\n"))).1 = ID at hvalid hnew ⊢
  have hpair : generateCommitID fs (Split idx (str "\n")) = (ID, true) :=
    Prod.ext hID hsnd
  have hlen : ¬ idx.length = 0 := by
    intro e
    exact index_ne_nil idx hsome (List.length_eq_zero.mp e)
  have hpath := commit_path fs ID hrepo hvalid
  have hres := resolve_commitLoc fs fs ID hrepo hvalid (fun _ h => h)
  have hstat : Stat fs (render (commitLoc fs ID)) = false := by
    unfold Stat lookup
    rw [hres]
    simp [hnew]
  have hmk : Mkdir fs (render (commitLoc fs ID)) = some (fs.set (commitLoc fs ID) Node.dir) := by
    unfold Mkdir
    rw [hres]
    simp [hnew]
  have hloop := (copy_loop fs (commitLoc fs ID) (commitLoc_ne_nil fs ID)
    (commitLoc_valid fs ID hrepo hvalid) (commitLoc_dirs fs ID hrepo)
    (Split idx (str "\n")) (fs.set (commitLoc fs ID) Node.dir)
    (Snap.start fs _ (commitLoc_ne_nil fs ID) hnew hclosed) hread).1
  unfold commitChanges
  simp only [hauthor, hindex, hlen, if_false, hpair, hpath, hstat, hmk, hloop]
  simp only [Bool.true_eq_false, if_false, Bool.false_eq_true]

theorem appendFile_cases (fs : FS) (path text : Bytes) (l : Loc)
    (hres : resolve fs path = some l) :
    appendFile fs path text = none ∨
      (fs.isDir l = false ∧ ∃ d, appendFile fs path text = some (fs.set l (Node.file d))) := by
  unfold appendFile
  rw [hres]
  cases hn : fs.nodeAt l with
  | none =>
    right
    exact ⟨isDir_false_of_none fs l hn, text, by simp [hn]⟩
  | some n =>
    cases n with
    | file old =>
      right
      exact ⟨isDir_false_of_file fs l old hn, old ++ text, by simp [hn]⟩
    | dir =>
      left
      simp [hn]

theorem snapshotEntry_eq (fs : FS) (c : Loc) (idx : Bytes) (n : Bytes) :
    (match (Split idx (str "\n")).reverse.find?
        (fun f => decide (f ≠ [] ∧ c ++ [Base f] = c ++ [n])) with
      | some f => some (Node.file ((ReadFile fs f).getD []))
      | none => none) = snapshotEntry fs (trackedList idx) n := by
  unfold snapshotEntry trackedList
  rw [← List.filter_reverse, List.find?_filter]
  have hp : (fun f => decide (f ≠ [] ∧ c ++ [Base f] = c ++ [n])) =
      (fun a => decide (decide (a ≠ []) = true ∧ decide (a ≠ [] ∧ Base a = n) = true)) := by
    funext f
    by_cases h1 : f = [] <;> simp [h1]
  rw [hp]
  cases (Split idx (str "\n")).reverse.find?
      (fun a => decide (decide (a ≠ []) = true ∧ decide (a ≠ [] ∧ Base a = n) = true)) <;> rfl

theorem snapshot_closed (fs : FS) (c : Loc) (hc : c ≠ []) (hv : ∀ n ∈ c, ValidName n)
    (hd : ∀ k, k < c.length → fs.isDir (c.take k) = true) :
    ∀ (files : List Bytes) (cur : FS), Snap fs cur c → cur.Closed →
      (∀ f ∈ files, f ≠ [] → (ReadFile fs f).isSome = true) →
      (snapshot fs c files cur).Closed := by
  intro files
  induction files with
  | nil => intro cur _ hcl _; exact hcl
  | cons f rest ih =>
    intro cur hs hcl hread
    have hrest : ∀ g ∈ rest, g ≠ [] → (ReadFile fs g).isSome = true :=
      fun g hg => hread g (List.mem_cons_of_mem _ hg)
    by_cases hf : f = []
    · have := ih cur hs hcl hrest
      simpa [snapshot, hf] using this
    · have hsome := hread f (List.mem_cons_self _ _) hf
      obtain ⟨d, hd'⟩ := Option.isSome_iff_exists.mp hsome
      obtain ⟨s, hr, hn⟩ := ReadFile_eq_some fs f d hd'
      obtain ⟨_, hsnap'⟩ := copy_step fs cur c f s d hs hc hv hd hr hn
      have hcl' : (cur.set (c ++ [Base f]) (Node.file d)).Closed := by
        apply closed_set cur _ _ hcl (by simp)
        · rw [List.dropLast_concat]
          simp [FS.isDir, hs.dirC]
        · right
          exact hs.entries (Base f)
      have := ih _ hsnap' hcl' hrest
      simpa [snapshot, hf, hd'] using this

theorem vcsLoc_ne_commitLoc (fs : FS) (name id : Bytes) : vcsLoc fs name ≠ commitLoc fs id := by
  intro e
  have := congrArg List.length e
  simp [vcsLoc, commitLoc] at this

theorem vcsLoc_ne_entry (fs : FS) (name id n : Bytes) :
    vcsLoc fs name ≠ commitLoc fs id ++ [n] := by
  intro e
  have := congrArg List.length e
  simp [vcsLoc, commitLoc] at this

theorem commitLoc_ne_entry (c : Loc) (n : Bytes) : c ≠ c ++ [n] := by
  intro e
  have := congrArg List.length e
  simp at this

theorem commit_result (fs : FS) (message author idx : Bytes)
    (hrepo : Repo fs) (hclosed : fs.Closed)
    (hauthor : ReadFile fs (Join [vcsDirOf fs, str "config.txt"]) = some author)
    (hindex : ReadFile fs (Join [vcsDirOf fs, str "index.txt"]) = some idx)
    (hread : ∀ f ∈ Split idx (str "\n"), f ≠ [] → (ReadFile fs f).isSome = true)
    (hsome : ∃ f ∈ Split idx (str "\n"), f ≠ [])
    (hnew : fs.nodeAt (commitLoc fs (generateCommitID fs (Split idx (str "\n"))).1) = none) :
    Committed fs (commitChanges fs (vcsDirOf fs) message) idx
      (commitLoc fs (generateCommitID fs (Split idx (str "\n"))).1)
      (vcsLoc fs (str "log.txt")) := by
  have hvalid := validName_commitID fs (Split idx (str "\n"))
  have hrun := commit_creates fs message author idx hrepo hclosed hauthor hindex hread hsome hnew
  generalize (generateCommitID fs (Split idx (str "\n"))).1 = ID at hvalid hnew hrun ⊢
  have hstart := Snap.start fs _ (commitLoc_ne_nil fs ID) hnew hclosed
  obtain ⟨_, hsnap⟩ := copy_loop fs (commitLoc fs ID) (commitLoc_ne_nil fs ID)
    (commitLoc_valid fs ID hrepo hvalid) (commitLoc_dirs fs ID hrepo)
    (Split idx (str "\n")) (fs.set (commitLoc fs ID) Node.dir) hstart hread
  have hcl0 : (fs.set (commitLoc fs ID) Node.dir).Closed := by
    apply closed_set fs _ _ hclosed (commitLoc_ne_nil fs ID) _ (Or.inl rfl)
    have : (commitLoc fs ID).dropLast = fs.cwd ++ [str "vcs", str "commits"] := by
      have e : commitLoc fs ID = (fs.cwd ++ [str "vcs", str "commits"]) ++ [ID] := by
        simp [commitLoc]
      rw [e, List.dropLast_concat]
    rw [this]
    exact hrepo.2.2.2
  have hcl2 := snapshot_closed fs (commitLoc fs ID) (commitLoc_ne_nil fs ID)
    (commitLoc_valid fs ID hrepo hvalid) (commitLoc_dirs fs ID hrepo)
    (Split idx (str "\n")) (fs.set (commitLoc fs ID) Node.dir) hstart hcl0 hread
  have hentries2 : ∀ n, (snapshot fs (commitLoc fs ID) (Split idx (str "\n"))
      (fs.set (commitLoc fs ID) Node.dir)).nodeAt (commitLoc fs ID ++ [n]) =
      snapshotEntry fs (trackedList idx) n := by
    intro n
    rw [snapshot_nodeAt, ← snapshotEntry_eq fs (commitLoc fs ID) idx n]
    generalize (Split idx (str "\n")).reverse.find?
      (fun f => decide (f ≠ [] ∧ commitLoc fs ID ++ [Base f] = commitLoc fs ID ++ [n])) = o
    cases o with
    | some f => rfl
    | none =>
      simp only []
      rw [nodeAt_set fs _ _ _ (commitLoc_ne_nil fs ID)]
      simp only [(commitLoc_ne_entry (commitLoc fs ID) n).symm, if_false]
      exact hstart.empty n
  generalize snapshot fs (commitLoc fs ID) (Split idx (str "\n"))
    (fs.set (commitLoc fs ID) Node.dir) = fs2 at hrun hsnap hcl2 hentries2
  have hlogpath := vcs_path fs (str "log.txt") hrepo (by decide)
  have hlogres := resolve_vcsLoc fs fs2 (str "log.txt") hrepo (by decide) hsnap.mono
  rw [hlogpath] at hrun
  rcases appendFile_cases fs2 (render (vcsLoc fs (str "log.txt")))
    (logEntry ID (TrimSpace author) message) _ hlogres with happ | ⟨hnd, d, happ⟩
  · rw [happ] at hrun
    simp only [] at hrun
    rw [hrun]
    refine ⟨hsnap.cwd, hsnap.mono, hsnap.dirC, hentries2, ?_, hcl2⟩
    intro k h1 h2 _
    exact hsnap.same k h1 h2
  · rw [happ] at hrun
    simp only [] at hrun
    rw [hrun]
    have hL := vcsLoc_ne_nil fs (str "log.txt")
    have hnode : ∀ k, k ≠ vcsLoc fs (str "log.txt") →
        (fs2.set (vcsLoc fs (str "log.txt")) (Node.file d)).nodeAt k = fs2.nodeAt k := by
      intro k hk
      rw [nodeAt_set fs2 _ _ k hL]
      simp [hk]
    refine ⟨hsnap.cwd, ?_, ?_, ?_, ?_, ?_⟩
    · intro k hk
      rw [isDir_set_nondir fs2 _ d hnd k]
      exact hsnap.mono k hk
    · rw [hnode _ (vcsLoc_ne_commitLoc fs _ ID).symm]
      exact hsnap.dirC
    · intro n
      rw [hnode _ (vcsLoc_ne_entry fs _ ID n).symm]
      exact hentries2 n
    · intro k h1 h2 h3
      rw [hnode k h3]
      exact hsnap.same k h1 h2
    · apply closed_set fs2 _ _ hcl2 hL _ (Or.inr hnd)
      have : (vcsLoc fs (str "log.txt")).dropLast = fs.cwd ++ [str "vcs"] := by
        have e : vcsLoc fs (str "log.txt") = (fs.cwd ++ [str "vcs"]) ++ [str "log.txt"] := by
          simp [vcsLoc]
        rw [e, List.dropLast_concat]
      rw [this]
      exact hsnap.mono _ hrepo.2.2.1

/-! ### commitChanges: the snapshot -/

theorem closed_ofList (cwd : Loc) (table : List (Loc × Node))
    (h : ∀ e ∈ table, (FS.ofList cwd table).isDir e.1.dropLast = true) :
    (FS.ofList cwd table).Closed := by
  intro l c hne
  have hnode : (FS.ofList cwd table).nodeAt (l ++ [c]) =
      (table.find? fun e => decide (e.1 = l ++ [c])).map Prod.snd := by
    simp [FS.nodeAt, FS.ofList]
  rw [hnode] at hne
  cases hfind : table.find? (fun e => decide (e.1 = l ++ [c])) with
  | none => simp [hfind] at hne
  | some e =>
    have hmem := List.mem_of_find?_eq_some hfind
    have he := List.find?_some hfind
    simp only [decide_eq_true_eq] at he
    have := h e hmem
    rw [he, List.dropLast_concat] at this
    exact this

theorem nodeAt_none_of_stat (fs : FS) (path : Bytes) (l : Loc) (hres : resolve fs path = some l)
    (hstat : Stat fs path = false) : fs.nodeAt l = none := by
  unfold Stat lookup at hstat
  rw [hres] at hstat
  cases hn : fs.nodeAt l with
  | none => rfl
  | some n => simp [hn] at hstat

theorem mem_trackedList (idx f : Bytes) :
    f ∈ trackedList idx ↔ f ∈ Split idx (str "\n") ∧ f ≠ [] := by
  simp [trackedList]

theorem entries_none (fs : FS) (c : Loc) (hclosed : fs.Closed) (h : fs.nodeAt c = none) :
    ∀ n, fs.nodeAt (c ++ [n]) = none := by
  intro n
  by_contra hne
  have := hclosed c n hne
  rw [isDir_false_of_none fs c h] at this
  cases this

theorem read_preserved (fs : FS) (r : Result) (idx : Bytes) (c l : Loc)
    (hcom : Committed fs r idx c l) (hclosed : fs.Closed) (habs : fs.nodeAt c = none)
    (f : Bytes) (s : Loc) (d : Bytes) (hres : resolve fs f = some s)
    (hnode : fs.nodeAt s = some (Node.file d)) (hsl : s ≠ l) :
    ReadFile r.fs f = some d := by
  have hres' := resolve_mono fs r.fs hcom.mono hcom.cwd f s hres
  have h1 : s ≠ c := by
    intro e
    rw [e, habs] at hnode
    cases hnode
  have h2 : ∀ n, s ≠ c ++ [n] := by
    intro n e
    rw [e, entries_none fs c hclosed habs n] at hnode
    cases hnode
  unfold ReadFile lookup
  rw [hres']
  simp only [hcom.same s h1 h2 hsl, hnode]

theorem vcsLoc_inj (fs : FS) (a b : Bytes) (h : vcsLoc fs a = vcsLoc fs b) : a = b := by
  simpa [vcsLoc] using h

theorem read_vcs_file (fs : FS) (name d : Bytes) (hrepo : Repo fs) (hname : ValidName name)
    (h : ReadFile fs (Join [vcsDirOf fs, name]) = some d) :
    resolve fs (Join [vcsDirOf fs, name]) = some (vcsLoc fs name) ∧
      fs.nodeAt (vcsLoc fs name) = some (Node.file d) := by
  rw [vcs_path fs name hrepo hname] at h ⊢
  have hres := resolve_vcsLoc fs fs name hrepo hname (fun _ h => h)
  obtain ⟨s, hs, hn⟩ := ReadFile_eq_some fs _ d h
  rw [hres] at hs
  cases hs
  exact ⟨hres, hn⟩

set_option maxRecDepth 100000 in
/-- C2 (counterexample): an author is configured, the only tracked path
`vcs/log.txt` is readable and nothing exists for the computed identifier;
the commit succeeds and the tracked file does not keep its content. -/
theorem C2_commit_changes_a_tracked_log :
    ReadFile exLogTrackedFS (Join [vcsDirOf exLogTrackedFS, str "config.txt"]) =
      some (str "Alice") ∧
    (ReadFile exLogTrackedFS (Join [vcsDirOf exLogTrackedFS, str "index.txt"])).map trackedList =
      some [str "vcs/log.txt"] ∧
    ReadFile exLogTrackedFS (str "vcs/log.txt") =
      some (str "commit 0\nAuthor: Alice\nzero\n\n") ∧
    Stat exLogTrackedFS (Join [vcsDirOf exLogTrackedFS, str "commits",
      (generateCommitID exLogTrackedFS [str "vcs/log.txt"]).1]) = false ∧
    (commitChanges exLogTrackedFS (vcsDirOf exLogTrackedFS) (str "one")).out =
      println (str "Changes are committed.") ∧
    ReadFile (commitChanges exLogTrackedFS (vcsDirOf exLogTrackedFS) (str "one")).fs
        (str "vcs/log.txt") ≠
      ReadFile exLogTrackedFS (str "vcs/log.txt") := by
  decide

/-- C2 (amended): in a state where an author is configured, at least one
path is tracked, every tracked path is readable and nothing exists for the
computed identifier, `commitChanges` creates the directory
`vcs/commits/<id>`; its entries are exactly the base names of the tracked
paths, each holding the content the tracked file has at that time (of two
tracked paths with the same base name, the later one is stored); every
tracked file other than the history log `vcs/log.txt` keeps its content, and
the tracked list is unchanged. -/
theorem C2_commit_stores_the_tracked_files (fs : FS) (message author idx : Bytes)
    (hrepo : Repo fs) (hclosed : fs.Closed)
    (hauthor : ReadFile fs (Join [vcsDirOf fs, str "config.txt"]) = some author)
    (hindex : ReadFile fs (Join [vcsDirOf fs, str "index.txt"]) = some idx)
    (hsome : trackedList idx ≠ [])
    (hread : ∀ f ∈ trackedList idx, (ReadFile fs f).isSome = true)
    (hnew : Stat fs (Join [vcsDirOf fs, str "commits",
      (generateCommitID fs (Split idx (str "\n"))).1]) = false) :
    (commitChanges fs (vcsDirOf fs) message).fs.nodeAt
        (commitLoc fs (generateCommitID fs (Split idx (str "\n"))).1) = some Node.dir ∧
    (∀ n, (commitChanges fs (vcsDirOf fs) message).fs.nodeAt
        (commitLoc fs (generateCommitID fs (Split idx (str "\n"))).1 ++ [n]) =
      snapshotEntry fs (trackedList idx) n) ∧
    (∀ f ∈ trackedList idx, resolve fs f ≠ some (vcsLoc fs (str "log.txt")) →
      ReadFile (commitChanges fs (vcsDirOf fs) message).fs f = ReadFile fs f) ∧
    ReadFile (commitChanges fs (vcsDirOf fs) message).fs (Join [vcsDirOf fs, str "index.txt"]) =
      some idx := by
  have hvalid := validName_commitID fs (Split idx (str "\n"))
  have hread' : ∀ f ∈ Split idx (str "\n"), f ≠ [] → (ReadFile fs f).isSome = true :=
    fun f hf hne => hread f ((mem_trackedList idx f).mpr ⟨hf, hne⟩)
  have hsome' : ∃ f ∈ Split idx (str "\n"), f ≠ [] := by
    obtain ⟨f, rest, hf⟩ := List.exists_cons_of_ne_nil hsome
    have : f ∈ trackedList idx := by rw [hf]; exact List.mem_cons_self _ _
    exact ⟨f, ((mem_trackedList idx f).mp this).1, ((mem_trackedList idx f).mp this).2⟩
  have habs : fs.nodeAt (commitLoc fs (generateCommitID fs (Split idx (str "\n"))).1) = none := by
    rw [commit_path fs _ hrepo hvalid] at hnew
    exact nodeAt_none_of_stat fs _ _ (resolve_commitLoc fs fs _ hrepo hvalid (fun _ h => h)) hnew
  have hcom := commit_result fs message author idx hrepo hclosed hauthor hindex hread' hsome' habs
  refine ⟨hcom.dirC, hcom.entries, ?_, ?_⟩
  · intro f hf hlog
    obtain ⟨d, hd⟩ := Option.isSome_iff_exists.mp (hread f hf)
    obtain ⟨s, hs, hn⟩ := ReadFile_eq_some fs f d hd
    rw [hd]
    apply read_preserved fs _ idx _ _ hcom hclosed habs f s d hs hn
    intro e
    rw [e] at hs
    exact hlog hs
  · obtain ⟨hres, hn⟩ := read_vcs_file fs (str "index.txt") idx hrepo (by decide) hindex
    apply read_preserved fs _ idx _ _ hcom hclosed habs _ _ idx hres hn
    intro e
    have := vcsLoc_inj fs _ _ e
    exact absurd this (by decide)

set_option maxRecDepth 100000 in
/-- C2 (witness): the commit of the example state, where Alice tracks
`a.txt` holding "A", stores `a.txt` with the content "A" in the snapshot
directory and leaves `a.txt` as it is. -/
theorem C2_commit_stores_the_tracked_files_witness :
    (commitChanges exCommitFS (vcsDirOf exCommitFS) (str "first")).fs.nodeAt
        (commitLoc exCommitFS exCommitID ++ [str "a.txt"]) = some (Node.file (str "A")) ∧
    ReadFile (commitChanges exCommitFS (vcsDirOf exCommitFS) (str "first")).fs (str "a.txt") =
      some (str "A") := by
  have h := C2_commit_stores_the_tracked_files exCommitFS (str "first") (str "Alice")
    (str "a.txt\n") (by decide) (closed_ofList _ _ (by decide)) (by decide) (by decide)
    (by decide) (by decide) (by decide)
  refine ⟨?_, ?_⟩
  · have h2 := h.2.1 (str "a.txt")
    have e : snapshotEntry exCommitFS (trackedList (str "a.txt\n")) (str "a.txt") =
        some (Node.file (str "A")) := by decide
    rw [e] at h2
    exact h2
  · have h3 := h.2.2.1 (str "a.txt") (by decide) (by decide)
    rw [h3]
    decide

/-! ### commitChanges: committing twice -/

theorem commit_cases (fs : FS) (vcsDir message : Bytes) :
    ((commitChanges fs vcsDir message).fs = fs ∧ (commitChanges fs vcsDir message).fatal = false ∧
        (commitChanges fs vcsDir message).out ≠ println (str "Changes are committed.")) ∨
    ∃ author idx, ReadFile fs (Join [vcsDir, str "config.txt"]) = some author ∧
      ReadFile fs (Join [vcsDir, str "index.txt"]) = some idx ∧
      (generateCommitID fs (Split idx (str "\n"))).2 = true ∧
      Stat fs (Join [vcsDir, str "commits",
        (generateCommitID fs (Split idx (str "\n"))).1]) = false := by
  have h1 : println (str "Please, set a username first with the 'config' command.") ≠
      println (str "Changes are committed.") := by decide
  have h2 : println (str "No files are tracked.") ≠ println (str "Changes are committed.") := by
    decide
  have h3 : println (str "Nothing to commit.") ≠ println (str "Changes are committed.") := by
    decide
  cases ha : ReadFile fs (Join [vcsDir, str "config.txt"]) with
  | none =>
    left
    simp [commitChanges, ha, h1]
  | some author =>
    cases hi : ReadFile fs (Join [vcsDir, str "index.txt"]) with
    | none =>
      left
      simp [commitChanges, ha, hi, h2]
    | some idx =>
      by_cases hne : idx = []
      · left
        simp [commitChanges, ha, hi, hne, h2]
      · cases hc : (generateCommitID fs (Split idx (str "\n"))).2 with
        | false =>
          left
          simp [commitChanges, ha, hi, hne, hc, h3]
        | true =>
          cases hs : Stat fs (Join [vcsDir, str "commits",
              (generateCommitID fs (Split idx (str "\n"))).1]) with
          | true =>
            left
            simp [commitChanges, ha, hi, hne, hc, hs, h3]
          | false =>
            right
            exact ⟨author, idx, rfl, rfl, hc, hs⟩

theorem some_of_hasChanges (fs : FS) (files : List Bytes)
    (h : (generateCommitID fs files).2 = true) : ∃ f ∈ files, f ≠ [] := by
  rw [generateCommitID_snd, List.any_eq_true] at h
  obtain ⟨f, hf, hp⟩ := h
  simp only [Bool.and_eq_true, decide_eq_true_eq] at hp
  exact ⟨f, hf, hp.1⟩

theorem hashInput_congr (a b : FS) (files : List Bytes)
    (h : ∀ f ∈ files, f ≠ [] → ReadFile a f = ReadFile b f) :
    hashInput a files = hashInput b files := by
  induction files with
  | nil => rfl
  | cons f rest ih =>
    rw [hashInput_cons, hashInput_cons, ih (fun g hg => h g (List.mem_cons_of_mem _ hg))]
    by_cases hf : f = []
    · simp [hf]
    · simp only [hf, if_false]
      rw [h f (List.mem_cons_self _ _) hf]

theorem generateCommitID_congr (a b : FS) (files : List Bytes)
    (h : ∀ f ∈ files, f ≠ [] → ReadFile a f = ReadFile b f) :
    generateCommitID a files = generateCommitID b files := by
  apply Prod.ext
  · rw [generateCommitID_fst, generateCommitID_fst, hashInput_congr a b files h]
  · rw [generateCommitID_snd, generateCommitID_snd]
    induction files with
    | nil => rfl
    | cons f rest ih =>
      rw [List.any_cons, List.any_cons, ih (fun g hg => h g (List.mem_cons_of_mem _ hg))]
      by_cases hne : f = []
      · simp [hne]
      · rw [h f (List.mem_cons_self _ _) hne]

theorem habs_of_stat (fs : FS) (hrepo : Repo fs) (id : Bytes) (hid : ValidName id)
    (hs : Stat fs (Join [vcsDirOf fs, str "commits", id]) = false) :
    fs.nodeAt (commitLoc fs id) = none := by
  rw [commit_path fs _ hrepo hid] at hs
  exact nodeAt_none_of_stat fs _ _ (resolve_commitLoc fs fs _ hrepo hid (fun _ h => h)) hs

set_option maxRecDepth 100000 in
/-- C4 (counterexample): with the history log itself tracked, a commit
succeeds, and the commit run again immediately afterwards does not print
"Nothing to commit.": it succeeds once more. -/
theorem C4_second_commit_with_tracked_log_succeeds :
    (commitChanges exLogTrackedFS (vcsDirOf exLogTrackedFS) (str "one")).out =
      println (str "Changes are committed.") ∧
    (commitChanges (commitChanges exLogTrackedFS (vcsDirOf exLogTrackedFS) (str "one")).fs
        (vcsDirOf exLogTrackedFS) (str "two")).out ≠ println (str "Nothing to commit.") ∧
    (commitChanges (commitChanges exLogTrackedFS (vcsDirOf exLogTrackedFS) (str "one")).fs
        (vcsDirOf exLogTrackedFS) (str "two")).out = println (str "Changes are committed.") := by
  decide

/-- C4 (amended): for every state in which every tracked path is readable,
none of them names the history log `vcs/log.txt`, and a commit succeeds
(prints "Changes are committed."), running commit again immediately, with
any message, prints "Nothing to commit." and leaves the whole filesystem
unchanged. -/
theorem C4_second_commit_is_a_no_op (fs : FS) (message message' idx : Bytes)
    (hrepo : Repo fs) (hclosed : fs.Closed)
    (hindex : ReadFile fs (Join [vcsDirOf fs, str "index.txt"]) = some idx)
    (hread : ∀ f ∈ trackedList idx, (ReadFile fs f).isSome = true ∧
      resolve fs f ≠ some (vcsLoc fs (str "log.txt")))
    (hsucc : (commitChanges fs (vcsDirOf fs) message).out =
      println (str "Changes are committed.")) :
    commitChanges (commitChanges fs (vcsDirOf fs) message).fs (vcsDirOf fs) message' =
      ⟨(commitChanges fs (vcsDirOf fs) message).fs, println (str "Nothing to commit."), false⟩ := by
  rcases commit_cases fs (vcsDirOf fs) message with h | ⟨author, idx', hauthor, hindex', hchg, hstat⟩
  · exact absurd hsucc h.2.2
  · rw [hindex] at hindex'
    cases hindex'
    have hvalid := validName_commitID fs (Split idx (str "\n"))
    have hread' : ∀ f ∈ Split idx (str "\n"), f ≠ [] → (ReadFile fs f).isSome = true :=
      fun f hf hne => (hread f ((mem_trackedList idx f).mpr ⟨hf, hne⟩)).1
    have hsome := some_of_hasChanges fs _ hchg
    have habs := habs_of_stat fs hrepo _ hvalid hstat
    have hcom := commit_result fs message author idx hrepo hclosed hauthor hindex hread' hsome habs
    have hkeep : ∀ f ∈ Split idx (str "\n"), f ≠ [] →
        ReadFile (commitChanges fs (vcsDirOf fs) message).fs f = ReadFile fs f := by
      intro f hf hne
      have hrf := hread f ((mem_trackedList idx f).mpr ⟨hf, hne⟩)
      obtain ⟨d, hd⟩ := Option.isSome_iff_exists.mp hrf.1
      obtain ⟨s, hs, hn⟩ := ReadFile_eq_some fs f d hd
      rw [hd]
      apply read_preserved fs _ idx _ _ hcom hclosed habs f s d hs hn
      intro e
      rw [e] at hs
      exact hrf.2 hs
    have hid := generateCommitID_congr _ fs (Split idx (str "\n")) hkeep
    have hconf : ReadFile (commitChanges fs (vcsDirOf fs) message).fs
        (Join [vcsDirOf fs, str "config.txt"]) = some author := by
      obtain ⟨hres, hn⟩ := read_vcs_file fs (str "config.txt") author hrepo (by decide) hauthor
      apply read_preserved fs _ idx _ _ hcom hclosed habs _ _ author hres hn
      intro e
      exact absurd (vcsLoc_inj fs _ _ e) (by decide)
    have hidx : ReadFile (commitChanges fs (vcsDirOf fs) message).fs
        (Join [vcsDirOf fs, str "index.txt"]) = some idx := by
      obtain ⟨hres, hn⟩ := read_vcs_file fs (str "index.txt") idx hrepo (by decide) hindex
      apply read_preserved fs _ idx _ _ hcom hclosed habs _ _ idx hres hn
      intro e
      exact absurd (vcsLoc_inj fs _ _ e) (by decide)
    have hstat2 : Stat (commitChanges fs (vcsDirOf fs) message).fs
        (Join [vcsDirOf fs, str "commits", (generateCommitID fs (Split idx (str "\n"))).1]) =
        true := by
      rw [commit_path fs _ hrepo hvalid]
      unfold Stat lookup
      rw [resolve_commitLoc fs _ _ hrepo hvalid hcom.mono]
      simp [hcom.dirC]
    have hlen : ¬ idx.length = 0 := by
      intro e
      exact index_ne_nil idx hsome (List.length_eq_zero.mp e)
    generalize commitChanges fs (vcsDirOf fs) message = r at *
    unfold commitChanges
    simp only [hconf, hidx, hlen, if_false, hid]
    have hpair : generateCommitID fs (Split idx (str "\n")) =
        ((generateCommitID fs (Split idx (str "\n"))).1, true) := Prod.ext rfl hchg
    generalize (generateCommitID fs (Split idx (str "\n"))).1 = ID at hpair hstat2
    simp only [hpair, hstat2, if_true]
    simp

set_option maxRecDepth 100000 in
/-- C4 (witness): in the example state the commit "first" succeeds, and the
commit run again immediately prints "Nothing to commit.". -/
theorem C4_second_commit_is_a_no_op_witness :
    (commitChanges (commitChanges exCommitFS (vcsDirOf exCommitFS) (str "first")).fs
      (vcsDirOf exCommitFS) (str "again")).out = println (str "Nothing to commit.") :=
  congrArg Result.out
    (C4_second_commit_is_a_no_op exCommitFS (str "first") (str "again") (str "a.txt\n")
      (by decide) (closed_ofList _ _ (by decide)) (by decide) (by decide) (by decide))

/-! ### A successful commit has read every tracked bare name -/

theorem bare_ne_commitLoc (fs : FS) (f id : Bytes) : fs.cwd ++ [f] ≠ commitLoc fs id := by
  intro e
  have := congrArg List.length e
  simp [commitLoc] at this

theorem bare_ne_entry (fs : FS) (f id n : Bytes) : fs.cwd ++ [f] ≠ commitLoc fs id ++ [n] := by
  intro e
  have := congrArg List.length e
  simp [commitLoc] at this

theorem bare_ne_vcsLoc (fs : FS) (f name : Bytes) : fs.cwd ++ [f] ≠ vcsLoc fs name := by
  intro e
  have := congrArg List.length e
  simp [vcsLoc] at this

theorem repo_cwd_dir (fs : FS) (hrepo : Repo fs) : fs.isDir fs.cwd = true := by
  have := hrepo.2.1 fs.cwd.length (le_refl _)
  rwa [List.take_length] at this

theorem copy_ok_readable (fs cur : FS) (id f : Bytes) (x : FS)
    (hsnap : Snap fs cur (commitLoc fs id)) (hrepo : Repo fs) (hid : ValidName id)
    (hf : ValidName f)
    (hok : copyFileToCommit cur f (render (commitLoc fs id)) = Step.ok x) :
    (ReadFile fs f).isSome = true := by
  have hres : resolve fs f = some (fs.cwd ++ [f]) := resolve_bare fs f hf (repo_cwd_dir fs hrepo)
  have hres' : resolve cur f = some (fs.cwd ++ [f]) :=
    resolve_mono fs cur hsnap.mono hsnap.cwd f _ hres
  have hsame : cur.nodeAt (fs.cwd ++ [f]) = fs.nodeAt (fs.cwd ++ [f]) :=
    hsnap.same _ (bare_ne_commitLoc fs f id) (fun n => bare_ne_entry fs f id n)
  have hbase : Base f = f := Base_bare f hf.1 hf.2.1
  have hdest : Join [render (commitLoc fs id), Base f] = render (commitLoc fs id ++ [f]) := by
    rw [hbase]
    exact Join_render _ [f] (commitLoc_ne_nil fs id) (by
      intro n hn
      rcases List.mem_append.mp hn with h | h
      · exact commitLoc_valid fs id hrepo hid n h
      · rw [List.mem_singleton] at h
        rw [h]
        exact hf)
  have hresd : resolve cur (render (commitLoc fs id ++ [f])) = some (commitLoc fs id ++ [f]) := by
    apply resolve_render cur _ (by simp)
    · intro n hn
      rcases List.mem_append.mp hn with h | h
      · exact commitLoc_valid fs id hrepo hid n h
      · rw [List.mem_singleton] at h
        rw [h]
        exact hf
    · intro k hk
      simp only [List.length_append, List.length_singleton] at hk
      by_cases hk2 : k < (commitLoc fs id).length
      · rw [List.take_append_of_le_length (by omega)]
        exact hsnap.mono _ (commitLoc_dirs fs id hrepo k hk2)
      · have hk3 : k = (commitLoc fs id).length := by omega
        rw [hk3, List.take_left]
        simp [FS.isDir, hsnap.dirC]
  unfold copyFileToCommit copyFile at hok
  rw [hdest] at hok
  unfold Open Create at hok
  simp only [hres', hresd, hsame] at hok
  cases hn : fs.nodeAt (fs.cwd ++ [f]) with
  | none => simp [hn] at hok
  | some n =>
    cases n with
    | file d =>
      unfold ReadFile lookup
      rw [hres]
      simp [hn]
    | dir =>
      exfalso
      simp only [hn, Option.isSome_some, if_true, hsnap.entries f, Bool.false_eq_true,
        if_false] at hok
      unfold Copy at hok
      rw [nodeAt_set cur _ _ _ (by simp)] at hok
      simp only [(bare_ne_entry fs f id f), if_false, hsame, hn] at hok
      cases hok

theorem copy_loop_readable (fs : FS) (id : Bytes) (hrepo : Repo fs) (hid : ValidName id) :
    ∀ (files : List Bytes) (cur x : FS), Snap fs cur (commitLoc fs id) →
      (∀ f ∈ files, f ≠ [] → ValidName f) →
      forFiles (fun a file => copyFileToCommit a file (render (commitLoc fs id))) cur files =
        Step.ok x →
      ∀ f ∈ files, f ≠ [] → (ReadFile fs f).isSome = true := by
  intro files
  induction files with
  | nil => intro cur x _ _ _ f hf; cases hf
  | cons g rest ih =>
    intro cur x hsnap hbare hok f hf hne
    have hbare' : ∀ f ∈ rest, f ≠ [] → ValidName f :=
      fun f hf => hbare f (List.mem_cons_of_mem _ hf)
    rw [forFiles] at hok
    by_cases hg : g = []
    · simp only [hg, if_true] at hok
      rcases List.mem_cons.mp hf with e | hmem
      · exact absurd (e.trans hg) hne
      · exact ih cur x hsnap hbare' hok f hmem hne
    · simp only [hg, if_false] at hok
      cases hstep : copyFileToCommit cur g (render (commitLoc fs id)) with
      | fatal y => simp [hstep] at hok
      | ok y =>
        have hgr := copy_ok_readable fs cur id g y hsnap hrepo hid
          (hbare g (List.mem_cons_self _ _) hg) hstep
        rcases List.mem_cons.mp hf with e | hmem
        · rw [e]; exact hgr
        · obtain ⟨d, hd⟩ := Option.isSome_iff_exists.mp hgr
          obtain ⟨s, hr, hn⟩ := ReadFile_eq_some fs g d hd
          obtain ⟨hstep2, hsnap'⟩ := copy_step fs cur _ g s d hsnap (commitLoc_ne_nil fs id)
            (commitLoc_valid fs id hrepo hid) (commitLoc_dirs fs id hrepo) hr hn
          rw [hstep2] at hstep
          cases hstep
          simp only [hstep2] at hok
          exact ih _ x hsnap' hbare' hok f hmem hne

theorem commit_success_readable (fs : FS) (message idx : Bytes)
    (hrepo : Repo fs) (hclosed : fs.Closed)
    (hindex : ReadFile fs (Join [vcsDirOf fs, str "index.txt"]) = some idx)
    (hbare : ∀ f ∈ trackedList idx, ValidName f)
    (hsucc : (commitChanges fs (vcsDirOf fs) message).out =
      println (str "Changes are committed.")) :
    ∀ f ∈ trackedList idx, (ReadFile fs f).isSome = true := by
  rcases commit_cases fs (vcsDirOf fs) message with h | ⟨author, idx', hauthor, hindex', hchg, hstat⟩
  · exact absurd hsucc h.2.2
  · rw [hindex] at hindex'
    cases hindex'
    have hvalid := validName_commitID fs (Split idx (str "\n"))
    have hsome := some_of_hasChanges fs _ hchg
    have habs := habs_of_stat fs hrepo _ hvalid hstat
    have hpair : generateCommitID fs (Split idx (str "\n")) =
        ((generateCommitID fs (Split idx (str "\n"))).1, true) := Prod.ext rfl hchg
    generalize (generateCommitID fs (Split idx (str "\n"))).1 = ID at hpair hstat habs hvalid
    have hlen : ¬ idx.length = 0 := by
      intro e
      exact index_ne_nil idx hsome (List.length_eq_zero.mp e)
    have hpath := commit_path fs ID hrepo hvalid
    have hres := resolve_commitLoc fs fs ID hrepo hvalid (fun _ h => h)
    have hmk : Mkdir fs (render (commitLoc fs ID)) = some (fs.set (commitLoc fs ID) Node.dir) := by
      unfold Mkdir
      rw [hres]
      simp [habs]
    rw [hpath] at hstat
    unfold commitChanges at hsucc
    simp only [hauthor, hindex, hlen, if_false, hpair, hpath, hstat, hmk] at hsucc
    simp only [Bool.true_eq_false, if_false, Bool.false_eq_true] at hsucc
    cases hloop : forFiles (fun a file => copyFileToCommit a file (render (commitLoc fs ID)))
        (fs.set (commitLoc fs ID) Node.dir) (Split idx (str "\n")) with
    | fatal y =>
      rw [hloop] at hsucc
      have h' : ([] : Bytes) = println (str "Changes are committed.") := hsucc
      exact absurd h' (by decide)
    | ok y =>
      intro f hf
      have hm := (mem_trackedList idx f).mp hf
      exact copy_loop_readable fs ID hrepo hvalid _ _ y
        (Snap.start fs _ (commitLoc_ne_nil fs ID) habs hclosed)
        (fun g hg hne => hbare g ((mem_trackedList idx g).mpr ⟨hg, hne⟩)) hloop f hm.1 hm.2

/-! ### The states from which a checkout restores the tracked files -/

theorem repo_mono (fs w : FS) (hrepo : Repo fs) (hcwd : w.cwd = fs.cwd)
    (hmono : ∀ k, fs.isDir k = true → w.isDir k = true) : Repo w := by
  unfold Repo
  rw [hcwd]
  exact ⟨hrepo.1, fun k hk => hmono _ (hrepo.2.1 k hk), hmono _ hrepo.2.2.1,
    hmono _ hrepo.2.2.2⟩

theorem vcsDirOf_congr (fs w : FS) (hcwd : w.cwd = fs.cwd) : vcsDirOf w = vcsDirOf fs := by
  unfold vcsDirOf Getwd
  rw [hcwd]

theorem commitLoc_congr (fs w : FS) (hcwd : w.cwd = fs.cwd) (id : Bytes) :
    commitLoc w id = commitLoc fs id := by
  unfold commitLoc
  rw [hcwd]

theorem vcsLoc_congr (fs w : FS) (hcwd : w.cwd = fs.cwd) (name : Bytes) :
    vcsLoc w name = vcsLoc fs name := by
  unfold vcsLoc
  rw [hcwd]

theorem snapshotEntry_bare (fs : FS) (tracked : List Bytes) (f : Bytes)
    (hbare : ∀ g ∈ tracked, ValidName g) (hf : f ∈ tracked) :
    snapshotEntry fs tracked f = some (Node.file ((ReadFile fs f).getD [])) := by
  unfold snapshotEntry
  cases hfind : tracked.reverse.find? (fun g => decide (g ≠ [] ∧ Base g = f)) with
  | none =>
    exfalso
    rw [List.find?_eq_none] at hfind
    have := hfind f (List.mem_reverse.mpr hf)
    have hv := hbare f hf
    simp [hv.1, Base_bare f hv.1 hv.2.1] at this
  | some g =>
    have hmem := List.mem_reverse.mp (List.mem_of_find?_eq_some hfind)
    have hp := List.find?_some hfind
    simp only [decide_eq_true_eq] at hp
    have hv := hbare g hmem
    have : g = f := by rw [← hp.2, Base_bare g hv.1 hv.2.1]
    subst this
    rfl

theorem bare_file (fs : FS) (f d : Bytes) (hrepo : Repo fs) (hf : ValidName f)
    (h : ReadFile fs f = some d) : fs.nodeAt (fs.cwd ++ [f]) = some (Node.file d) := by
  obtain ⟨s, hs, hn⟩ := ReadFile_eq_some fs f d h
  rw [resolve_bare fs f hf (repo_cwd_dir fs hrepo)] at hs
  cases hs
  exact hn

theorem read_bare (fs : FS) (f d : Bytes) (hrepo : Repo fs) (hf : ValidName f)
    (h : fs.nodeAt (fs.cwd ++ [f]) = some (Node.file d)) : ReadFile fs f = some d := by
  unfold ReadFile lookup
  rw [resolve_bare fs f hf (repo_cwd_dir fs hrepo)]
  simp [h]

theorem restorable_init (fs : FS) (message idx : Bytes)
    (hrepo : Repo fs) (hclosed : fs.Closed)
    (hindex : ReadFile fs (Join [vcsDirOf fs, str "index.txt"]) = some idx)
    (hbare : ∀ f ∈ trackedList idx, ValidName f)
    (hsucc : (commitChanges fs (vcsDirOf fs) message).out =
      println (str "Changes are committed.")) :
    Restorable fs idx (commitLoc fs (generateCommitID fs (Split idx (str "\n"))).1)
      (commitChanges fs (vcsDirOf fs) message).fs := by
  have hread := commit_success_readable fs message idx hrepo hclosed hindex hbare hsucc
  rcases commit_cases fs (vcsDirOf fs) message with h | ⟨author, idx', hauthor, hindex', hchg, hstat⟩
  · exact absurd hsucc h.2.2
  · rw [hindex] at hindex'
    cases hindex'
    have hvalid := validName_commitID fs (Split idx (str "\n"))
    have hread' : ∀ f ∈ Split idx (str "\n"), f ≠ [] → (ReadFile fs f).isSome = true :=
      fun f hf hne => hread f ((mem_trackedList idx f).mpr ⟨hf, hne⟩)
    have hsome := some_of_hasChanges fs _ hchg
    have habs := habs_of_stat fs hrepo _ hvalid hstat
    have hcom := commit_result fs message author idx hrepo hclosed hauthor hindex hread' hsome habs
    refine ⟨hcom.cwd, repo_mono fs _ hrepo hcom.cwd hcom.mono, hcom.closed, ?_, hcom.dirC, ?_, ?_⟩
    · obtain ⟨_, hn⟩ := read_vcs_file fs (str "index.txt") idx hrepo (by decide) hindex
      rw [hcom.same _ (vcsLoc_ne_commitLoc fs _ _) (fun n => vcsLoc_ne_entry fs _ _ n)
        (fun e => absurd (vcsLoc_inj fs _ _ e) (by decide))]
      exact hn
    · intro f hf
      obtain ⟨d, hd⟩ := Option.isSome_iff_exists.mp (hread f hf)
      refine ⟨d, ?_⟩
      rw [hcom.same _ (bare_ne_commitLoc fs f _) (fun n => bare_ne_entry fs f _ n)
        (bare_ne_vcsLoc fs f _)]
      exact bare_file fs f d hrepo (hbare f hf) hd
    · intro f hf
      rw [hcom.entries f]
      exact snapshotEntry_bare fs _ f hbare hf

theorem WriteFile_bare (w : FS) (f d d0 : Bytes) (hrepo : Repo w) (hf : ValidName f)
    (hfile : w.nodeAt (w.cwd ++ [f]) = some (Node.file d0)) :
    WriteFile w f d = w.set (w.cwd ++ [f]) (Node.file d) := by
  unfold WriteFile Create
  rw [resolve_bare w f hf (repo_cwd_dir w hrepo)]
  simp only [isDir_false_of_file w _ d0 hfile, Bool.false_eq_true, if_false]
  exact set_set _ _ _ _

theorem entry_ne_bare (fs : FS) (id n f : Bytes) : commitLoc fs id ++ [n] ≠ fs.cwd ++ [f] :=
  fun e => bare_ne_entry fs f id n e.symm

theorem restorable_overwrite (fs w : FS) (idx id f d : Bytes)
    (hw : Restorable fs idx (commitLoc fs id) w) (hf : f ∈ trackedList idx)
    (hbare : ∀ f ∈ trackedList idx, ValidName f) :
    Restorable fs idx (commitLoc fs id) (WriteFile w f d) := by
  obtain ⟨d0, hd0⟩ := hw.files f hf
  have hd0' : w.nodeAt (w.cwd ++ [f]) = some (Node.file d0) := by rw [hw.cwd]; exact hd0
  rw [WriteFile_bare w f d d0 hw.repo (hbare f hf) hd0', hw.cwd]
  have hnd := isDir_false_of_file w _ d0 hd0
  have hne : fs.cwd ++ [f] ≠ [] := by simp
  have hnode : ∀ k, k ≠ fs.cwd ++ [f] →
      (w.set (fs.cwd ++ [f]) (Node.file d)).nodeAt k = w.nodeAt k := by
    intro k hk
    rw [nodeAt_set w _ _ k hne]
    simp [hk]
  refine ⟨hw.cwd, ?_, ?_, ?_, ?_, ?_, ?_⟩
  · exact repo_mono w _ hw.repo rfl (fun k hk => by rw [isDir_set_nondir w _ d hnd k]; exact hk)
  · apply closed_set w _ _ hw.closed hne _ (Or.inr hnd)
    rw [List.dropLast_concat, ← hw.cwd]
    exact repo_cwd_dir w hw.repo
  · rw [hnode _ (bare_ne_vcsLoc fs f _).symm]
    exact hw.index
  · rw [hnode _ (bare_ne_commitLoc fs f id).symm]
    exact hw.dirC
  · intro g hg
    by_cases e : g = f
    · subst e
      exact ⟨d, by rw [nodeAt_set w _ _ _ hne]; simp⟩
    · rw [hnode _ (by simpa using e)]
      exact hw.files g hg
  · intro g hg
    rw [hnode _ (entry_ne_bare fs id g f)]
    exact hw.stored g hg

theorem restorable_commit (fs w : FS) (idx id message : Bytes)
    (hw : Restorable fs idx (commitLoc fs id) w)
    (hbare : ∀ f ∈ trackedList idx, ValidName f) :
    Restorable fs idx (commitLoc fs id) (commitChanges w (vcsDirOf fs) message).fs := by
  rw [← vcsDirOf_congr fs w hw.cwd]
  have hidxread : ReadFile w (Join [vcsDirOf w, str "index.txt"]) = some idx := by
    rw [vcs_path w _ hw.repo (by decide)]
    unfold ReadFile lookup
    rw [resolve_vcsLoc w w _ hw.repo (by decide) (fun _ h => h), vcsLoc_congr fs w hw.cwd]
    simp [hw.index]
  rcases commit_cases w (vcsDirOf w) message with h | ⟨author, idx', hauthor, hindex', hchg, hstat⟩
  · rw [h.1]
    exact hw
  · rw [hidxread] at hindex'
    cases hindex'
    have hvalid := validName_commitID w (Split idx (str "\n"))
    have hread' : ∀ f ∈ Split idx (str "\n"), f ≠ [] → (ReadFile w f).isSome = true := by
      intro f hf hne
      have hmem := (mem_trackedList idx f).mpr ⟨hf, hne⟩
      obtain ⟨d, hd⟩ := hw.files f hmem
      rw [← hw.cwd] at hd
      rw [read_bare w f d hw.repo (hbare f hmem) hd]
      rfl
    have hsome := some_of_hasChanges w _ hchg
    have habs := habs_of_stat w hw.repo _ hvalid hstat
    have hcom := commit_result w message author idx hw.repo hw.closed hauthor hidxread
      hread' hsome habs
    generalize (generateCommitID w (Split idx (str "\n"))).1 = id' at hcom habs
    rw [commitLoc_congr fs w hw.cwd, vcsLoc_congr fs w hw.cwd] at hcom
    rw [commitLoc_congr fs w hw.cwd] at habs
    have hCC : commitLoc fs id ≠ commitLoc fs id' := by
      intro e
      rw [← e, hw.dirC] at habs
      cases habs
    have hlen1 : ∀ n, commitLoc fs id ≠ commitLoc fs id' ++ [n] := by
      intro n e
      have := congrArg List.length e
      simp [commitLoc] at this
    have hent : ∀ g n, commitLoc fs id ++ [g] ≠ commitLoc fs id' ++ [n] := by
      intro g n e
      have := List.append_inj_left' e rfl
      exact hCC this
    have hent2 : ∀ g, commitLoc fs id ++ [g] ≠ commitLoc fs id' := by
      intro g e
      have := congrArg List.length e
      simp [commitLoc] at this
    refine ⟨hcom.cwd.trans hw.cwd, repo_mono w _ hw.repo hcom.cwd hcom.mono, hcom.closed,
      ?_, ?_, ?_, ?_⟩
    · rw [hcom.same _ (vcsLoc_ne_commitLoc fs _ _) (fun n => vcsLoc_ne_entry fs _ _ n)
        (fun e => absurd (vcsLoc_inj fs _ _ e) (by decide))]
      exact hw.index
    · rw [hcom.same _ hCC hlen1 (vcsLoc_ne_commitLoc fs _ _).symm]
      exact hw.dirC
    · intro f hf
      rw [hcom.same _ (bare_ne_commitLoc fs f _) (fun n => bare_ne_entry fs f _ n)
        (bare_ne_vcsLoc fs f _)]
      exact hw.files f hf
    · intro f hf
      rw [hcom.same _ (hent2 f) (hent f) (vcsLoc_ne_entry fs _ _ _).symm]
      exact hw.stored f hf

theorem restorable_actions (fs : FS) (idx id : Bytes)
    (hbare : ∀ f ∈ trackedList idx, ValidName f) :
    ∀ (acts : List Action) (w : FS), Restorable fs idx (commitLoc fs id) w →
      (∀ a ∈ acts, a.Allowed (trackedList idx)) →
      Restorable fs idx (commitLoc fs id) (runActions (vcsDirOf fs) w acts) := by
  intro acts
  induction acts with
  | nil => intro w hw _; exact hw
  | cons a rest ih =>
    intro w hw hall
    have hrest : ∀ b ∈ rest, b.Allowed (trackedList idx) :=
      fun b hb => hall b (List.mem_cons_of_mem _ hb)
    have ha := hall a (List.mem_cons_self _ _)
    unfold runActions
    rw [List.foldl_cons]
    cases a with
    | overwrite path data =>
      exact ih _ (restorable_overwrite fs w idx id path data hw ha hbare) hrest
    | commit message =>
      exact ih _ (restorable_commit fs w idx id message hw hbare) hrest

/-! ### checkoutCommit -/

theorem restore_step (fs cur : FS) (idx id f : Bytes)
    (hw : Restorable fs idx (commitLoc fs id) cur) (hid : ValidName id)
    (hf : f ∈ trackedList idx) (hbare : ∀ f ∈ trackedList idx, ValidName f) :
    restoreFileFromCommit cur f (render (commitLoc fs id)) =
      Step.ok (cur.set (fs.cwd ++ [f]) (Node.file ((ReadFile fs f).getD []))) := by
  have hv := hbare f hf
  have hbase : Base f = f := Base_bare f hv.1 hv.2.1
  have hcv : ∀ n ∈ commitLoc fs id, ValidName n := by
    rw [← commitLoc_congr fs cur hw.cwd]
    exact commitLoc_valid cur id hw.repo hid
  have hcd : ∀ k, k < (commitLoc fs id).length → cur.isDir ((commitLoc fs id).take k) = true := by
    rw [← commitLoc_congr fs cur hw.cwd]
    exact commitLoc_dirs cur id hw.repo
  have hvalid : ∀ n ∈ commitLoc fs id ++ [f], ValidName n := by
    intro n hn
    rcases List.mem_append.mp hn with h | h
    · exact hcv n h
    · rw [List.mem_singleton] at h
      rw [h]
      exact hv
  have hsrc : Join [render (commitLoc fs id), Base f] = render (commitLoc fs id ++ [f]) := by
    rw [hbase]
    exact Join_render _ [f] (commitLoc_ne_nil fs id) hvalid
  have hdst : Join [str ".", Base f] = f := by
    rw [hbase]
    exact Join_dot f hv
  have hressrc : resolve cur (render (commitLoc fs id ++ [f])) = some (commitLoc fs id ++ [f]) := by
    apply resolve_render cur _ (by simp) hvalid
    intro k hk
    simp only [List.length_append, List.length_singleton] at hk
    by_cases hk2 : k < (commitLoc fs id).length
    · rw [List.take_append_of_le_length (by omega)]
      exact hcd k hk2
    · have hk3 : k = (commitLoc fs id).length := by omega
      rw [hk3, List.take_left]
      simp [FS.isDir, hw.dirC]
  have hresdst : resolve cur f = some (fs.cwd ++ [f]) := by
    rw [← hw.cwd]
    exact resolve_bare cur f hv (repo_cwd_dir cur hw.repo)
  obtain ⟨d0, hd0⟩ := hw.files f hf
  have hstored := hw.stored f hf
  have hne : fs.cwd ++ [f] ≠ [] := by simp
  have hopen : Open cur (render (commitLoc fs id ++ [f])) = some (commitLoc fs id ++ [f]) := by
    unfold Open
    rw [hressrc]
    simp [hstored]
  have hcreate : Create cur f = some (cur.set (fs.cwd ++ [f]) (Node.file []), fs.cwd ++ [f]) := by
    unfold Create
    rw [hresdst]
    simp [isDir_false_of_file cur _ d0 hd0]
  have hcopy : Copy (cur.set (fs.cwd ++ [f]) (Node.file [])) (fs.cwd ++ [f])
      (commitLoc fs id ++ [f]) =
      some (cur.set (fs.cwd ++ [f]) (Node.file ((ReadFile fs f).getD []))) := by
    unfold Copy
    rw [nodeAt_set cur _ _ _ hne, nodeAt_set cur _ _ _ hne]
    simp only [entry_ne_bare fs id f f, if_false, if_true, hstored]
    rw [set_set]
    simp
  unfold restoreFileFromCommit copyFile
  rw [hsrc, hdst, hopen]
  simp only [hcreate, hcopy]

theorem restore_loop (fs : FS) (idx id : Bytes) (hid : ValidName id)
    (hbare : ∀ f ∈ trackedList idx, ValidName f) :
    ∀ (files : List Bytes) (cur : FS), Restorable fs idx (commitLoc fs id) cur →
      (∀ f ∈ files, f ≠ [] → f ∈ trackedList idx) →
      ∃ cur', forFiles (fun a file => restoreFileFromCommit a file (render (commitLoc fs id)))
          cur files = Step.ok cur' ∧
        Restorable fs idx (commitLoc fs id) cur' ∧
        ∀ g ∈ trackedList idx,
          (g ∈ files ∨ cur.nodeAt (fs.cwd ++ [g]) = some (Node.file ((ReadFile fs g).getD []))) →
          cur'.nodeAt (fs.cwd ++ [g]) = some (Node.file ((ReadFile fs g).getD [])) := by
  intro files
  induction files with
  | nil =>
    intro cur hw _
    refine ⟨cur, rfl, hw, ?_⟩
    intro g _ h
    rcases h with h | h
    · cases h
    · exact h
  | cons f rest ih =>
    intro cur hw hmem
    have hrest : ∀ g ∈ rest, g ≠ [] → g ∈ trackedList idx :=
      fun g hg => hmem g (List.mem_cons_of_mem _ hg)
    by_cases hf : f = []
    · obtain ⟨cur', hrun, hw', hP⟩ := ih cur hw hrest
      refine ⟨cur', by simpa [forFiles, hf] using hrun, hw', ?_⟩
      intro g hg h
      apply hP g hg
      rcases h with h | h
      · rcases List.mem_cons.mp h with e | h
        · have hv := hbare g hg
          exact absurd (e.trans hf) hv.1
        · exact Or.inl h
      · exact Or.inr h
    · have hft := hmem f (List.mem_cons_self _ _) hf
      have hstep := restore_step fs cur idx id f hw hid hft hbare
      obtain ⟨d0, hd0⟩ := hw.files f hft
      have hd0' : cur.nodeAt (cur.cwd ++ [f]) = some (Node.file d0) := by rw [hw.cwd]; exact hd0
      have hw1 : Restorable fs idx (commitLoc fs id)
          (cur.set (fs.cwd ++ [f]) (Node.file ((ReadFile fs f).getD []))) := by
        have := restorable_overwrite fs cur idx id f ((ReadFile fs f).getD []) hw hft hbare
        rw [WriteFile_bare cur f _ d0 hw.repo (hbare f hft) hd0', hw.cwd] at this
        exact this
      obtain ⟨cur', hrun, hw', hP⟩ := ih _ hw1 hrest
      refine ⟨cur', ?_, hw', ?_⟩
      · rw [forFiles]
        simp only [hf, if_false, hstep]
        exact hrun
      · intro g hg h
        apply hP g hg
        have hne : fs.cwd ++ [f] ≠ [] := by simp
        by_cases e : g = f
        · right
          subst e
          rw [nodeAt_set cur _ _ _ hne]
          simp
        · rcases h with h | h
          · rcases List.mem_cons.mp h with e' | h
            · exact absurd e' e
            · exact Or.inl h
          · right
            rw [nodeAt_set cur _ _ _ hne]
            simp only [List.append_cancel_left_eq, List.cons.injEq, and_true, e, if_false]
            exact h

theorem checkout_restores (fs w : FS) (idx id : Bytes)
    (hw : Restorable fs idx (commitLoc fs id) w) (hid : ValidName id)
    (hbare : ∀ f ∈ trackedList idx, ValidName f) (hsome : trackedList idx ≠ []) :
    (checkoutCommit w (vcsDirOf fs) id).out = str "Switched to commit " ++ id ++ str ".\n" ∧
    (checkoutCommit w (vcsDirOf fs) id).fatal = false ∧
    ∀ f ∈ trackedList idx,
      ReadFile (checkoutCommit w (vcsDirOf fs) id).fs f = some ((ReadFile fs f).getD []) := by
  have hpath : Join [vcsDirOf fs, str "commits", id] = render (commitLoc fs id) := by
    rw [← vcsDirOf_congr fs w hw.cwd, commit_path w id hw.repo hid, commitLoc_congr fs w hw.cwd]
  have hstat : Stat w (render (commitLoc fs id)) = true := by
    unfold Stat lookup
    rw [← commitLoc_congr fs w hw.cwd, resolve_commitLoc w w id hw.repo hid (fun _ h => h),
      commitLoc_congr fs w hw.cwd]
    simp [hw.dirC]
  have hidxread : ReadFile w (Join [vcsDirOf fs, str "index.txt"]) = some idx := by
    rw [← vcsDirOf_congr fs w hw.cwd, vcs_path w _ hw.repo (by decide)]
    unfold ReadFile lookup
    rw [resolve_vcsLoc w w _ hw.repo (by decide) (fun _ h => h), vcsLoc_congr fs w hw.cwd]
    simp [hw.index]
  have hlen : ¬ idx.length = 0 := by
    intro e
    have e' := List.length_eq_zero.mp e
    subst e'
    exact hsome (by decide)
  obtain ⟨cur', hrun, hw', hP⟩ := restore_loop fs idx id hid hbare (Split idx (str "\n")) w hw
    (fun f hf hne => (mem_trackedList idx f).mpr ⟨hf, hne⟩)
  have hnot := isNotExist_of_stat w _ hstat
  unfold checkoutCommit
  simp only [hpath, hnot, hidxread, hlen, if_false, hrun, Bool.false_eq_true]
  refine ⟨trivial, trivial, ?_⟩
  intro f hf
  have hnode := hP f hf (Or.inl ((mem_trackedList idx f).mp hf).1)
  rw [← hw'.cwd] at hnode
  exact read_bare cur' f _ hw'.repo (hbare f hf) hnode

/-- C5: checkout undoes later edits.  In a state where all tracked paths
are bare file names and `commit` succeeds with identifier H, after any
sequence of overwritings of tracked files and further commits, with the
tracked list unchanged, `checkout H` prints "Switched to commit H." and
leaves every tracked file with exactly the content it had when H was
committed. -/
theorem C5_checkout_restores_committed_content (fs : FS) (message idx : Bytes)
    (acts : List Action) (hrepo : Repo fs) (hclosed : fs.Closed)
    (hindex : ReadFile fs (Join [vcsDirOf fs, str "index.txt"]) = some idx)
    (hbare : ∀ f ∈ trackedList idx, ValidName f)
    (hsucc : (commitChanges fs (vcsDirOf fs) message).out =
      println (str "Changes are committed."))
    (hacts : ∀ a ∈ acts, a.Allowed (trackedList idx)) :
    (checkoutCommit
        (runActions (vcsDirOf fs) (commitChanges fs (vcsDirOf fs) message).fs acts)
        (vcsDirOf fs) (generateCommitID fs (Split idx (str "\n"))).1).out =
      str "Switched to commit " ++ (generateCommitID fs (Split idx (str "\n"))).1 ++ str ".\n" ∧
    (checkoutCommit
        (runActions (vcsDirOf fs) (commitChanges fs (vcsDirOf fs) message).fs acts)
        (vcsDirOf fs) (generateCommitID fs (Split idx (str "\n"))).1).fatal = false ∧
    ∀ f ∈ trackedList idx, (ReadFile fs f).isSome = true ∧
      ReadFile (checkoutCommit
          (runActions (vcsDirOf fs) (commitChanges fs (vcsDirOf fs) message).fs acts)
          (vcsDirOf fs) (generateCommitID fs (Split idx (str "\n"))).1).fs f =
        ReadFile fs f := by
  have hread := commit_success_readable fs message idx hrepo hclosed hindex hbare hsucc
  have hvalid := validName_commitID fs (Split idx (str "\n"))
  have hinit := restorable_init fs message idx hrepo hclosed hindex hbare hsucc
  have hw := restorable_actions fs idx _ hbare acts _ hinit hacts
  have hsome : trackedList idx ≠ [] := by
    rcases commit_cases fs (vcsDirOf fs) message with h | ⟨author, idx', _, hindex', hchg, _⟩
    · exact absurd hsucc h.2.2
    · rw [hindex] at hindex'
      cases hindex'
      obtain ⟨f, hf, hne⟩ := some_of_hasChanges fs _ hchg
      intro e
      have := (mem_trackedList idx f).mpr ⟨hf, hne⟩
      rw [e] at this
      cases this
  obtain ⟨h1, h2, h3⟩ := checkout_restores fs _ idx _ hw hvalid hbare hsome
  refine ⟨h1, h2, ?_⟩
  intro f hf
  refine ⟨hread f hf, ?_⟩
  rw [h3 f hf]
  obtain ⟨d, hd⟩ := Option.isSome_iff_exists.mp (hread f hf)
  rw [hd]
  rfl

set_option maxRecDepth 100000 in
/-- C5 (witness): in the example, `a.txt` holding "A" is committed, then
overwritten with "B", committed again and overwritten with "C"; the
checkout of the first commit leaves `a.txt` holding "A". -/
theorem C5_checkout_restores_committed_content_witness :
    ReadFile (checkoutCommit
        (runActions (vcsDirOf exCommitFS)
          (commitChanges exCommitFS (vcsDirOf exCommitFS) (str "first")).fs exActions)
        (vcsDirOf exCommitFS) (generateCommitID exCommitFS (Split (str "a.txt\n") (str "\n"))).1).fs
      (str "a.txt") = some (str "A") := by
  have h := (C5_checkout_restores_committed_content exCommitFS (str "first") (str "a.txt\n")
    exActions (by decide) (closed_ofList _ _ (by decide)) (by decide) (by decide) (by decide)
    (by decide)).2.2 (str "a.txt") (by decide)
  rw [h.2]
  decide

/-! ### The error of os.Stat -/

/-- For a file name of at most `NAME_MAX` bytes without a zero byte, with
nothing of that name in the working directory, `os.Stat` fails with `ENOENT`. -/
theorem statErr_of_missing_name (fs : FS) (n : Bytes) (hv : ValidName n)
    (hlen : n.length ≤ NAME_MAX) (hz : (0 : UInt8) ∉ n) (hd : fs.isDir fs.cwd = true)
    (hnone : fs.nodeAt (fs.cwd ++ [n]) = none) : StatErr fs n = some Errno.ENOENT := by
  have hstat : Stat fs n = false := by
    unfold Stat lookup
    rw [resolve_bare fs n hv hd]
    simp [hnone]
  have hhead : ¬ n.head? = some SEP := by
    intro e
    cases n with
    | nil => simp at e
    | cons x xs =>
      simp only [List.head?_cons, Option.some.injEq] at e
      exact hv.2.1 (by rw [e]; exact List.mem_cons_self _ _)
  have hpm : ¬ PATH_MAX ≤ n.length := by
    unfold NAME_MAX at hlen
    unfold PATH_MAX
    omega
  have hnm : ¬ NAME_MAX < n.length := by omega
  have hsp : ¬ (n = [] ∨ n = str ".") := by
    intro h
    rcases h with h | h
    · exact hv.1 h
    · exact hv.2.2.1 h
  unfold StatErr
  simp only [hstat, Bool.false_eq_true, if_false, hv.1, hz, hpm, hhead, Split_plain n hv.2.1]
  simp only [walkErrno, hd, if_true, hsp, if_false, hv.2.2.2, hnm]

/-! ### checkoutCommit: a tracked path without an entry in the snapshot -/

theorem forFiles_filter (body : FS → Bytes → Step) :
    ∀ (files : List Bytes) (fs : FS),
      forFiles body fs files = forFiles body fs (files.filter fun f => decide (f ≠ [])) := by
  intro files
  induction files with
  | nil => intro fs; rfl
  | cons f rest ih =>
    intro fs
    by_cases hf : f = []
    · rw [forFiles, List.filter_cons_of_neg (by simp [hf])]
      simp only [hf, if_true]
      exact ih fs
    · rw [forFiles, List.filter_cons_of_pos (by simp [hf]), forFiles]
      simp only [hf, if_false]
      cases body fs f with
      | ok fs1 => exact ih fs1
      | fatal fs1 => rfl

theorem isFile_iff (fs : FS) (l : Loc) :
    fs.isFile l = true ↔ ∃ d, fs.nodeAt l = some (Node.file d) := by
  unfold FS.isFile
  cases h : fs.nodeAt l with
  | none => simp
  | some n =>
    cases n with
    | file d => simp
    | dir => simp

theorem ne_nil_of_validBase (g : Bytes) (hv : ValidName (Base g)) : g ≠ [] := by
  intro e
  subst e
  exact absurd hv (by decide)

theorem restoring_paths (fs cur : FS) (id g : Bytes) (done : List Bytes) (hrepo : Repo fs)
    (hid : ValidName id) (hdir : fs.isDir (commitLoc fs id) = true)
    (hinv : Restoring fs done (commitLoc fs id) cur) (hv : ValidName (Base g)) :
    Join [render (commitLoc fs id), Base g] = render (commitLoc fs id ++ [Base g]) ∧
    Join [str ".", Base g] = Base g ∧
    resolve cur (render (commitLoc fs id ++ [Base g])) = some (commitLoc fs id ++ [Base g]) ∧
    resolve cur (Base g) = some (fs.cwd ++ [Base g]) ∧
    cur.nodeAt (commitLoc fs id ++ [Base g]) = fs.nodeAt (commitLoc fs id ++ [Base g]) := by
  have hvalid : ∀ n ∈ commitLoc fs id ++ [Base g], ValidName n := by
    intro n hn
    rcases List.mem_append.mp hn with h | h
    · exact commitLoc_valid fs id hrepo hid n h
    · rw [List.mem_singleton] at h
      rw [h]
      exact hv
  refine ⟨Join_render _ [Base g] (commitLoc_ne_nil fs id) hvalid, Join_dot (Base g) hv, ?_, ?_, ?_⟩
  · apply resolve_render cur _ (by simp) hvalid
    intro k hk
    simp only [List.length_append, List.length_singleton] at hk
    rw [hinv.dirs]
    by_cases hk2 : k < (commitLoc fs id).length
    · rw [List.take_append_of_le_length (by omega)]
      exact commitLoc_dirs fs id hrepo k hk2
    · have hk3 : k = (commitLoc fs id).length := by omega
      rw [hk3, List.take_left]
      exact hdir
  · have := resolve_bare cur (Base g) hv (by rw [hinv.dirs, hinv.cwd]; exact repo_cwd_dir fs hrepo)
    rwa [hinv.cwd] at this
  · exact hinv.same _ (fun g' _ => entry_ne_bare fs id (Base g) (Base g'))

theorem restoring_step (fs cur : FS) (id g : Bytes) (done : List Bytes) (hrepo : Repo fs)
    (hid : ValidName id) (hdir : fs.isDir (commitLoc fs id) = true)
    (hinv : Restoring fs done (commitLoc fs id) cur) (hv : ValidName (Base g))
    (hfile : fs.isFile (commitLoc fs id ++ [Base g]) = true)
    (hnd : fs.isDir (fs.cwd ++ [Base g]) = false) :
    ∃ x, restoreFileFromCommit cur g (render (commitLoc fs id)) = Step.ok x ∧
      Restoring fs (done ++ [g]) (commitLoc fs id) x := by
  obtain ⟨hsrc, hdst, hressrc, hresdst, hentry⟩ :=
    restoring_paths fs cur id g done hrepo hid hdir hinv hv
  obtain ⟨d, hd⟩ := (isFile_iff fs _).mp hfile
  have hnd' : cur.isDir (fs.cwd ++ [Base g]) = false := by rw [hinv.dirs]; exact hnd
  have hne : fs.cwd ++ [Base g] ≠ [] := by simp
  have hopen : Open cur (render (commitLoc fs id ++ [Base g])) =
      some (commitLoc fs id ++ [Base g]) := by
    unfold Open
    rw [hressrc]
    simp [hentry, hd]
  have hcreate : Create cur (Base g) =
      some (cur.set (fs.cwd ++ [Base g]) (Node.file []), fs.cwd ++ [Base g]) := by
    unfold Create
    rw [hresdst]
    simp [hnd']
  have hcopy : Copy (cur.set (fs.cwd ++ [Base g]) (Node.file [])) (fs.cwd ++ [Base g])
      (commitLoc fs id ++ [Base g]) = some (cur.set (fs.cwd ++ [Base g]) (Node.file d)) := by
    unfold Copy
    rw [nodeAt_set cur _ _ _ hne, nodeAt_set cur _ _ _ hne]
    simp only [entry_ne_bare fs id (Base g) (Base g), if_false, if_true, hentry, hd]
    rw [set_set]
    simp
  refine ⟨cur.set (fs.cwd ++ [Base g]) (Node.file d), ?_, hinv.cwd, ?_, ?_, ?_⟩
  · unfold restoreFileFromCommit copyFile
    rw [hsrc, hdst, hopen]
    simp only [hcreate, hcopy]
  · intro k
    rw [isDir_set_nondir cur _ d hnd' k]
    exact hinv.dirs k
  · intro g' hg'
    rw [nodeAt_set cur _ _ _ hne]
    by_cases e : Base g' = Base g
    · rw [e]
      simp only [if_true]
      exact hd.symm
    · have hne' : ¬ fs.cwd ++ [Base g'] = fs.cwd ++ [Base g] := by simpa using e
      simp only [hne', if_false]
      rcases List.mem_append.mp hg' with h | h
      · exact hinv.restored g' h
      · rw [List.mem_singleton] at h
        rw [h] at e
        exact absurd rfl e
  · intro k hk
    rw [nodeAt_set cur _ _ _ hne]
    have hkg : ¬ k = fs.cwd ++ [Base g] := hk g (by simp)
    simp only [hkg, if_false]
    exact hinv.same k (fun g' hg' => hk g' (List.mem_append_left _ hg'))

theorem Base_cases (path : Bytes) :
    Base path = str "." ∨ Base path = str ".." ∨ Base path = [SEP] ∨ ValidName (Base path) := by
  unfold Base
  by_cases hp : path = []
  · left
    simp [hp]
  · simp only [hp, if_false]
    by_cases hb : ((((path.reverse.dropWhile fun b => decide (b = SEP)).reverse).reverse.takeWhile
        fun b => decide (b ≠ SEP)).reverse) = []
    · right; right; left
      simp only [hb, if_true]
    · simp only [hb, if_false]
      have hsep : SEP ∉ ((((path.reverse.dropWhile fun b => decide (b = SEP)).reverse).reverse.takeWhile
          fun b => decide (b ≠ SEP)).reverse) := by
        intro hmem
        have := List.mem_takeWhile_imp (List.mem_reverse.mp hmem)
        simp at this
      by_cases h1 : ((((path.reverse.dropWhile fun b => decide (b = SEP)).reverse).reverse.takeWhile
          fun b => decide (b ≠ SEP)).reverse) = str "."
      · left; exact h1
      · by_cases h2 : ((((path.reverse.dropWhile fun b => decide (b = SEP)).reverse).reverse.takeWhile
            fun b => decide (b ≠ SEP)).reverse) = str ".."
        · right; left; exact h2
        · right; right; right
          exact ⟨hb, hsep, h1, h2⟩

theorem Create_dot (cur : FS) : Create cur (str ".") = none := by
  have hs : Split (str ".") [SEP] = [str "."] := by decide
  have hne : str "." ≠ [] := by decide
  have hh : ¬ (str ".").head? = some SEP := by decide
  unfold Create resolve
  simp only [hne, if_false, hh, hs]
  by_cases hd : cur.isDir cur.cwd = true
  · simp [walk, hd]
  · simp [walk, hd]

theorem Create_dotdot (cur : FS) : Create cur (str "..") = none := by
  have hs : Split (str "..") [SEP] = [str ".."] := by decide
  have hne : str ".." ≠ [] := by decide
  have hh : ¬ (str "..").head? = some SEP := by decide
  have h1 : ¬ (str ".." = [] ∨ str ".." = str ".") := by decide
  unfold Create resolve
  simp only [hne, if_false, hh, hs]
  by_cases hd : cur.isDir cur.cwd = true
  · by_cases hd2 : cur.isDir cur.cwd.dropLast = true
    · simp [walk, hd, hd2, h1]
    · simp [walk, hd, hd2, h1]
  · simp [walk, hd]

theorem copyFile_of_create_none (cur : FS) (src dest : Bytes) (h : Create cur dest = none) :
    copyFile cur src dest = Step.fatal cur := by
  unfold copyFile
  cases Open cur src with
  | none => rfl
  | some s => simp only [h]

theorem restore_improper_base (cur : FS) (f commitDir : Bytes)
    (h : Base f = str "." ∨ Base f = str ".." ∨ Base f = [SEP]) :
    restoreFileFromCommit cur f commitDir = Step.fatal cur := by
  unfold restoreFileFromCommit
  apply copyFile_of_create_none
  rcases h with h | h | h
  · rw [h]
    have : Join [str ".", str "."] = str "." := by decide
    rw [this]
    exact Create_dot cur
  · rw [h]
    have : Join [str ".", str ".."] = str ".." := by decide
    rw [this]
    exact Create_dotdot cur
  · rw [h]
    have : Join [str ".", [SEP]] = str "." := by decide
    rw [this]
    exact Create_dot cur

theorem restoring_stop (fs cur : FS) (id f : Bytes) (done : List Bytes) (hrepo : Repo fs)
    (hid : ValidName id) (hdir : fs.isDir (commitLoc fs id) = true)
    (hinv : Restoring fs done (commitLoc fs id) cur)
    (hnone : fs.nodeAt (commitLoc fs id ++ [Base f]) = none) :
    restoreFileFromCommit cur f (render (commitLoc fs id)) = Step.fatal cur := by
  rcases Base_cases f with h | h | h | hv
  · exact restore_improper_base cur f _ (Or.inl h)
  · exact restore_improper_base cur f _ (Or.inr (Or.inl h))
  · exact restore_improper_base cur f _ (Or.inr (Or.inr h))
  · obtain ⟨hsrc, _, hressrc, _, hentry⟩ :=
      restoring_paths fs cur id f done hrepo hid hdir hinv hv
    have hopen : Open cur (render (commitLoc fs id ++ [Base f])) = none := by
      unfold Open
      rw [hressrc]
      simp [hentry, hnone]
    unfold restoreFileFromCommit copyFile
    rw [hsrc, hopen]

theorem restoring_loop (fs : FS) (id f : Bytes) (post : List Bytes) (hrepo : Repo fs)
    (hid : ValidName id) (hdir : fs.isDir (commitLoc fs id) = true)
    (hfne : f ≠ []) (hnone : fs.nodeAt (commitLoc fs id ++ [Base f]) = none) :
    ∀ (pre done : List Bytes) (cur : FS), Restoring fs done (commitLoc fs id) cur →
      (∀ g ∈ pre, ValidName (Base g) ∧ fs.isFile (commitLoc fs id ++ [Base g]) = true ∧
        fs.isDir (fs.cwd ++ [Base g]) = false) →
      ∃ x, forFiles (fun a file => restoreFileFromCommit a file (render (commitLoc fs id)))
          cur (pre ++ f :: post) = Step.fatal x ∧
        Restoring fs (done ++ pre) (commitLoc fs id) x := by
  intro pre
  induction pre with
  | nil =>
    intro done cur hinv _
    refine ⟨cur, ?_, by simpa using hinv⟩
    rw [List.nil_append, forFiles]
    simp only [hfne, if_false, restoring_stop fs cur id f done hrepo hid hdir hinv hnone]
  | cons g rest ih =>
    intro done cur hinv hpre
    obtain ⟨hvg, hfile, hnd⟩ := hpre g (List.mem_cons_self _ _)
    obtain ⟨x, hx, hinvx⟩ := restoring_step fs cur id g done hrepo hid hdir hinv hvg hfile hnd
    obtain ⟨y, hy, hinvy⟩ := ih (done ++ [g]) x hinvx
      (fun g' hg' => hpre g' (List.mem_cons_of_mem _ hg'))
    refine ⟨y, ?_, by simpa using hinvy⟩
    rw [List.cons_append, forFiles]
    simp only [ne_nil_of_validBase g hvg, if_false, hx]
    exact hy

/-- C6 (amended): for every existing commit identifier and every tracked
list containing a path whose base name has no entry in that commit's
snapshot directory, let `f` be the first such path.  If every tracked path
listed before `f` has a regular file as its entry and no directory of its
base name stands in the working directory, then `checkoutCommit` restores,
under its base name in the working directory, every tracked path listed
before `f`, leaves everything else untouched, in particular the working
file of `f` and of every path whose base name has no entry, and is ended by
`log.Fatal` at `f`: it prints nothing, so it does not report "Switched to
commit <id>.". -/
theorem C6_checkout_stops_at_first_path_without_entry (fs : FS) (idx id f : Bytes)
    (pre post : List Bytes) (hrepo : Repo fs) (hid : ValidName id)
    (hdir : fs.isDir (commitLoc fs id) = true)
    (hindex : ReadFile fs (Join [vcsDirOf fs, str "index.txt"]) = some idx)
    (hsplit : trackedList idx = pre ++ f :: post)
    (hpre : ∀ g ∈ pre, ValidName (Base g) ∧ fs.isFile (commitLoc fs id ++ [Base g]) = true ∧
      fs.isDir (fs.cwd ++ [Base g]) = false)
    (hf : fs.nodeAt (commitLoc fs id ++ [Base f]) = none) :
    (checkoutCommit fs (vcsDirOf fs) id).fatal = true ∧
    (checkoutCommit fs (vcsDirOf fs) id).out = [] ∧
    (∀ g ∈ pre, (checkoutCommit fs (vcsDirOf fs) id).fs.nodeAt (fs.cwd ++ [Base g]) =
      fs.nodeAt (commitLoc fs id ++ [Base g])) ∧
    (∀ k, (∀ g ∈ pre, k ≠ fs.cwd ++ [Base g]) →
      (checkoutCommit fs (vcsDirOf fs) id).fs.nodeAt k = fs.nodeAt k) ∧
    (∀ h, fs.nodeAt (commitLoc fs id ++ [Base h]) = none →
      (checkoutCommit fs (vcsDirOf fs) id).fs.nodeAt (fs.cwd ++ [Base h]) =
        fs.nodeAt (fs.cwd ++ [Base h])) := by
  have hpath := commit_path fs id hrepo hid
  have hstat : Stat fs (render (commitLoc fs id)) = true := by
    unfold Stat lookup
    rw [resolve_commitLoc fs fs id hrepo hid (fun _ h => h)]
    have : fs.nodeAt (commitLoc fs id) = some Node.dir := by
      simpa [FS.isDir] using hdir
    simp [this]
  have hnot := isNotExist_of_stat fs _ hstat
  have hlen : ¬ idx.length = 0 := by
    intro e
    have e' := List.length_eq_zero.mp e
    subst e'
    have : trackedList [] = [] := by decide
    rw [this] at hsplit
    simp at hsplit
  have hstart : Restoring fs [] (commitLoc fs id) fs :=
    ⟨rfl, fun _ => rfl, fun _ h => absurd h (List.not_mem_nil _), fun _ _ => rfl⟩
  have hfne : f ≠ [] :=
    ((mem_trackedList idx f).mp (by rw [hsplit]; simp)).2
  obtain ⟨x, hrun, hinv⟩ := restoring_loop fs id f post hrepo hid hdir hfne hf pre [] fs
    hstart hpre
  have hrun' : forFiles (fun a file => restoreFileFromCommit a file (render (commitLoc fs id)))
      fs (Split idx (str "\n")) = Step.fatal x := by
    rw [forFiles_filter]
    have : (Split idx (str "\n")).filter (fun f => decide (f ≠ [])) = pre ++ f :: post := hsplit
    rw [this]
    exact hrun
  rw [List.nil_append] at hinv
  unfold checkoutCommit
  simp only [hpath, hnot, hindex, hlen, if_false, hrun', Bool.false_eq_true]
  refine ⟨trivial, trivial, hinv.restored, hinv.same, ?_⟩
  intro h hnone
  apply hinv.same
  intro g hg e
  have hb : Base h = Base g := by simpa using e
  obtain ⟨d, hd⟩ := (isFile_iff fs _).mp (hpre g hg).2.1
  rw [hb, hd] at hnone
  cases hnone

set_option maxRecDepth 100000 in
/-- C6 (witness): in the example, where the tracked list is `a.txt, b.txt`
and `b.txt` was added after the commit, the checkout of that commit leaves
`a.txt` with its committed content "A" in place of "A2", leaves `b.txt`
holding "B", and is ended by `log.Fatal` without output. -/
theorem C6_checkout_stops_at_first_path_without_entry_witness :
    trackedList (str "a.txt\nb.txt\n") = [str "a.txt"] ++ str "b.txt" :: [] ∧
    exLaterAddFS.nodeAt (exLaterAddFS.cwd ++ [Base (str "a.txt")]) =
      some (Node.file (str "A2")) ∧
    exLaterAddFS.nodeAt (commitLoc exLaterAddFS exCommitID ++ [Base (str "a.txt")]) =
      some (Node.file (str "A")) ∧
    exLaterAddFS.nodeAt (exLaterAddFS.cwd ++ [Base (str "b.txt")]) =
      some (Node.file (str "B")) ∧
    (checkoutCommit exLaterAddFS (vcsDirOf exLaterAddFS) exCommitID).fatal = true ∧
    (checkoutCommit exLaterAddFS (vcsDirOf exLaterAddFS) exCommitID).out = [] ∧
    (checkoutCommit exLaterAddFS (vcsDirOf exLaterAddFS) exCommitID).fs.nodeAt
        (exLaterAddFS.cwd ++ [Base (str "a.txt")]) =
      exLaterAddFS.nodeAt (commitLoc exLaterAddFS exCommitID ++ [Base (str "a.txt")]) ∧
    (checkoutCommit exLaterAddFS (vcsDirOf exLaterAddFS) exCommitID).fs.nodeAt
        (exLaterAddFS.cwd ++ [Base (str "b.txt")]) =
      exLaterAddFS.nodeAt (exLaterAddFS.cwd ++ [Base (str "b.txt")]) :=
  have h := C6_checkout_stops_at_first_path_without_entry exLaterAddFS (str "a.txt\nb.txt\n")
    exCommitID (str "b.txt") [str "a.txt"] [] (by decide) (by decide) (by decide) (by decide)
    (by decide) (by decide) (by decide)
  ⟨by decide, by decide, by decide, by decide, h.1, h.2.1,
    h.2.2.1 (str "a.txt") (by decide), h.2.2.2.2 (str "b.txt") (by decide)⟩

/-! ### generateCommitID: inputs with the same identifier -/

theorem eq_of_toNat_getD (a b : Bytes) (ha : a.length = 32) (hb : b.length = 32)
    (h : ∀ i : Fin 32, (a.getD i 0).toNat = (b.getD i 0).toNat) : a = b := by
  apply List.ext_getElem (by rw [ha, hb])
  intro i h1 h2
  have hi : i < 32 := by rw [ha] at h1; exact h1
  have := UInt8.ext (h ⟨i, hi⟩)
  simpa [List.getD_eq_getElem?_getD, List.getElem?_eq_getElem h1, List.getElem?_eq_getElem h2]
    using this

theorem digest_eq_of_code_eq (a b : Bytes)
    (h : (fun i : Fin 32 => (⟨((sha256 a).getD i 0).toNat, UInt8.toNat_lt _⟩ : Fin 256)) =
      fun i : Fin 32 => (⟨((sha256 b).getD i 0).toNat, UInt8.toNat_lt _⟩ : Fin 256)) :
    sha256 a = sha256 b := by
  apply eq_of_toNat_getD _ _ (sha256_length a) (sha256_length b)
  intro i
  have := congrFun h i
  simpa using this

/-- There are infinitely many byte strings and finitely many digests: two
different byte strings have the same SHA-256 digest. -/
theorem sha256_collision_exists : ∃ a b : Bytes, Collide a b := by
  obtain ⟨a, b, hne, h⟩ := Finite.exists_ne_map_eq_of_infinite
    (fun x : Bytes => fun i : Fin 32 =>
      (⟨((sha256 x).getD i 0).toNat, UInt8.toNat_lt _⟩ : Fin 256))
  exact ⟨a, b, hne, digest_eq_of_code_eq a b h⟩

theorem hashInput_of_set (d : Bytes) :
    hashInput (exPairFS.set (exCwd ++ [str "a.txt"]) (Node.file d)) [str "a.txt"] = d := by
  have hread := ReadFile_set_file exPairFS (exCwd ++ [str "a.txt"]) (str "a") d (by decide)
    (str "a.txt")
  have hres : resolve exPairFS (str "a.txt") = some (exCwd ++ [str "a.txt"]) := by decide
  have hne : str "a.txt" ≠ [] := by decide
  rw [hres] at hread
  rw [hashInput_cons, hashInput_nil]
  simp [hne, hread]

theorem hashInput_pick (l : List Bool) :
    hashInput exPairFS (l.map exPick) = l.map exPickByte := by
  induction l with
  | nil => rfl
  | cons c l ih =>
    rw [List.map_cons, hashInput_cons, ih]
    cases c
    · have h1 : exPick false ≠ [] := by decide
      have h2 : ReadFile exPairFS (exPick false) = some [exPickByte false] := by decide
      simp [h1, h2]
    · have h1 : exPick true ≠ [] := by decide
      have h2 : ReadFile exPairFS (exPick true) = some [exPickByte true] := by decide
      simp [h1, h2]

theorem bits_perm (w : List Bool) :
    (w ++ w.map not).Perm (List.replicate w.length [true, false]).flatten := by
  induction w with
  | nil => exact List.Perm.refl _
  | cons c w ih =>
    have h1 : ((c :: w) ++ (c :: w).map not).Perm (c :: (!c) :: (w ++ w.map not)) := by
      rw [List.map_cons, List.cons_append]
      exact List.Perm.cons c List.perm_middle
    have h2 : (c :: (!c) :: (w ++ w.map not)).Perm (true :: false :: (w ++ w.map not)) := by
      cases c
      · exact List.Perm.swap _ _ _
      · exact List.Perm.refl _
    have h3 : (true :: false :: (w ++ w.map not)).Perm
        (true :: false :: (List.replicate w.length [true, false]).flatten) :=
      List.Perm.cons _ (List.Perm.cons _ ih)
    have h4 : (List.replicate (c :: w).length [true, false]).flatten =
        true :: false :: (List.replicate w.length [true, false]).flatten := by
      simp [List.replicate_succ]
    rw [h4]
    exact (h1.trans h2).trans h3

theorem exPickByte_injective : Function.Injective exPickByte := by
  intro a b h
  cases a <;> cases b <;> first | rfl | exact absurd h (by decide)

/-- Among the reorderings of one tracked list of 514 entries there are more
different concatenations of contents than there are digests: two
reorderings of the same list have different concatenations and the same
identifier. -/
theorem reordering_collision_exists :
    ∃ files files' : List Bytes, files'.Perm files ∧
      hashInput exPairFS files' ≠ hashInput exPairFS files ∧
      (generateCommitID exPairFS files').1 = (generateCommitID exPairFS files).1 := by
  have hcard : Fintype.card (Fin 32 → Fin 256) < Fintype.card (Fin 257 → Bool) := by
    simp only [Fintype.card_fun, Fintype.card_fin, Fintype.card_bool]
    norm_num
  obtain ⟨v, w, hne, h⟩ := Fintype.exists_ne_map_eq_of_card_lt
    (fun w : Fin 257 → Bool => fun i : Fin 32 =>
      (⟨((sha256 (hashInput exPairFS
        ((List.ofFn w ++ (List.ofFn w).map not).map exPick))).getD i 0).toNat,
        UInt8.toNat_lt _⟩ : Fin 256)) hcard
  have hdig := digest_eq_of_code_eq _ _ h
  refine ⟨(List.ofFn w ++ (List.ofFn w).map not).map exPick,
    (List.ofFn v ++ (List.ofFn v).map not).map exPick, ?_, ?_, ?_⟩
  · apply List.Perm.map
    have hv := bits_perm (List.ofFn v)
    have hw := bits_perm (List.ofFn w)
    rw [List.length_ofFn] at hv hw
    exact hv.trans hw.symm
  · rw [hashInput_pick, hashInput_pick]
    intro e
    have e1 := List.map_injective_iff.mpr exPickByte_injective e
    have e2 := (List.append_inj e1 (by rw [List.length_ofFn, List.length_ofFn])).1
    exact hne (List.ofFn_injective e2)
  · exact (generateCommitID_eq_iff _ _ _ _).mpr hdig

/-- C9 (counterexample): the identifier does not always change.  First, with
`a.txt` holding "a" and `b.txt` holding "aa", the tracked lists `a.txt,
b.txt` and `b.txt, a.txt` differ in order, the two files differ in content,
and both orders get the same identifier.  Second, there are two different
contents of the tracked file `a.txt` that get the same identifier, because
there are infinitely many contents and finitely many digests.  Third, there
are a tracked list and a reordering of it that differ in the concatenation
of the contents read and get the same identifier. -/
theorem C9_the_id_can_stay_the_same :
    ([str "a.txt", str "b.txt"] ≠ [str "b.txt", str "a.txt"] ∧
      ReadFile exOrderFS (str "a.txt") = some (str "a") ∧
      ReadFile exOrderFS (str "b.txt") = some (str "aa") ∧
      (generateCommitID exOrderFS [str "a.txt", str "b.txt"]).1 =
        (generateCommitID exOrderFS [str "b.txt", str "a.txt"]).1) ∧
    (∃ d d' : Bytes, d' ≠ d ∧
      (generateCommitID (exPairFS.set (exCwd ++ [str "a.txt"]) (Node.file d'))
          [str "a.txt"]).1 =
        (generateCommitID (exPairFS.set (exCwd ++ [str "a.txt"]) (Node.file d))
          [str "a.txt"]).1) ∧
    (∃ files files' : List Bytes, files'.Perm files ∧
      hashInput exPairFS files' ≠ hashInput exPairFS files ∧
      (generateCommitID exPairFS files').1 = (generateCommitID exPairFS files).1) := by
  refine ⟨⟨by decide, by decide, by decide, ?_⟩, ?_, reordering_collision_exists⟩
  · rw [generateCommitID_fst, generateCommitID_fst]
    have h : hashInput exOrderFS [str "a.txt", str "b.txt"] =
        hashInput exOrderFS [str "b.txt", str "a.txt"] := by decide
    rw [h]
  · obtain ⟨a, b, hne, h⟩ := sha256_collision_exists
    refine ⟨b, a, hne, ?_⟩
    rw [generateCommitID_eq_iff, hashInput_of_set, hashInput_of_set]
    exact h

end VCS
